import Mathlib

/-! Huffmann: bit stream, tree builder and archive codec.

A shallow embedding of `bitstream.c`, `tree.c` and `compression.c`.

* A `FILE` is an in-memory byte sequence with a cursor and the end-of-file
  indicator of the C library; reads and writes on it never report an error.
* Pointers to `NODE` are indices into an arena (`Heap`); `NULL` is `none`.
  `malloc` appends a cell to the arena and never fails.
* Machine integers are natural numbers reduced modulo their width where the
  source can wrap.
* Functions that can dereference `NULL` or recurse over the arena return a
  `Res`, whose `fault` constructor records a crash or an exhausted recursion
  budget; `SUCCESS` and `FAILURE` are the return codes of the source.
-/

namespace Huffmann

/-! ## Return codes, faults -/

/-- Return code `SUCCESS` of the source. -/
def SUCCESS : Nat := 0

/-- Return code `FAILURE` of the source. -/
def FAILURE : Nat := 1

/-- The value `EOF` of the C library. -/
def EOF : Int := -1

/-- Ways in which a run can leave the defined behaviour of the source. -/
inductive Fault
  | nullDeref
  | outOfBounds
  | outOfFuel
  deriving DecidableEq

/-- Outcome of a run: a value, or a fault. -/
inductive Res (α : Type)
  | ok (a : α)
  | fault (f : Fault)
  deriving DecidableEq

/-- Sequencing of runs: a fault stops the run. -/
def Res.bind {α β : Type} (r : Res α) (k : α → Res β) : Res β :=
  match r with
  | Res.ok a => k a
  | Res.fault f => Res.fault f

instance : Monad Res where
  pure := Res.ok
  bind := Res.bind

/-! ## Constants of `bitstream.h` and `tree.h` -/

def ULONG_GET_MASK : Nat := 0x80000000
def ULONG_SET_MASK : Nat := 0x00000001
def ULONG_WIDTH : Nat := 32
def UCHAR_GET_MASK : Nat := 0x80
def UCHAR_SET_MASK : Nat := 0x01
def UCHAR_WIDTH : Nat := 8
def MAX_CHAR : Nat := 256

/-- The type `enum BIT`: `LOW = 0`, `HIGH = 1`. -/
abbrev BIT := Bool

/-- Bit value `LOW`. -/
abbrev LOW : BIT := false

/-- Bit value `HIGH`. -/
abbrev HIGH : BIT := true

/-! ## Byte streams (`FILE`) -/

/-- A byte stream of the C library: its bytes, the cursor and the end-of-file
indicator. -/
structure FILE where
  content : List Nat
  pos : Nat
  eof : Bool
  deriving DecidableEq

/-- A stream opened on the given bytes, cursor at the start. -/
def FILE.open (bytes : List Nat) : FILE :=
  { content := bytes, pos := 0, eof := false }

/-- The test `feof`: the end-of-file indicator, set only by a read that found
no byte. -/
def feof (f : FILE) : Bool := f.eof

/-- The test `ferror`: streams of this model never fail. -/
def ferror (_f : FILE) : Bool := false

/-- The read `fgetc`: the next byte as a non-negative `int`, or `EOF` with the
end-of-file indicator set. -/
def fgetc (f : FILE) : Int × FILE :=
  match f.content[f.pos]? with
  | some b => ((b : Int), { f with pos := f.pos + 1 })
  | none => (EOF, { f with eof := true })

/-- The write `fputc` on a sink that is written sequentially: appends the byte
`(unsigned char) c` and returns it. -/
def fputc (c : Nat) (f : FILE) : Int × FILE :=
  (((c % 256 : Nat) : Int), { f with content := f.content ++ [c % 256], pos := f.pos + 1 })

/-- The call `rewind`: cursor to the start, indicators cleared. -/
def rewind (f : FILE) : FILE := { f with pos := 0, eof := false }

/-- The call `fseek(f, 0, SEEK_END)`: cursor to the end, end-of-file indicator
cleared; returns 0. -/
def fseek_end (f : FILE) : Int × FILE :=
  (0, { f with pos := f.content.length, eof := false })

/-- The call `ftell`: the cursor. -/
def ftell (f : FILE) : Int := (f.pos : Int)

/-! ## `bitstream.c` -/

/-- The type `enum BITSTREAMMODE`. -/
inductive BITSTREAMMODE
  | READ
  | WRITE
  deriving DecidableEq

/-- The type `struct BITSTREAM`. -/
structure BITSTREAM where
  file : FILE
  mode : BITSTREAMMODE
  byte_buffer : Nat
  byte_buffer_count : Nat
  deriving DecidableEq

/-- The function `bs_create` (allocation succeeds). -/
def bs_create (file_in : FILE) (mode : BITSTREAMMODE) : BITSTREAM :=
  { file := file_in, mode := mode, byte_buffer := 0, byte_buffer_count := 0 }

/-- The function `bs_destroy`: in write mode a partly filled buffer is shifted
left and written; returns the code and the underlying stream. -/
def bs_destroy (bs : BITSTREAM) : Nat × FILE :=
  if bs.mode = BITSTREAMMODE.WRITE ∧ bs.byte_buffer_count ≠ 0 then
    let buf := (bs.byte_buffer <<< (UCHAR_WIDTH - bs.byte_buffer_count)) % 256
    let r := fputc buf bs.file
    if r.1 = EOF ∧ ferror r.2 = true then (FAILURE, r.2) else (SUCCESS, r.2)
  else (SUCCESS, bs.file)

/-- The tail of `bs_read_bit`: deliver the top bit of the buffer and shift. -/
def bs_take_bit (bs : BITSTREAM) : Nat × Option BIT × BITSTREAM :=
  (SUCCESS, some (bs.byte_buffer &&& UCHAR_GET_MASK != 0),
    { bs with byte_buffer := (bs.byte_buffer <<< 1) % 256,
              byte_buffer_count := bs.byte_buffer_count - 1 })

/-- The function `bs_read_bit`: the code, the bit stored through the out
pointer (none when nothing is stored) and the stream afterwards. -/
def bs_read_bit (bs : BITSTREAM) : Nat × Option BIT × BITSTREAM :=
  if bs.byte_buffer_count = 0 then
    if feof bs.file = true then (FAILURE, none, bs)
    else
      let r := fgetc bs.file
      if r.1 = EOF ∧ ferror r.2 = true then (FAILURE, none, { bs with file := r.2 })
      else
        bs_take_bit { bs with file := r.2, byte_buffer := (r.1 % 256).toNat,
                              byte_buffer_count := UCHAR_WIDTH }
  else bs_take_bit bs

/-- The function `bs_write_bit`. -/
def bs_write_bit (bs : BITSTREAM) (bit : BIT) : Nat × BITSTREAM :=
  let b1 := (bs.byte_buffer <<< 1) % 256
  let b2 := if bit = HIGH then b1 ||| UCHAR_SET_MASK else b1
  let c := bs.byte_buffer_count + 1
  if c ≥ UCHAR_WIDTH then
    let r := fputc b2 bs.file
    if r.1 = EOF ∧ ferror r.2 = true then
      (FAILURE, { bs with file := r.2, byte_buffer := b2, byte_buffer_count := c })
    else
      (SUCCESS, { bs with file := r.2, byte_buffer := 0, byte_buffer_count := 0 })
  else
    (SUCCESS, { bs with byte_buffer := b2, byte_buffer_count := c })

/-- Write a sequence of bits with `bs_write_bit`, stopping at the first
`FAILURE`. -/
def bs_write_bits : BITSTREAM → List BIT → Nat × BITSTREAM
  | bs, [] => (SUCCESS, bs)
  | bs, b :: rest =>
    let r := bs_write_bit bs b
    if r.1 = FAILURE then r else bs_write_bits r.2 rest

/-- Read `n` bits with `bs_read_bit`, stopping at the first `FAILURE`; returns
the code of the last call, the bits delivered and the stream. -/
def bs_read_bits : Nat → BITSTREAM → Nat × List BIT × BITSTREAM
  | 0, bs => (SUCCESS, [], bs)
  | n + 1, bs =>
    match bs_read_bit bs with
    | (_, none, bs1) => (FAILURE, [], bs1)
    | (_, some b, bs1) =>
      let r := bs_read_bits n bs1
      (r.1, b :: r.2.1, r.2.2)

/-! ## `tree.h`: nodes, the arena, trees -/

/-- The type `struct NODE`; pointers are indices into the arena. -/
structure NODE where
  ch : Nat
  freq : Nat
  parent : Option Nat
  left : Option Nat
  right : Option Nat
  deriving DecidableEq

/-- A node as left by `memset(node, 0, sizeof(NODE))`. -/
def NODE.zero : NODE :=
  { ch := 0, freq := 0, parent := none, left := none, right := none }

/-- The arena of allocated nodes. -/
abbrev Heap := List NODE

/-- Allocation of a node (`malloc` followed by the stores that fill it): the
new pointer and the grown arena. -/
def malloc (heap : Heap) (n : NODE) : Nat × Heap := (heap.length, heap ++ [n])

/-- Read through a node pointer. -/
def deref (heap : Heap) (p : Option Nat) : Res NODE :=
  match p with
  | none => Res.fault Fault.nullDeref
  | some i =>
    match heap[i]? with
    | some n => Res.ok n
    | none => Res.fault Fault.outOfBounds

/-- Store through a node pointer that is known to be valid. -/
def store (heap : Heap) (p : Nat) (f : NODE → NODE) : Heap :=
  match heap[p]? with
  | some n => heap.set p (f n)
  | none => heap

/-- The type `struct TREE`: `root`, then the 256 entries of `node_list`. -/
structure TREE where
  root : Option Nat
  node_list : List (Option Nat)
  deriving DecidableEq

/-- The read `tree->node_list[ch]` for an `int ch` that `fgetc` returned. For
`0 ≤ ch < 256` it is the array entry. For `ch = EOF = -1` the address is one
pointer before the array, which in `struct TREE` is the member `root`. -/
def TREE.node_list_at (tree : TREE) (ch : Int) : Res (Option Nat) :=
  if 0 ≤ ch ∧ ch < (MAX_CHAR : Int) then Res.ok (tree.node_list.getD ch.toNat none)
  else if ch = -1 then Res.ok tree.root
  else Res.fault Fault.outOfBounds

/-! ## `tree.c` -/

/-- The type `FREQTABLE` (`uint[256]`). The field `stray` counts the stores
that `freq_table[ch]++` makes outside the array, one element below it (at
`ch = EOF`); nothing in the program reads that location afterwards. -/
structure FREQTABLE where
  cells : List Nat
  stray : Nat
  deriving DecidableEq

/-- The statement `freq_table[ch]++` for an `int ch` that `fgetc` returned. -/
def FREQTABLE.incr (t : FREQTABLE) (ch : Int) : Res FREQTABLE :=
  if 0 ≤ ch ∧ ch < (MAX_CHAR : Int) then
    Res.ok { t with cells := t.cells.set ch.toNat ((t.cells.getD ch.toNat 0 + 1) % 2 ^ 32) }
  else if ch = -1 then Res.ok { t with stray := t.stray + 1 }
  else Res.fault Fault.outOfBounds

/-- The loop of `calc_freq_table`; the first argument bounds the number of
iterations. -/
def calc_freq_loop : Nat → FILE → FREQTABLE → Res (Nat × FILE × FREQTABLE)
  | 0, _, _ => Res.fault Fault.outOfFuel
  | fuel + 1, f, t =>
    if feof f = true then Res.ok (SUCCESS, f, t)
    else
      let r := fgetc f
      if r.1 = EOF ∧ ferror r.2 = true then Res.ok (FAILURE, r.2, t)
      else
        match t.incr r.1 with
        | Res.ok t1 => calc_freq_loop fuel r.2 t1
        | Res.fault e => Res.fault e

/-- The function `calc_freq_table`. -/
def calc_freq_table (file_in : FILE) : Res (Nat × FILE × FREQTABLE) :=
  calc_freq_loop (file_in.content.length + 2) file_in
    { cells := List.replicate MAX_CHAR 0, stray := 0 }

/-- The loop of `init_node_list` from index `i`, for `n` more iterations. -/
def init_node_loop (freq_table : FREQTABLE) : Nat → Nat → TREE → Heap → TREE × Heap
  | 0, _, tree, heap => (tree, heap)
  | n + 1, i, tree, heap =>
    if freq_table.cells.getD i 0 > 0 then
      let a := malloc heap { NODE.zero with ch := i % 256, freq := freq_table.cells.getD i 0 }
      init_node_loop freq_table n (i + 1)
        { tree with node_list := tree.node_list.set i (some a.1) } a.2
    else init_node_loop freq_table n (i + 1) tree heap

/-- The function `init_node_list` (allocation succeeds). -/
def init_node_list (tree : TREE) (heap : Heap) (freq_table : FREQTABLE) :
    Nat × TREE × Heap :=
  let r := init_node_loop freq_table MAX_CHAR 0
    { tree with node_list := List.replicate MAX_CHAR none } heap
  (SUCCESS, r.1, r.2)

/-- Conversion of an `unsigned int` value to `int` (two's complement). -/
def to_int (v : Nat) : Int :=
  if v % 2 ^ 32 < 2 ^ 31 then ((v % 2 ^ 32 : Nat) : Int) else ((v % 2 ^ 32 : Nat) : Int) - 2 ^ 32

/-- The value `v1` / `v2` of `compare_nodes`: `(uint)(-MAX_CHAR)` for `NULL`,
else the node's `freq`. -/
def compare_value (heap : Heap) (n : Option Nat) : Nat :=
  match n with
  | none => 2 ^ 32 - MAX_CHAR
  | some p => ((heap.getD p NODE.zero).freq) % 2 ^ 32

/-- The function `compare_nodes`: `v2 - v1` in `unsigned int`, returned as
`int`. -/
def compare_nodes (heap : Heap) (n1 n2 : Option Nat) : Int :=
  to_int ((compare_value heap n2 + 2 ^ 32 - compare_value heap n1) % 2 ^ 32)

/-- What the library function `qsort` guarantees for an array and a comparison
function: the result is a rearrangement of the array, and it is ordered
whenever the comparison function is a consistent ordering of its elements. -/
def QsortSpec (qsort : (Option Nat → Option Nat → Int) → List (Option Nat) → List (Option Nat)) :
    Prop :=
  ∀ cmp l, (qsort cmp l).Perm l ∧
    ((∀ a ∈ l, ∀ b ∈ l, (cmp a b ≤ 0 ∨ cmp b a ≤ 0)) →
     (∀ a ∈ l, ∀ b ∈ l, ∀ c ∈ l, cmp a b ≤ 0 → cmp b c ≤ 0 → cmp a c ≤ 0) →
     (qsort cmp l).Pairwise (fun a b => cmp a b ≤ 0))

/-- Insertion of one element into an ordered list, before the first element
that does not compare below it. -/
def qsort_insert (cmp : Option Nat → Option Nat → Int) (x : Option Nat) :
    List (Option Nat) → List (Option Nat)
  | [] => [x]
  | y :: ys => if cmp x y ≤ 0 then x :: y :: ys else y :: qsort_insert cmp x ys

/-- A concrete `qsort` (insertion sort), used to run the program on given
inputs. -/
def qsort_model (cmp : Option Nat → Option Nat → Int) : List (Option Nat) → List (Option Nat)
  | [] => []
  | x :: xs => qsort_insert cmp x (qsort_model cmp xs)

/-- The counting loop of `build_tree`,
`while ((sorted_nodes[node_count] != NULL) && (node_count < MAX_CHAR))`.
The array entry is read before the bound is tested; at `node_count = MAX_CHAR`
the value read cannot change the outcome, since the second operand is false. -/
def count_nodes : Nat → List (Option Nat) → Nat → Nat
  | 0, _, node_count => node_count
  | fuel + 1, sorted_nodes, node_count =>
    if sorted_nodes.getD node_count none ≠ none ∧ node_count < MAX_CHAR then
      count_nodes fuel sorted_nodes (node_count + 1)
    else node_count

/-- The function `add_node`. -/
def add_node (heap : Heap) : Nat → List (Option Nat) → Option Nat → Res (List (Option Nat))
  | 0, nodes, node => Res.ok (nodes.set 0 node)
  | count + 1, nodes, node =>
    match deref heap (nodes.getD count none), deref heap node with
    | Res.ok cur, Res.ok nd =>
      if cur.freq ≥ nd.freq then Res.ok (nodes.set (count + 1) node)
      else add_node heap count (nodes.set (count + 1) (nodes.getD count none)) node
    | Res.fault e, _ => Res.fault e
    | _, Res.fault e => Res.fault e

/-- The merge loop of `build_tree`, `for ( ; node_count > 1; node_count--)`
(allocation succeeds). -/
def merge_nodes : Nat → List (Option Nat) → Heap → Res (List (Option Nat) × Heap)
  | 0, sorted_nodes, heap => Res.ok (sorted_nodes, heap)
  | 1, sorted_nodes, heap => Res.ok (sorted_nodes, heap)
  | node_count + 2, sorted_nodes, heap =>
    let smallest := sorted_nodes.getD (node_count + 1) none
    let s1 := sorted_nodes.set (node_count + 1) none
    let small := s1.getD node_count none
    let s2 := s1.set node_count none
    match deref heap smallest, deref heap small, smallest, small with
    | Res.ok ns, Res.ok nm, some ps, some pm =>
      let a := malloc heap
        { ch := 0, freq := (ns.freq + nm.freq) % 2 ^ 32, parent := none,
          left := smallest, right := small }
      let h1 := store a.2 ps (fun n => { n with parent := some a.1 })
      let h2 := store h1 pm (fun n => { n with parent := some a.1 })
      match add_node h2 node_count s2 (some a.1) with
      | Res.ok s3 => merge_nodes (node_count + 1) s3 h2
      | Res.fault e => Res.fault e
    | Res.fault e, _, _, _ => Res.fault e
    | _, Res.fault e, _, _ => Res.fault e
    | _, _, _, _ => Res.fault Fault.nullDeref

/-- The part of `build_tree` that follows `calc_freq_table` (allocation
succeeds): the leaves, the sorted list, the merge loop and the root. -/
def build_tree_nodes
    (qsort : (Option Nat → Option Nat → Int) → List (Option Nat) → List (Option Nat))
    (freq_table : FREQTABLE) (heap : Heap) : Res (Option TREE × Heap) :=
  let r := init_node_list { root := none, node_list := [] } heap freq_table
  if r.1 = FAILURE then Res.ok (none, r.2.2)
  else
    let tree := r.2.1
    let sorted_nodes := qsort (compare_nodes r.2.2) tree.node_list
    let node_count := count_nodes (MAX_CHAR + 1) sorted_nodes 0
    match merge_nodes node_count sorted_nodes r.2.2 with
    | Res.fault e => Res.fault e
    | Res.ok (s, h) => Res.ok (some { tree with root := s.getD 0 none }, h)

/-- The function `build_tree` (allocation succeeds): the tree, or `none` for a
`NULL` result, with the input stream and the arena afterwards. -/
def build_tree
    (qsort : (Option Nat → Option Nat → Int) → List (Option Nat) → List (Option Nat))
    (file_in : FILE) (heap : Heap) : Res (Option TREE × FILE × Heap) :=
  match calc_freq_table file_in with
  | Res.fault e => Res.fault e
  | Res.ok (code, f1, freq_table) =>
    if code = FAILURE then Res.ok (none, f1, heap)
    else
      match build_tree_nodes qsort freq_table heap with
      | Res.fault e => Res.fault e
      | Res.ok (tree, h) => Res.ok (tree, f1, h)

/-! ## `compression.c` -/

/-- The loop of `put_char`, for `n` more bits of the `uchar ch`. -/
def put_char_loop : Nat → BITSTREAM → Nat → Nat × BITSTREAM
  | 0, bs, _ => (SUCCESS, bs)
  | n + 1, bs, ch =>
    let r := bs_write_bit bs (ch &&& UCHAR_GET_MASK != 0)
    if r.1 = FAILURE then (FAILURE, r.2) else put_char_loop n r.2 ((ch <<< 1) % 256)

/-- The function `put_char`. -/
def put_char (bs : BITSTREAM) (ch : Nat) : Nat × BITSTREAM :=
  put_char_loop UCHAR_WIDTH bs (ch % 256)

/-- The loop of `put_length`, for `n` more bits; `ulong_bits` is the width of
`unsigned long`. -/
def put_length_loop (ulong_bits : Nat) : Nat → BITSTREAM → Nat → Nat × BITSTREAM
  | 0, bs, _ => (SUCCESS, bs)
  | n + 1, bs, size =>
    let r := bs_write_bit bs (size &&& ULONG_GET_MASK != 0)
    if r.1 = FAILURE then (FAILURE, r.2)
    else put_length_loop ulong_bits n r.2 ((size <<< 1) % 2 ^ ulong_bits)

/-- The function `put_length`. -/
def put_length (ulong_bits : Nat) (bs : BITSTREAM) (size : Nat) : Nat × BITSTREAM :=
  put_length_loop ulong_bits ULONG_WIDTH bs (size % 2 ^ ulong_bits)

/-- The function `put_tree`; the first argument bounds the recursion depth. -/
def put_tree (heap : Heap) : Nat → BITSTREAM → Option Nat → Res (Nat × BITSTREAM)
  | 0, _, _ => Res.fault Fault.outOfFuel
  | fuel + 1, bs, node =>
    match deref heap node with
    | Res.fault e => Res.fault e
    | Res.ok n =>
      if n.left = none ∧ n.right = none then
        let r := bs_write_bit bs LOW
        if r.1 = SUCCESS then Res.ok (put_char r.2 n.ch) else Res.ok (FAILURE, r.2)
      else
        let r := bs_write_bit bs HIGH
        if r.1 = FAILURE then Res.ok (FAILURE, r.2)
        else
          match put_tree heap fuel r.2 n.left with
          | Res.fault e => Res.fault e
          | Res.ok r1 =>
            if r1.1 = FAILURE then Res.ok (FAILURE, r1.2)
            else
              match put_tree heap fuel r1.2 n.right with
              | Res.fault e => Res.fault e
              | Res.ok r2 =>
                if r2.1 = FAILURE then Res.ok (FAILURE, r2.2) else Res.ok (SUCCESS, r2.2)

/-- The function `put_node`; the first argument bounds the recursion depth. -/
def put_node (heap : Heap) : Nat → BITSTREAM → Option Nat → Res (Nat × BITSTREAM)
  | 0, _, _ => Res.fault Fault.outOfFuel
  | fuel + 1, bs, node =>
    match deref heap node with
    | Res.fault e => Res.fault e
    | Res.ok n =>
      if n.parent ≠ none then
        match deref heap n.parent with
        | Res.fault e => Res.fault e
        | Res.ok p =>
          match (if p.parent ≠ none then put_node heap fuel bs n.parent
                 else Res.ok (SUCCESS, bs)) with
          | Res.fault e => Res.fault e
          | Res.ok r =>
            if r.1 = FAILURE then Res.ok (FAILURE, r.2)
            else Res.ok (bs_write_bit r.2 (if p.left = node then LOW else HIGH))
      else Res.ok (SUCCESS, bs)

/-- The loop of `get_length`, for `n` more bits: the code, `*size` and the
stream. -/
def get_length_loop (ulong_bits : Nat) : Nat → BITSTREAM → Nat → Nat × Nat × BITSTREAM
  | 0, bs, size => (SUCCESS, size, bs)
  | n + 1, bs, size =>
    let size1 := (size <<< 1) % 2 ^ ulong_bits
    let r := bs_read_bit bs
    if r.1 = FAILURE then (FAILURE, size1, r.2.2)
    else
      get_length_loop ulong_bits n r.2.2
        (if r.2.1 = some HIGH then size1 ||| ULONG_SET_MASK else size1)

/-- The function `get_length`; `size` is the value that `*size` holds on
entry. -/
def get_length (ulong_bits : Nat) (bs : BITSTREAM) (size : Nat) : Nat × Nat × BITSTREAM :=
  get_length_loop ulong_bits ULONG_WIDTH bs size

/-- The character loop of `get_node`, for `n` more bits: the code,
`(*node)->ch` and the stream. -/
def get_node_char : Nat → BITSTREAM → Nat → Nat × Nat × BITSTREAM
  | 0, bs, ch => (SUCCESS, ch, bs)
  | n + 1, bs, ch =>
    let ch1 := (ch <<< 1) % 256
    let r := bs_read_bit bs
    if r.1 = FAILURE then (FAILURE, ch1, r.2.2)
    else get_node_char n r.2.2 (if r.2.1 = some HIGH then ch1 ||| UCHAR_SET_MASK else ch1)

/-- The state that `get_node` threads: the stream, the tree being filled and
the arena. -/
structure GetState where
  bs : BITSTREAM
  tree : TREE
  heap : Heap
  deriving DecidableEq

/-- The function `get_node` (allocation succeeds); the first argument bounds
the recursion depth. Returns the code, `*node` and the state. -/
def get_node : Nat → GetState → Res (Nat × Nat × GetState)
  | 0, _ => Res.fault Fault.outOfFuel
  | fuel + 1, st =>
    let a := malloc st.heap NODE.zero
    let r := bs_read_bit st.bs
    if r.1 = FAILURE then Res.ok (FAILURE, a.1, { st with bs := r.2.2, heap := a.2 })
    else if r.2.1 = some HIGH then
      match get_node fuel { st with bs := r.2.2, heap := a.2 } with
      | Res.fault e => Res.fault e
      | Res.ok (c1, l, st1) =>
        let st1a := { st1 with heap := store st1.heap a.1 (fun n => { n with left := some l }) }
        if c1 = FAILURE then Res.ok (FAILURE, a.1, st1a)
        else
          match get_node fuel st1a with
          | Res.fault e => Res.fault e
          | Res.ok (c2, q, st2) =>
            let st2a :=
              { st2 with heap := store st2.heap a.1 (fun n => { n with right := some q }) }
            if c2 = FAILURE then Res.ok (FAILURE, a.1, st2a)
            else Res.ok (SUCCESS, a.1, st2a)
    else
      let rc := get_node_char UCHAR_WIDTH r.2.2 0
      let h1 := store a.2 a.1 (fun n => { n with ch := rc.2.1 })
      if rc.1 = FAILURE then Res.ok (FAILURE, a.1, { st with bs := rc.2.2, heap := h1 })
      else if st.tree.node_list.getD rc.2.1 none ≠ none then
        Res.ok (FAILURE, a.1, { st with bs := rc.2.2, heap := h1 })
      else
        Res.ok (SUCCESS, a.1,
          { bs := rc.2.2,
            tree := { st.tree with node_list := st.tree.node_list.set rc.2.1 (some a.1) },
            heap := h1 })

/-- The function `get_tree` (allocation succeeds): the code, the tree (`none`
once it has been freed) and the stream and arena afterwards. -/
def get_tree (fuel : Nat) (bs : BITSTREAM) (heap : Heap) :
    Res (Nat × Option TREE × BITSTREAM × Heap) :=
  match get_node fuel
      { bs := bs, tree := { root := none, node_list := List.replicate MAX_CHAR none },
        heap := heap } with
  | Res.fault e => Res.fault e
  | Res.ok (c, p, st) =>
    if c = FAILURE then Res.ok (FAILURE, none, st.bs, st.heap)
    else Res.ok (SUCCESS, some { st.tree with root := some p }, st.bs, st.heap)

/-- The function `get_char`; the first argument bounds the recursion depth.
Returns the code, the character stored through `ch` (none when nothing is
stored) and the stream. -/
def get_char (heap : Heap) : Nat → BITSTREAM → Option Nat → Res (Nat × Option Nat × BITSTREAM)
  | 0, _, _ => Res.fault Fault.outOfFuel
  | fuel + 1, bs, node =>
    let r := bs_read_bit bs
    if r.1 = FAILURE then Res.ok (FAILURE, none, r.2.2)
    else
      match deref heap node with
      | Res.fault e => Res.fault e
      | Res.ok n =>
        let next := if r.2.1 = some HIGH then n.right else n.left
        if next = none then Res.ok (FAILURE, none, r.2.2)
        else
          match deref heap next with
          | Res.fault e => Res.fault e
          | Res.ok nx =>
            if nx.left = none then Res.ok (SUCCESS, some nx.ch, r.2.2)
            else get_char heap fuel r.2.2 next

/-- The payload loop of `encode`, `while (!feof(file_in))`; the first argument
bounds the number of iterations. Returns the code, the input stream and the
bit stream. -/
def encode_loop (heap : Heap) (tree : TREE) : Nat → FILE → BITSTREAM →
    Res (Nat × Bool × FILE × BITSTREAM)
  | 0, _, _ => Res.fault Fault.outOfFuel
  | fuel + 1, f, bs =>
    if feof f = true then Res.ok (SUCCESS, false, f, bs)
    else
      let r := fgetc f
      if r.1 = EOF ∧ ferror r.2 = true then Res.ok (FAILURE, true, r.2, bs)
      else
        match tree.node_list_at r.1 with
        | Res.fault e => Res.fault e
        | Res.ok node =>
          match put_node heap (heap.length + 1) bs node with
          | Res.fault e => Res.fault e
          | Res.ok w =>
            if w.1 = FAILURE then Res.ok (FAILURE, false, r.2, w.2)
            else encode_loop heap tree fuel r.2 w.2

/-- The function `encode`: the code, the input stream and the output stream
afterwards. `ulong_bits` is the width of `unsigned long` and `qsort` the
library sort. -/
def encode (ulong_bits : Nat)
    (qsort : (Option Nat → Option Nat → Int) → List (Option Nat) → List (Option Nat))
    (file_in file_out : FILE) : Res (Nat × FILE × FILE) :=
  let bs := bs_create file_out BITSTREAMMODE.WRITE
  let sk := fseek_end file_in
  if sk.1 ≠ 0 then Res.ok (FAILURE, sk.2, (bs_destroy bs).2)
  else
    let s := ftell sk.2
    if s = 1 then Res.ok (FAILURE, sk.2, (bs_destroy bs).2)
    else
      let size := s.toNat % 2 ^ ulong_bits
      let pl := put_length ulong_bits bs size
      if pl.1 = FAILURE then Res.ok (FAILURE, sk.2, (bs_destroy pl.2).2)
      else
        match build_tree qsort (rewind sk.2) [] with
        | Res.fault e => Res.fault e
        | Res.ok (none, f1, _) => Res.ok (FAILURE, f1, (bs_destroy pl.2).2)
        | Res.ok (some tree, f1, heap) =>
          match put_tree heap (heap.length + 1) pl.2 tree.root with
          | Res.fault e => Res.fault e
          | Res.ok pt =>
            if pt.1 = FAILURE then Res.ok (FAILURE, f1, (bs_destroy pt.2).2)
            else
              match encode_loop heap tree (f1.content.length + 2) (rewind f1) pt.2 with
              | Res.fault e => Res.fault e
              | Res.ok (c, early, f2, bs2) =>
                if c = FAILURE then
                  Res.ok (FAILURE, f2, if early then bs2.file else (bs_destroy bs2).2)
                else Res.ok (SUCCESS, f2, (bs_destroy bs2).2)

/-- The decoding loop of `decode`, `for (i = 0; i < size; i++)`, for `n` more
iterations. Returns the code, the bit stream and the output stream. -/
def decode_loop (heap : Heap) (root : Option Nat) (fuel : Nat) :
    Nat → BITSTREAM → FILE → Res (Nat × BITSTREAM × FILE)
  | 0, bs, out => Res.ok (SUCCESS, bs, out)
  | n + 1, bs, out =>
    match get_char heap fuel bs root with
    | Res.fault e => Res.fault e
    | Res.ok r =>
      if r.1 = FAILURE then Res.ok (FAILURE, r.2.2, out)
      else
        let w := fputc (r.2.1.getD 0) out
        if w.1 = EOF ∧ ferror w.2 = true then Res.ok (FAILURE, r.2.2, w.2)
        else decode_loop heap root fuel n r.2.2 w.2

/-- The function `decode`: the code, the input stream and the output stream
afterwards. `ulong_bits` is the width of `unsigned long`, and `size0` the
value the uninitialised local `size` holds on entry. -/
def decode (ulong_bits : Nat) (size0 : Nat) (file_in file_out : FILE) :
    Res (Nat × FILE × FILE) :=
  let bs := bs_create file_in BITSTREAMMODE.READ
  let gl := get_length ulong_bits bs size0
  if gl.1 = FAILURE then Res.ok (FAILURE, (bs_destroy gl.2.2).2, file_out)
  else
    let fuel := 8 * file_in.content.length + 16
    match get_tree fuel gl.2.2 [] with
    | Res.fault e => Res.fault e
    | Res.ok (c, tree, bs1, heap) =>
      if c = FAILURE then Res.ok (FAILURE, (bs_destroy bs1).2, file_out)
      else
        match decode_loop heap (tree.bind TREE.root) fuel gl.2.1 bs1 file_out with
        | Res.fault e => Res.fault e
        | Res.ok (c2, bs2, out) => Res.ok (c2, (bs_destroy bs2).2, out)

/-! ## Specification vocabulary -/

/-- Value of a bit sequence read most significant bit first. -/
def bits_value (l : List Bool) : Nat := l.foldl (fun a b => 2 * a + b.toNat) 0

/-- The 8 bits of a byte, most significant first. -/
def byte_bits (x : Nat) : List Bool := (List.range 8).map (fun j => x.testBit (7 - j))

/-- The bits of a byte sequence, each byte most significant bit first. -/
def bytes_bits : List Nat → List Bool
  | [] => []
  | x :: xs => byte_bits x ++ bytes_bits xs

/-- A write stream whose buffer holds the bits `p`. -/
def WriteInv (bs : BITSTREAM) (p : List Bool) : Prop :=
  bs.mode = BITSTREAMMODE.WRITE ∧ bs.byte_buffer = bits_value p ∧
    bs.byte_buffer_count = p.length ∧ p.length < 8


/-- The bits of the buffer that a read stream has yet to deliver. -/
def buffer_bits (buf count : Nat) : List Bool :=
  (List.range count).map (fun j => buf.testBit (7 - j))

/-- The bits that `bs_read_bit` will deliver from a read stream before it
fails: the rest of the buffer, then the bytes left in the file, then the eight
1 bits that come from storing `EOF` in the buffer as a byte. Once the
end-of-file indicator is set only the buffer is left. -/
def pending_bits (bs : BITSTREAM) : List Bool :=
  buffer_bits bs.byte_buffer bs.byte_buffer_count ++
    (if bs.file.eof = true then []
     else bytes_bits (bs.file.content.drop bs.file.pos) ++ List.replicate 8 true)

/-! ## Strict binary trees and their serialization -/

/-- A strict binary tree with a symbol at every leaf. -/
inductive HTree
  | leaf (s : Nat)
  | branch (l r : HTree)
  deriving DecidableEq

/-- Height of a tree: 0 for a leaf. -/
def HTree.height : HTree → Nat
  | HTree.leaf _ => 0
  | HTree.branch l r => max l.height r.height + 1

/-- The leaf symbols of a tree, left to right. -/
def HTree.leaves : HTree → List Nat
  | HTree.leaf s => [s]
  | HTree.branch l r => l.leaves ++ r.leaves

/-- The serialization of the format: a leaf is bit 0 followed by the 8 bits of
its symbol, most significant first; a branch is bit 1, then the left subtree,
then the right subtree. -/
def ser : HTree → List Bool
  | HTree.leaf s => false :: byte_bits s
  | HTree.branch l r => true :: (ser l ++ ser r)

/-- The arena holds the tree `t` at pointer `p`: leaves are nodes without
children that carry the symbol, branches are nodes whose two children hold the
two subtrees. -/
def represents (heap : Heap) : Option Nat → HTree → Bool
  | none, _ => false
  | some i, HTree.leaf s =>
    match heap[i]? with
    | some n => n.ch == s && n.left == none && n.right == none
    | none => false
  | some i, HTree.branch l r =>
    match heap[i]? with
    | some n => represents heap n.left l && represents heap n.right r
    | none => false

/-- The pointer of the leaf that carries symbol `s` in the tree `t` held at
`p`; `none` when no leaf of `t` carries `s`. -/
def leaf_ptr (heap : Heap) : Option Nat → HTree → Nat → Option Nat
  | none, _, _ => none
  | some i, HTree.leaf s1, s => if s1 = s then some i else none
  | some i, HTree.branch l r, s =>
    match heap[i]? with
    | some n =>
      match leaf_ptr heap n.left l s with
      | some q => some q
      | none => leaf_ptr heap n.right r s
    | none => none

/-- The arena holds `t` at `p` in cells of index at least `lo`. -/
def ReprFrom (heap : Heap) (lo : Nat) : Option Nat → HTree → Prop
  | p, HTree.leaf s =>
    ∃ i n, p = some i ∧ lo ≤ i ∧ heap[i]? = some n ∧ n.ch = s ∧ n.left = none ∧ n.right = none
  | p, HTree.branch l r =>
    ∃ i n, p = some i ∧ lo ≤ i ∧ heap[i]? = some n ∧
      ReprFrom heap lo n.left l ∧ ReprFrom heap lo n.right r

/-- The value that the character loop of `get_node` accumulates from a bit
sequence. -/
def char_value (l : List Bool) (c : Nat) : Nat :=
  l.foldl (fun a b => if b = true then (a <<< 1) % 256 ||| UCHAR_SET_MASK else (a <<< 1) % 256) c

/-- The value that the loop of `get_length` accumulates in `*size` from a bit
sequence, for an `unsigned long` of `ulong_bits` bits. -/
def length_value (ulong_bits : Nat) (l : List Bool) (size : Nat) : Nat :=
  l.foldl (fun a b =>
    if b = true then (a <<< 1) % 2 ^ ulong_bits ||| ULONG_SET_MASK
    else (a <<< 1) % 2 ^ ulong_bits) size

/-- The table that counting the bytes `l` turns the table `cells` into. -/
def add_counts (cells : List Nat) (l : List Nat) : List Nat :=
  l.foldl (fun c b => c.set b ((c.getD b 0 + 1) % 2 ^ 32)) cells

/-- The 32 binary digits of `n` modulo `2^32`, most significant first. -/
def length_bits (n : Nat) : List Bool := (List.range 32).map (fun j => n.testBit (31 - j))

/-! ## Trees of arena cells -/

/-- A strict binary tree laid out in the arena: every node carries the index
of its cell and the `ch` and `freq` stored there. -/
inductive PTree
  | leaf (cell ch freq : Nat)
  | branch (cell ch freq : Nat) (l r : PTree)
  deriving DecidableEq

/-- The cell of the root. -/
def PTree.cell : PTree → Nat
  | PTree.leaf c _ _ => c
  | PTree.branch c _ _ _ _ => c

/-- The `freq` of the root. -/
def PTree.freq : PTree → Nat
  | PTree.leaf _ _ w => w
  | PTree.branch _ _ w _ _ => w

/-- All cells of a tree, root first. -/
def PTree.cells : PTree → List Nat
  | PTree.leaf c _ _ => [c]
  | PTree.branch c _ _ l r => c :: (l.cells ++ r.cells)

/-- The leaf symbols of a tree, left to right. -/
def PTree.symbols : PTree → List Nat
  | PTree.leaf _ s _ => [s]
  | PTree.branch _ _ _ l r => l.symbols ++ r.symbols

/-- Height of a tree: 0 for a leaf. -/
def PTree.height : PTree → Nat
  | PTree.leaf _ _ _ => 0
  | PTree.branch _ _ _ l r => max l.height r.height + 1

/-- Whether the root is a branch. -/
def PTree.is_branch : PTree → Bool
  | PTree.leaf _ _ _ => false
  | PTree.branch _ _ _ _ _ => true

/-- The node that the root cell of a tree holds when its parent pointer is
`par`. -/
def PTree.node (par : Option Nat) : PTree → NODE
  | PTree.leaf _ s w => { ch := s, freq := w, parent := par, left := none, right := none }
  | PTree.branch _ s w l r =>
    { ch := s, freq := w, parent := par, left := some l.cell, right := some r.cell }

/-- The arena holds the tree, with `par` as the parent pointer of its root:
every cell holds the node of its subtree, children pointing back to their
parent. -/
def holds (heap : Heap) : Option Nat → PTree → Bool
  | par, PTree.leaf c s w => decide (heap[c]? = some ((PTree.leaf c s w).node par))
  | par, PTree.branch c s w l r =>
    decide (heap[c]? = some ((PTree.branch c s w l r).node par)) &&
      holds heap (some c) l && holds heap (some c) r

/-- The leaf that carries symbol `s`: its cell and the branch directions from
the root down to it, `false` (bit 0) for a step to a left child and `true`
(bit 1) for a step to a right child. -/
def PTree.find : PTree → Nat → Option (Nat × List Bool)
  | PTree.leaf c s1 _, s => if s1 = s then some (c, []) else none
  | PTree.branch _ _ _ l r, s =>
    match l.find s with
    | some (c, p) => some (c, false :: p)
    | none =>
      match r.find s with
      | some (c, p) => some (c, true :: p)
      | none => none

/-- The concatenated codes of a sequence of symbols. -/
def PTree.codes (t : PTree) : List Nat → List Bool
  | [] => []
  | s :: ss =>
    (match t.find s with
     | some (_, p) => p
     | none => []) ++ t.codes ss

/-- The cells of a list of trees. -/
def forest_cells : List PTree → List Nat
  | [] => []
  | t :: ts => t.cells ++ forest_cells ts

/-- The leaves of a tree, left to right, as trees. -/
def PTree.leaf_list : PTree → List PTree
  | PTree.leaf c s w => [PTree.leaf c s w]
  | PTree.branch _ _ _ l r => l.leaf_list ++ r.leaf_list

/-- The leaves of a list of trees. -/
def forest_leaves : List PTree → List PTree
  | [] => []
  | t :: ts => t.leaf_list ++ forest_leaves ts

/-- The subtree reached from the root by a sequence of branch directions,
`false` for the left child and `true` for the right child. -/
def PTree.subtree : PTree → List Bool → Option PTree
  | t, [] => some t
  | PTree.leaf _ _ _, _ :: _ => none
  | PTree.branch _ _ _ l r, d :: p => if d = true then r.subtree p else l.subtree p

/-- The first `nc` entries of `s` are the roots of the trees `ts`, each held
by the arena as a parentless tree, and no cell belongs to two nodes. -/
def Forest (heap : Heap) (s : List (Option Nat)) (nc : Nat) (ts : List PTree) : Prop :=
  nc ≤ s.length ∧ ts.length = nc ∧ s.take nc = ts.map (fun t => some t.cell) ∧
  (∀ t ∈ ts, holds heap none t = true) ∧ (forest_cells ts).Nodup

/-- The state of `init_node_list` after the values below `i`: `node_list` has
256 entries; the entry of a value below `i` with a non-zero count points to a
parentless leaf with that value and count, every other entry is null. -/
def LeafTable (cells : List Nat) (i : Nat) (node_list : List (Option Nat)) (heap : Heap) :
    Prop :=
  node_list.length = 256 ∧ ∀ v, v < 256 →
    ((v < i ∧ 0 < cells.getD v 0) →
      ∃ c, node_list[v]? = some (some c) ∧
        heap[c]? = some { ch := v, freq := cells.getD v 0, parent := none, left := none,
                          right := none }) ∧
    (¬ (v < i ∧ 0 < cells.getD v 0) → node_list[v]? = some none)

/-- The key by which `compare_nodes` is meant to order the entries: `-MAX_CHAR`
for `NULL`, else the node's `freq`. -/
def sort_key (heap : Heap) (n : Option Nat) : Int :=
  match n with
  | none => -256
  | some p => ((heap.getD p NODE.zero).freq : Int)

/-! ## The library sort -/

/-- The merge step of the merge sort by which the C library's `qsort` sorts an
array of this size: the next element is taken from the first run when
`cmp` of the two heads is at most 0, else from the second; the first
argument bounds the number of steps. -/
def merge_runs (cmp : Option Nat → Option Nat → Int) :
    Nat → List (Option Nat) → List (Option Nat) → List (Option Nat)
  | 0, xs, ys => xs ++ ys
  | _ + 1, [], ys => ys
  | _ + 1, x :: xs, [] => x :: xs
  | fuel + 1, x :: xs, y :: ys =>
    if cmp x y ≤ 0 then x :: merge_runs cmp fuel xs (y :: ys)
    else y :: merge_runs cmp fuel (x :: xs) ys

/-- The recursion of the merge sort: the first `n / 2` elements and the rest
are sorted and merged; the first argument bounds the recursion depth. -/
def msort (cmp : Option Nat → Option Nat → Int) : Nat → List (Option Nat) → List (Option Nat)
  | 0, l => l
  | fuel + 1, l =>
    if l.length ≤ 1 then l
    else
      merge_runs cmp l.length (msort cmp fuel (l.take (l.length / 2)))
        (msort cmp fuel (l.drop (l.length / 2)))

/-- The library `qsort` as a merge sort (the algorithm of the GNU C library),
used to run the program where the outcome depends on the sorting procedure. -/
def qsort_merge (cmp : Option Nat → Option Nat → Int) (l : List (Option Nat)) :
    List (Option Nat) :=
  msort cmp l.length l

/-- The first `nc` entries of `s` are non-null pointers into the arena, in
non-increasing order of the `freq` of their nodes. -/
def Ordered (heap : Heap) (s : List (Option Nat)) (nc : Nat) : Prop :=
  ∃ cs : List Nat, s.take nc = cs.map some ∧ cs.length = nc ∧
    (∀ c ∈ cs, c < heap.length) ∧
    cs.Pairwise (fun a b => (heap.getD b NODE.zero).freq ≤ (heap.getD a NODE.zero).freq)

/-! ## Bit stream: writing -/

theorem byte_bits_pad (p : List Bool) (h : p.length ≤ 8) :
    byte_bits ((bits_value p <<< (8 - p.length)) % 256) = p ++ List.replicate (8 - p.length) false := by
  match p, h with
  | [], _ => decide
  | [a], _ => revert a; decide
  | [a, b], _ => revert a b; decide
  | [a, b, c], _ => revert a b c; decide
  | [a, b, c, d], _ => revert a b c d; decide
  | [a, b, c, d, e], _ => revert a b c d e; decide
  | [a, b, c, d, e, f], _ => revert a b c d e f; decide
  | [a, b, c, d, e, f, g], _ => revert a b c d e f g; decide
  | [a, b, c, d, e, f, g, i], _ => revert a b c d e f g i; decide
  | _ :: _ :: _ :: _ :: _ :: _ :: _ :: _ :: _ :: _, hl => (simp only [List.length_cons] at hl; omega)

theorem buffer_push (p : List Bool) (x : Bool) (h : p.length < 8) :
    (if x = true then (bits_value p <<< 1) % 256 ||| UCHAR_SET_MASK else (bits_value p <<< 1) % 256)
      = bits_value (p ++ [x]) := by
  match p, h with
  | [], _ => revert x; decide
  | [a], _ => revert a x; decide
  | [a, b], _ => revert a b x; decide
  | [a, b, c], _ => revert a b c x; decide
  | [a, b, c, d], _ => revert a b c d x; decide
  | [a, b, c, d, e], _ => revert a b c d e x; decide
  | [a, b, c, d, e, f], _ => revert a b c d e f x; decide
  | [a, b, c, d, e, f, g], _ => revert a b c d e f g x; decide
  | _ :: _ :: _ :: _ :: _ :: _ :: _ :: _ :: _, hl => (simp only [List.length_cons] at hl; omega)



@[simp] theorem ferror_false (f : FILE) : ferror f = false := rfl

theorem bs_write_bit_code (bs : BITSTREAM) (b : BIT) : (bs_write_bit bs b).1 = SUCCESS := by
  unfold bs_write_bit
  simp only [ferror_false, Bool.false_eq_true, and_false, if_false]
  split <;> rfl

theorem bs_write_bits_cons (bs : BITSTREAM) (b : BIT) (l : List BIT) :
    bs_write_bits bs (b :: l) = bs_write_bits (bs_write_bit bs b).2 l := by
  simp [bs_write_bits, bs_write_bit_code, SUCCESS, FAILURE]

theorem bs_write_bits_code (l : List BIT) (bs : BITSTREAM) : (bs_write_bits bs l).1 = SUCCESS := by
  induction l generalizing bs with
  | nil => rfl
  | cons b l ih => rw [bs_write_bits_cons]; exact ih _

theorem bs_write_bits_append (l1 l2 : List BIT) (bs : BITSTREAM) :
    bs_write_bits bs (l1 ++ l2) = bs_write_bits (bs_write_bits bs l1).2 l2 := by
  induction l1 generalizing bs with
  | nil => rfl
  | cons b l ih => simp only [List.cons_append, bs_write_bits_cons]; exact ih _

theorem bits_value_lt (p : List Bool) : bits_value p < 2 ^ p.length := by
  induction p using List.reverseRecOn with
  | nil => simp [bits_value]
  | append_singleton l a ih =>
    simp only [bits_value, List.foldl_append, List.foldl_cons, List.foldl_nil, List.length_append,
      List.length_singleton, pow_succ] at *
    cases a <;> simp <;> omega

theorem bs_write_bit_step (bs : BITSTREAM) (p : List Bool) (x : Bool) (h : WriteInv bs p) :
    (p.length + 1 < 8 ∧ WriteInv (bs_write_bit bs x).2 (p ++ [x]) ∧
        (bs_write_bit bs x).2.file = bs.file) ∨
    (p.length + 1 = 8 ∧ WriteInv (bs_write_bit bs x).2 [] ∧
        (bs_write_bit bs x).2.file.content = bs.file.content ++ [bits_value (p ++ [x])]) := by
  obtain ⟨hm, hb, hc, hl⟩ := h
  have hpush := buffer_push p x hl
  have hlt := bits_value_lt (p ++ [x])
  by_cases h8 : p.length + 1 < 8
  · left
    refine ⟨h8, ?_⟩
    unfold bs_write_bit
    simp only [hb, hc, hpush, UCHAR_WIDTH, ge_iff_le, ferror_false]
    rw [if_neg (by omega)]
    exact ⟨⟨hm, rfl, by simp, by simpa using h8⟩, rfl⟩
  · right
    have h8' : p.length + 1 = 8 := by omega
    refine ⟨h8', ?_⟩
    unfold bs_write_bit
    simp only [hb, hc, hpush, UCHAR_WIDTH, ge_iff_le, ferror_false]
    rw [if_pos (by omega)]
    simp only [Bool.false_eq_true, and_false, if_false, fputc]
    refine ⟨⟨hm, rfl, rfl, by simp⟩, ?_⟩
    have : bits_value (p ++ [x]) < 256 := by
      have : (p ++ [x]).length = 8 := by simp [h8']
      rw [this] at hlt; simpa using hlt
    simp [Nat.mod_eq_of_lt this]

theorem byte_bits_length (x : Nat) : (byte_bits x).length = 8 := by simp [byte_bits]

theorem bytes_bits_length (l : List Nat) : (bytes_bits l).length = 8 * l.length := by
  induction l with
  | nil => rfl
  | cons x xs ih => simp [bytes_bits, byte_bits_length, ih]; omega

theorem bytes_bits_append (l1 l2 : List Nat) : bytes_bits (l1 ++ l2) = bytes_bits l1 ++ bytes_bits l2 := by
  induction l1 with
  | nil => rfl
  | cons x xs ih => simp [bytes_bits, ih]

/-- What a write session emits: the buffered bits, the bits written and the
zero padding, packed into bytes. -/
theorem bs_write_close (b : List BIT) (bs : BITSTREAM) (p : List Bool) (h : WriteInv bs p) :
    (bs_destroy (bs_write_bits bs b).2).1 = SUCCESS ∧
    ∃ bytes, (bs_destroy (bs_write_bits bs b).2).2.content = bs.file.content ++ bytes ∧
      bytes_bits bytes = p ++ b ++ List.replicate ((8 - (p.length + b.length) % 8) % 8) false ∧
      ∀ x ∈ bytes, x < 256 := by
  induction b generalizing bs p with
  | nil =>
    obtain ⟨hm, hb, hc, hl⟩ := h
    simp only [bs_write_bits, bs_destroy, hm, hc, true_and, ferror_false, Bool.false_eq_true,
      and_false, if_false, List.length_nil, Nat.add_zero, List.append_nil]
    by_cases h0 : p.length = 0
    · have : p = [] := List.length_eq_zero.mp h0
      subst this
      simp [bytes_bits]
    · rw [if_pos h0]
      refine ⟨rfl, [(bs.byte_buffer <<< (UCHAR_WIDTH - p.length)) % 256], ?_, ?_, ?_⟩
      · simp [fputc]
      · have := byte_bits_pad p (by omega)
        simp only [bytes_bits, List.append_nil, hb, UCHAR_WIDTH, this]
        congr 2
        rw [Nat.mod_eq_of_lt hl, Nat.mod_eq_of_lt (by omega)]
      · intro x hx
        simp at hx
        subst hx
        exact Nat.mod_lt _ (by norm_num)
  | cons x b ih =>
    rw [bs_write_bits_cons]
    rcases bs_write_bit_step bs p x h with ⟨h8, hinv, hf⟩ | ⟨h8, hinv, hf⟩
    · obtain ⟨hc, bytes, hbytes, hbits, hlt⟩ := ih _ _ hinv
      refine ⟨hc, bytes, by rw [hbytes, hf], ?_, hlt⟩
      rw [hbits]
      have e : (8 - ((p ++ [x]).length + b.length) % 8) % 8
          = (8 - (p.length + (x :: b).length) % 8) % 8 := by
        simp only [List.length_append, List.length_cons, List.length_nil]
        omega
      rw [e]
      simp
    · obtain ⟨hc, bytes, hbytes, hbits, hlt⟩ := ih _ _ hinv
      refine ⟨hc, bits_value (p ++ [x]) :: bytes, by rw [hbytes, hf]; simp, ?_, ?_⟩
      · have hp := byte_bits_pad (p ++ [x]) (by simp; omega)
        have hlen : (p ++ [x]).length = 8 := by simp [h8]
        rw [hlen] at hp
        have hv : bits_value (p ++ [x]) < 256 := by
          have := bits_value_lt (p ++ [x]); rw [hlen] at this; simpa using this
        simp only [Nat.sub_self, Nat.shiftLeft_zero, Nat.mod_eq_of_lt hv, List.replicate_zero,
          List.append_nil] at hp
        have e : (8 - (([] : List Bool).length + b.length) % 8) % 8
            = (8 - (p.length + (x :: b).length) % 8) % 8 := by
          simp only [List.length_nil, List.length_cons]
          omega
        simp only [bytes_bits, hp, hbits, e]
        simp
      · intro y hy
        rcases List.mem_cons.mp hy with rfl | hy
        · have := bits_value_lt (p ++ [x])
          have hlen : (p ++ [x]).length = 8 := by simp [h8]
          rw [hlen] at this; simpa using this
        · exact hlt y hy

theorem getD_bytes_bits (l : List Nat) (i : Nat) (h : i < 8 * l.length) :
    (bytes_bits l).getD i false = (l.getD (i / 8) 0).testBit (7 - i % 8) := by
  induction l generalizing i with
  | nil => simp at h
  | cons x xs ih =>
    simp only [bytes_bits]
    by_cases h8 : i < 8
    · have hi : i / 8 = 0 := by omega
      have hm : i % 8 = i := by omega
      rw [List.getD_append _ _ _ _ (by simp [byte_bits_length]; exact h8)]
      simp [hi, hm, byte_bits, List.getD_eq_getElem?_getD, h8]
    · have hi : i / 8 = (i - 8) / 8 + 1 := by omega
      have hm : i % 8 = (i - 8) % 8 := by omega
      rw [List.getD_append_right _ _ _ _ (by simp [byte_bits_length]; omega)]
      simp only [byte_bits_length, hi, hm, List.getD_cons_succ]
      apply ih
      simp at h
      omega

/-- C9: a sequence of bits written with `bs_write_bit` to a fresh write stream
that is then closed with `bs_destroy` comes out as `ceil(n/8)` bytes, bit `i`
of the sequence being bit `7 - i mod 8` of byte `i / 8`, and the bits of the
last byte past the sequence being 0. -/
theorem bs_write_session_bytes (b : List BIT) :
    (bs_write_bits (bs_create (FILE.open []) BITSTREAMMODE.WRITE) b).1 = SUCCESS ∧
    (bs_destroy (bs_write_bits (bs_create (FILE.open []) BITSTREAMMODE.WRITE) b).2).1 = SUCCESS ∧
    (bs_destroy (bs_write_bits (bs_create (FILE.open []) BITSTREAMMODE.WRITE) b).2).2.content.length
      = (b.length + 7) / 8 ∧
    (∀ i, i < 8 * ((b.length + 7) / 8) →
      ((bs_destroy (bs_write_bits (bs_create (FILE.open []) BITSTREAMMODE.WRITE) b).2).2.content.getD
          (i / 8) 0).testBit (7 - i % 8) = b.getD i false) ∧
    (∀ x ∈ (bs_destroy (bs_write_bits (bs_create (FILE.open []) BITSTREAMMODE.WRITE)
        b).2).2.content, x < 256) := by
  have hinv : WriteInv (bs_create (FILE.open []) BITSTREAMMODE.WRITE) [] :=
    ⟨rfl, rfl, rfl, by simp⟩
  obtain ⟨hc, bytes, hbytes, hbits, hlt⟩ := bs_write_close b _ [] hinv
  have hcont : (bs_destroy (bs_write_bits (bs_create (FILE.open []) BITSTREAMMODE.WRITE)
      b).2).2.content = bytes := by
    rw [hbytes]; simp [bs_create, FILE.open]
  have hlen : 8 * bytes.length = b.length + (8 - b.length % 8) % 8 := by
    have := congrArg List.length hbits
    simpa [bytes_bits_length] using this
  have hlen' : bytes.length = (b.length + 7) / 8 := by omega
  refine ⟨bs_write_bits_code _ _, hc, by rw [hcont, hlen'], ?_, by rw [hcont]; exact hlt⟩
  intro i hi
  rw [hcont, ← getD_bytes_bits bytes i (by omega), hbits]
  simp only [List.nil_append, List.length_nil, Nat.zero_add]
  by_cases hib : i < b.length
  · rw [List.getD_append _ _ _ _ hib]
  · rw [List.getD_append_right _ _ _ _ (by omega)]
    have hb : b.getD i false = false := by
      simp [List.getD_eq_getElem?_getD, List.getElem?_eq_none (Nat.le_of_not_lt hib)]
    rw [hb]
    simp only [List.getD_eq_getElem?_getD, List.getElem?_replicate]
    split <;> rfl

/-! ## Bit stream: reading -/

theorem and_get_mask (buf : Nat) : (buf &&& UCHAR_GET_MASK != 0) = buf.testBit 7 := by
  have h := Nat.and_two_pow buf 7
  have e : UCHAR_GET_MASK = 2 ^ 7 := rfl
  rw [e, h]
  cases buf.testBit 7 <;> simp

theorem buffer_bits_succ (buf c : Nat) (hc : c + 1 ≤ 8) :
    buffer_bits buf (c + 1) = buf.testBit 7 :: buffer_bits ((buf <<< 1) % 256) c := by
  unfold buffer_bits
  rw [List.range_succ_eq_map]
  simp only [List.map_cons, List.map_map, Nat.sub_zero, List.cons.injEq, true_and]
  apply List.map_congr_left
  intro j hj
  have hj' : j < c := List.mem_range.mp hj
  have e : (256 : Nat) = 2 ^ 8 := rfl
  simp only [Function.comp, e, Nat.testBit_mod_two_pow, Nat.testBit_shiftLeft]
  have h1 : 7 - j < 8 := by omega
  have h2 : 7 - j ≥ 1 := by omega
  have h3 : 7 - j - 1 = 7 - (j + 1) := by omega
  simp [h1, h2, h3]

theorem buffer_bits_length (buf c : Nat) : (buffer_bits buf c).length = c := by
  simp [buffer_bits]

theorem bs_read_bit_nil (bs : BITSTREAM) (h : pending_bits bs = []) :
    bs_read_bit bs = (FAILURE, none, bs) := by
  unfold pending_bits at h
  have h1 := congrArg List.length h
  by_cases he : bs.file.eof = true
  · simp only [he, if_true, List.append_nil, buffer_bits_length, List.length_nil] at h1
    simp [bs_read_bit, h1, feof, he]
  · simp [he] at h1

theorem bs_read_bit_cons (bs : BITSTREAM) (b : Bool) (rest : List Bool)
    (hc : bs.byte_buffer_count ≤ 8) (h : pending_bits bs = b :: rest) :
    (bs_read_bit bs).1 = SUCCESS ∧ (bs_read_bit bs).2.1 = some b ∧
      pending_bits (bs_read_bit bs).2.2 = rest ∧
      (bs_read_bit bs).2.2.byte_buffer_count ≤ 8 ∧ (bs_read_bit bs).2.2.mode = bs.mode ∧
      (bs_read_bit bs).2.2.file.content = bs.file.content := by
  by_cases h0 : bs.byte_buffer_count = 0
  · by_cases he : bs.file.eof = true
    · simp [pending_bits, h0, he, buffer_bits] at h
    · simp only [pending_bits, h0, he, buffer_bits, List.range_zero, List.map_nil,
        List.nil_append, if_false, Bool.false_eq_true] at h
      cases hg : bs.file.content[bs.file.pos]? with
      | none =>
        have hd : List.drop bs.file.pos bs.file.content = [] := by
          apply List.drop_eq_nil_of_le
          exact List.getElem?_eq_none_iff.mp hg
        rw [hd] at h
        simp only [bytes_bits, List.nil_append] at h
        have hb : b = true := by
          have := congrArg List.head? h; simpa using this.symm
        have hr : rest = List.replicate 7 true := by
          have := congrArg List.tail h; simpa using this.symm
        subst hb hr
        have e : bs_read_bit bs = (SUCCESS, some true,
            { bs with file := { bs.file with eof := true }, byte_buffer := 254,
                      byte_buffer_count := 7 }) := by
          unfold bs_read_bit
          simp only [h0, if_true, feof, he, if_false, ferror_false, Bool.false_eq_true,
            and_false, fgetc, hg, bs_take_bit, and_get_mask, UCHAR_WIDTH]
          rfl
        rw [e]
        refine ⟨rfl, rfl, ?_, by simp, rfl, rfl⟩
        simp only [pending_bits, if_true]
        decide
      | some x =>
        have hlt : bs.file.pos < bs.file.content.length := by
          rcases List.getElem?_eq_some_iff.mp hg with ⟨hl, _⟩; exact hl
        have hd : List.drop bs.file.pos bs.file.content
            = x :: List.drop (bs.file.pos + 1) bs.file.content := by
          rw [List.drop_eq_getElem_cons hlt]
          congr 1
          rcases List.getElem?_eq_some_iff.mp hg with ⟨_, hx⟩; exact hx
        rw [hd] at h
        have hx : (((x : Int) % 256).toNat) = x % 256 := by omega
        have hbb : byte_bits x = buffer_bits (x % 256) 8 := by
          unfold byte_bits buffer_bits
          apply List.map_congr_left
          intro j hj
          have e : (256 : Nat) = 2 ^ 8 := rfl
          have hj' : j < 8 := List.mem_range.mp hj
          have : 7 - j < 8 := by omega
          simp only [e, Nat.testBit_mod_two_pow, this, decide_True, Bool.true_and]
        simp only [bytes_bits, hbb, buffer_bits_succ _ 7 (by omega), List.cons_append,
          List.cons.injEq] at h
        have e : bs_read_bit bs = (SUCCESS, some b,
            { bs with file := { bs.file with pos := bs.file.pos + 1 },
                      byte_buffer := ((x % 256) <<< 1) % 256, byte_buffer_count := 7 }) := by
          unfold bs_read_bit
          simp only [h0, if_true, feof, he, if_false, ferror_false, Bool.false_eq_true,
            and_false, fgetc, hg, bs_take_bit, and_get_mask, UCHAR_WIDTH, hx, h.1]
        rw [e]
        refine ⟨rfl, rfl, ?_, by simp, rfl, rfl⟩
        simp only [pending_bits, he, if_false, Bool.false_eq_true]
        exact h.2
  · obtain ⟨c, hcc⟩ : ∃ c, bs.byte_buffer_count = c + 1 := ⟨bs.byte_buffer_count - 1, by omega⟩
    simp only [pending_bits, hcc, buffer_bits_succ _ c (by omega), List.cons_append,
      List.cons.injEq] at h
    have e : bs_read_bit bs = (SUCCESS, some b,
        { bs with byte_buffer := (bs.byte_buffer <<< 1) % 256, byte_buffer_count := c }) := by
      unfold bs_read_bit
      rw [if_neg h0]
      simp only [bs_take_bit, and_get_mask, h.1, hcc, Nat.add_sub_cancel]
    rw [e]
    refine ⟨rfl, rfl, ?_, by simp only; omega, rfl, rfl⟩
    simp only [pending_bits]
    exact h.2

theorem bs_read_bits_pending (n : Nat) (bs : BITSTREAM) (l rest : List Bool)
    (hc : bs.byte_buffer_count ≤ 8) (hl : l.length = n) (h : pending_bits bs = l ++ rest) :
    (bs_read_bits n bs).1 = SUCCESS ∧ (bs_read_bits n bs).2.1 = l ∧
      pending_bits (bs_read_bits n bs).2.2 = rest ∧
      (bs_read_bits n bs).2.2.byte_buffer_count ≤ 8 ∧
      (bs_read_bits n bs).2.2.mode = bs.mode := by
  induction n generalizing bs l with
  | zero =>
    have : l = [] := List.length_eq_zero.mp hl
    subst this
    exact ⟨rfl, rfl, h, hc, rfl⟩
  | succ n ih =>
    match l, hl with
    | b :: l1, hl =>
      obtain ⟨h1, h2, h3, h4, h5, _⟩ := bs_read_bit_cons bs b (l1 ++ rest) hc h
      obtain ⟨i1, i2, i3, i4, i5⟩ := ih (bs_read_bit bs).2.2 l1 h4 (by simpa using hl) h3
      have e : bs_read_bits (n + 1) bs =
          ((bs_read_bits n (bs_read_bit bs).2.2).1, b :: (bs_read_bits n (bs_read_bit bs).2.2).2.1,
            (bs_read_bits n (bs_read_bit bs).2.2).2.2) := by
        rw [bs_read_bits]
        rcases hr : bs_read_bit bs with ⟨c, ob, bs1⟩
        rw [hr] at h2
        simp only at h2
        subst h2
        rfl
      rw [e]
      exact ⟨i1, by rw [i2], i3, i4, by rw [i5, h5]⟩

/-- C10: the bits written in a write session and closed with `bs_destroy`,
read back with `bs_read_bit` from a fresh read stream on the emitted bytes,
come out in the same order, followed by the 0 bits of the padding; every one
of the `8 * ceil(n/8)` reads succeeds. -/
theorem bs_write_then_read (b : List BIT) :
    (bs_read_bits (8 * ((b.length + 7) / 8))
      (bs_create (FILE.open (bs_destroy (bs_write_bits (bs_create (FILE.open [])
        BITSTREAMMODE.WRITE) b).2).2.content) BITSTREAMMODE.READ)).1 = SUCCESS ∧
    (bs_read_bits (8 * ((b.length + 7) / 8))
      (bs_create (FILE.open (bs_destroy (bs_write_bits (bs_create (FILE.open [])
        BITSTREAMMODE.WRITE) b).2).2.content) BITSTREAMMODE.READ)).2.1
      = b ++ List.replicate (8 * ((b.length + 7) / 8) - b.length) false := by
  have hinv : WriteInv (bs_create (FILE.open []) BITSTREAMMODE.WRITE) [] :=
    ⟨rfl, rfl, rfl, by simp⟩
  obtain ⟨_, bytes, hbytes, hbits, _⟩ := bs_write_close b _ [] hinv
  have hcont : (bs_destroy (bs_write_bits (bs_create (FILE.open []) BITSTREAMMODE.WRITE)
      b).2).2.content = bytes := by
    rw [hbytes]; simp [bs_create, FILE.open]
  rw [hcont]
  have hpad : (8 - b.length % 8) % 8 = 8 * ((b.length + 7) / 8) - b.length := by omega
  simp only [List.nil_append, List.length_nil, Nat.zero_add, hpad] at hbits
  have hp : pending_bits (bs_create (FILE.open bytes) BITSTREAMMODE.READ)
      = (b ++ List.replicate (8 * ((b.length + 7) / 8) - b.length) false)
        ++ List.replicate 8 true := by
    simp [pending_bits, bs_create, FILE.open, buffer_bits, hbits]
  have := bs_read_bits_pending (8 * ((b.length + 7) / 8)) _ _ _ (by simp [bs_create]) (by
    simp; omega) hp
  exact ⟨this.1, this.2.1⟩

/-! ## Tree serialization -/

theorem byte_bits_eq_buffer_bits (x : Nat) : byte_bits x = buffer_bits (x % 256) 8 := by
  unfold byte_bits buffer_bits
  apply List.map_congr_left
  intro j hj
  have e : (256 : Nat) = 2 ^ 8 := rfl
  have hj' : j < 8 := List.mem_range.mp hj
  have : 7 - j < 8 := by omega
  simp only [e, Nat.testBit_mod_two_pow, this, decide_True, Bool.true_and]

theorem put_char_loop_bits (n : Nat) (bs : BITSTREAM) (c : Nat) (hn : n ≤ 8) :
    put_char_loop n bs c = bs_write_bits bs (buffer_bits c n) := by
  induction n generalizing bs c with
  | zero => rfl
  | succ n ih =>
    rw [buffer_bits_succ c n hn, bs_write_bits_cons, put_char_loop, and_get_mask]
    simp only [bs_write_bit_code, SUCCESS, FAILURE, Nat.zero_ne_one, if_false]
    exact ih _ _ (by omega)

theorem put_char_bits (bs : BITSTREAM) (ch : Nat) :
    put_char bs ch = bs_write_bits bs (byte_bits ch) := by
  rw [put_char, byte_bits_eq_buffer_bits]
  exact put_char_loop_bits 8 bs _ (le_refl _)

theorem represents_some (heap : Heap) (p : Option Nat) (t : HTree)
    (h : represents heap p t = true) : ∃ i n, p = some i ∧ heap[i]? = some n := by
  cases p with
  | none => cases t <;> simp [represents] at h
  | some i =>
    cases hn : heap[i]? with
    | none => cases t <;> simp [represents, hn] at h
    | some n => exact ⟨i, n, rfl, hn⟩

theorem put_tree_eq_write_ser (heap : Heap) (t : HTree) (fuel : Nat) (bs : BITSTREAM)
    (p : Option Nat) (hr : represents heap p t = true) (hf : t.height < fuel) :
    put_tree heap fuel bs p = Res.ok (bs_write_bits bs (ser t)) ∧
      (bs_write_bits bs (ser t)).1 = SUCCESS := by
  refine ⟨?_, bs_write_bits_code _ _⟩
  induction t generalizing fuel bs p with
  | leaf s =>
    obtain ⟨i, n, rfl, hn⟩ := represents_some heap p _ hr
    obtain ⟨fuel, rfl⟩ : ∃ k, fuel = k + 1 := ⟨fuel - 1, by omega⟩
    simp only [represents, hn, Bool.and_eq_true, beq_iff_eq] at hr
    obtain ⟨⟨h1, h2⟩, h3⟩ := hr
    simp only [put_tree, deref, hn, h2, h3, and_self, if_true, bs_write_bit_code, ser,
      bs_write_bits_cons, put_char_bits, h1]
  | branch l r ihl ihr =>
    obtain ⟨i, n, rfl, hn⟩ := represents_some heap p _ hr
    obtain ⟨fuel, rfl⟩ : ∃ k, fuel = k + 1 := ⟨fuel - 1, by omega⟩
    simp only [represents, hn, Bool.and_eq_true] at hr
    obtain ⟨hl, hrr⟩ := hr
    obtain ⟨il, nl, hil, _⟩ := represents_some heap _ _ hl
    simp only [HTree.height] at hf
    have e1 := ihl fuel (bs_write_bit bs HIGH).2 n.left hl (by omega)
    have e2 := ihr fuel (bs_write_bits (bs_write_bit bs HIGH).2 (ser l)).2 n.right hrr (by omega)
    have hne : ¬ (n.left = none ∧ n.right = none) := by simp [hil]
    rw [put_tree]
    simp only [deref, hn]
    rw [if_neg hne]
    simp only [bs_write_bit_code, SUCCESS, FAILURE, Nat.zero_ne_one, if_false, e1,
      bs_write_bits_code, e2, ser, bs_write_bits_cons, bs_write_bits_append]
    congr 1
    exact Prod.ext (bs_write_bits_code _ _).symm rfl

/-- C8: for a strict binary tree held in the arena, `put_tree` returns
`SUCCESS` and writes exactly `ser t`: bit 0 and the 8 symbol bits, most
significant first, for a leaf; bit 1, the left subtree, the right subtree for a
branch; nothing else. -/
theorem put_tree_writes_ser (heap : Heap) (t : HTree) (fuel : Nat) (bs : BITSTREAM)
    (p : Option Nat) (hr : represents heap p t = true) (hf : t.height < fuel) :
    put_tree heap fuel bs p = Res.ok (bs_write_bits bs (ser t)) ∧
      (bs_write_bits bs (ser t)).1 = SUCCESS :=
  put_tree_eq_write_ser heap t fuel bs p hr hf

/-- C8 at a one-leaf arena. -/
theorem put_tree_writes_ser_witness :
    represents [{ NODE.zero with ch := 65 }] (some 0) (HTree.leaf 65) = true ∧
    (HTree.leaf 65).height < 1 ∧
    (put_tree [{ NODE.zero with ch := 65 }] 1 (bs_create (FILE.open []) BITSTREAMMODE.WRITE)
        (some 0)
      = Res.ok (bs_write_bits (bs_create (FILE.open []) BITSTREAMMODE.WRITE)
          (ser (HTree.leaf 65))) ∧
     (bs_write_bits (bs_create (FILE.open []) BITSTREAMMODE.WRITE) (ser (HTree.leaf 65))).1
        = SUCCESS) :=
  ⟨by decide, by decide,
    put_tree_writes_ser _ (HTree.leaf 65) 1 _ (some 0) (by decide) (by decide)⟩

/-! ## Tree deserialization -/

theorem reprFrom_represents (heap : Heap) (lo : Nat) (t : HTree) (p : Option Nat)
    (h : ReprFrom heap lo p t) : represents heap p t = true := by
  induction t generalizing p with
  | leaf s =>
    obtain ⟨i, n, rfl, _, hn, h1, h2, h3⟩ := h
    simp [represents, hn, h1, h2, h3]
  | branch l r ihl ihr =>
    obtain ⟨i, n, rfl, _, hn, hl, hr⟩ := h
    simp [represents, hn, ihl _ hl, ihr _ hr]

theorem reprFrom_mono (heap : Heap) (lo lo1 : Nat) (hlo : lo1 ≤ lo) (t : HTree) (p : Option Nat)
    (h : ReprFrom heap lo p t) : ReprFrom heap lo1 p t := by
  induction t generalizing p with
  | leaf s =>
    obtain ⟨i, n, rfl, hi, hn, h1, h2, h3⟩ := h
    exact ⟨i, n, rfl, by omega, hn, h1, h2, h3⟩
  | branch l r ihl ihr =>
    obtain ⟨i, n, rfl, hi, hn, hl, hr⟩ := h
    exact ⟨i, n, rfl, by omega, hn, ihl _ hl, ihr _ hr⟩

theorem reprFrom_congr (heap heap1 : Heap) (lo : Nat)
    (hag : ∀ i, lo ≤ i → i < heap.length → heap1[i]? = heap[i]?) (t : HTree) (p : Option Nat)
    (h : ReprFrom heap lo p t) : ReprFrom heap1 lo p t := by
  induction t generalizing p with
  | leaf s =>
    obtain ⟨i, n, rfl, hi, hn, h1, h2, h3⟩ := h
    have hlt : i < heap.length := (List.getElem?_eq_some_iff.mp hn).1
    exact ⟨i, n, rfl, hi, by rw [hag i hi hlt, hn], h1, h2, h3⟩
  | branch l r ihl ihr =>
    obtain ⟨i, n, rfl, hi, hn, hl, hr⟩ := h
    have hlt : i < heap.length := (List.getElem?_eq_some_iff.mp hn).1
    exact ⟨i, n, rfl, hi, by rw [hag i hi hlt, hn], ihl _ hl, ihr _ hr⟩

theorem leaf_ptr_congr (heap heap1 : Heap) (lo : Nat)
    (hag : ∀ i, lo ≤ i → i < heap.length → heap1[i]? = heap[i]?) (t : HTree) (p : Option Nat)
    (s : Nat) (h : ReprFrom heap lo p t) : leaf_ptr heap1 p t s = leaf_ptr heap p t s := by
  induction t generalizing p with
  | leaf s1 =>
    obtain ⟨i, n, rfl, _⟩ := h
    simp [leaf_ptr]
  | branch l r ihl ihr =>
    obtain ⟨i, n, rfl, hi, hn, hl, hr⟩ := h
    have hlt : i < heap.length := (List.getElem?_eq_some_iff.mp hn).1
    simp only [leaf_ptr, hag i hi hlt, hn, ihl _ hl, ihr _ hr]

theorem leaf_ptr_not_mem (heap : Heap) (t : HTree) (p : Option Nat) (s : Nat)
    (h : s ∉ t.leaves) : leaf_ptr heap p t s = none := by
  induction t generalizing p with
  | leaf s1 =>
    cases p with
    | none => rfl
    | some i =>
      have : s1 ≠ s := by intro e; apply h; simp [HTree.leaves, e]
      simp [leaf_ptr, this]
  | branch l r ihl ihr =>
    simp only [HTree.leaves, List.mem_append, not_or] at h
    cases p with
    | none => rfl
    | some i =>
      simp only [leaf_ptr]
      cases heap[i]? with
      | none => rfl
      | some n => simp only [ihl _ h.1, ihr _ h.2]

theorem leaf_ptr_mem (heap : Heap) (lo : Nat) (t : HTree) (p : Option Nat) (s : Nat)
    (hr : ReprFrom heap lo p t) (h : s ∈ t.leaves) : leaf_ptr heap p t s ≠ none := by
  induction t generalizing p with
  | leaf s1 =>
    obtain ⟨i, n, rfl, _⟩ := hr
    have : s1 = s := by simp [HTree.leaves] at h; exact h.symm
    simp [leaf_ptr, this]
  | branch l r ihl ihr =>
    obtain ⟨i, n, rfl, hi, hn, hl, hrr⟩ := hr
    simp only [HTree.leaves, List.mem_append] at h
    simp only [leaf_ptr, hn]
    cases hq : leaf_ptr heap n.left l s with
    | some q => simp
    | none =>
      simp only
      rcases h with h | h
      · exact absurd hq (ihl _ hl h)
      · exact ihr _ hrr h

theorem store_length (heap : Heap) (p : Nat) (f : NODE → NODE) :
    (store heap p f).length = heap.length := by
  unfold store
  cases heap[p]? <;> simp

theorem store_getElem? (heap : Heap) (p : Nat) (f : NODE → NODE) (i : Nat) :
    (store heap p f)[i]? = if i = p then heap[p]?.map f else heap[i]? := by
  unfold store
  cases hp : heap[p]? with
  | none =>
    by_cases h : i = p
    · subst h; simp [hp]
    · simp [h]
  | some n =>
    by_cases h : i = p
    · subst h
      have hlt : i < heap.length := (List.getElem?_eq_some_iff.mp hp).1
      simp [List.getElem?_set, hlt]
    · simp [List.getElem?_set, h, Ne.symm h]

theorem store_getElem?_ne (heap : Heap) (p : Nat) (f : NODE → NODE) (i : Nat) (h : i ≠ p) :
    (store heap p f)[i]? = heap[i]? := by
  rw [store_getElem?, if_neg h]

theorem bs_read_bits_add (m n : Nat) (bs : BITSTREAM) (h : (bs_read_bits m bs).1 = SUCCESS) :
    bs_read_bits (m + n) bs =
      ((bs_read_bits n (bs_read_bits m bs).2.2).1,
       (bs_read_bits m bs).2.1 ++ (bs_read_bits n (bs_read_bits m bs).2.2).2.1,
       (bs_read_bits n (bs_read_bits m bs).2.2).2.2) := by
  induction m generalizing bs with
  | zero => simp [bs_read_bits]
  | succ m ih =>
    have e : m + 1 + n = (m + n) + 1 := by omega
    rw [e]
    simp only [bs_read_bits] at h ⊢
    rcases hr : bs_read_bit bs with ⟨c, ob, bs1⟩
    rw [hr] at h
    cases ob with
    | none => simp [SUCCESS, FAILURE] at h
    | some b =>
      simp only at h ⊢
      rw [ih bs1 h]
      simp

theorem bs_read_bits_succ (n : Nat) (bs : BITSTREAM) (b : Bool)
    (h : (bs_read_bit bs).2.1 = some b) :
    bs_read_bits (n + 1) bs =
      ((bs_read_bits n (bs_read_bit bs).2.2).1, b :: (bs_read_bits n (bs_read_bit bs).2.2).2.1,
        (bs_read_bits n (bs_read_bit bs).2.2).2.2) := by
  rw [bs_read_bits]
  rcases hr : bs_read_bit bs with ⟨c, ob, bs1⟩
  rw [hr] at h
  simp only at h
  subst h
  rfl

theorem get_node_char_pending (n : Nat) (bs : BITSTREAM) (c : Nat) (l rest : List Bool)
    (hc : bs.byte_buffer_count ≤ 8) (hl : l.length = n) (h : pending_bits bs = l ++ rest) :
    get_node_char n bs c = (SUCCESS, char_value l c, (bs_read_bits n bs).2.2) := by
  induction n generalizing bs c l with
  | zero =>
    have : l = [] := List.length_eq_zero.mp hl
    subst this
    rfl
  | succ n ih =>
    match l, hl with
    | b :: l1, hl =>
      obtain ⟨h1, h2, h3, h4, _, _⟩ := bs_read_bit_cons bs b (l1 ++ rest) hc h
      rw [bs_read_bits_succ n bs b h2, get_node_char]
      simp only [h1, SUCCESS, FAILURE, Nat.zero_ne_one, if_false, h2]
      rw [ih (bs_read_bit bs).2.2 _ l1 h4 (by simpa using hl) h3]
      simp only [char_value, List.foldl_cons, Option.some.injEq, SUCCESS]

set_option maxRecDepth 100000 in
theorem char_value_byte_bits : ∀ s, s < 256 → char_value (byte_bits s) 0 = s := by
  decide

theorem getD_set_node_list (nl : List (Option Nat)) (s s1 : Nat) (v : Option Nat)
    (hs : s < nl.length) :
    (nl.set s v).getD s1 none = if s1 = s then v else nl.getD s1 none := by
  simp only [List.getD_eq_getElem?_getD, List.getElem?_set]
  by_cases h : s = s1
  · subst h; simp [hs]
  · simp [h, Ne.symm h]

theorem store_append_last (heap : Heap) (n : NODE) (f : NODE → NODE) :
    store (heap ++ [n]) heap.length f = heap ++ [f n] := by
  unfold store
  simp

theorem ser_length_pos (t : HTree) : 0 < (ser t).length := by
  cases t <;> simp [ser]

theorem get_node_leaf (s : Nat) (hs : s < 256) (fuel : Nat) (st : GetState) (rest : List Bool)
    (hc : st.bs.byte_buffer_count ≤ 8)
    (hp : pending_bits st.bs = ser (HTree.leaf s) ++ rest) :
    get_node (fuel + 1) st =
      (if st.tree.node_list.getD s none ≠ none then
        Res.ok (FAILURE, st.heap.length,
          { st with bs := (bs_read_bits 9 st.bs).2.2,
                    heap := st.heap ++ [{ NODE.zero with ch := s }] })
      else
        Res.ok (SUCCESS, st.heap.length,
          { bs := (bs_read_bits 9 st.bs).2.2,
            tree := { st.tree with node_list := st.tree.node_list.set s (some st.heap.length) },
            heap := st.heap ++ [{ NODE.zero with ch := s }] })) := by
  simp only [ser, List.cons_append] at hp
  obtain ⟨h1, h2, h3, h4, _, _⟩ := bs_read_bit_cons st.bs false _ hc hp
  have hch := get_node_char_pending 8 (bs_read_bit st.bs).2.2 0 (byte_bits s) rest h4
    (byte_bits_length s) h3
  rw [char_value_byte_bits s hs] at hch
  have e9 : (bs_read_bits 9 st.bs).2.2 = (bs_read_bits 8 (bs_read_bit st.bs).2.2).2.2 := by
    rw [bs_read_bits_succ 8 st.bs false h2]
  rw [get_node]
  simp only [h1, h2, SUCCESS, FAILURE, Nat.zero_ne_one, if_false, Option.some.injEq,
    Bool.false_eq_true, UCHAR_WIDTH, hch, malloc, store_append_last, e9]



theorem get_node_ok (t : HTree) : ∀ (fuel : Nat) (st : GetState) (rest : List Bool),
    t.height < fuel → st.bs.byte_buffer_count ≤ 8 → pending_bits st.bs = ser t ++ rest →
    (∀ s ∈ t.leaves, s < 256) → t.leaves.Nodup →
    (∀ s ∈ t.leaves, st.tree.node_list.getD s none = none) →
    st.tree.node_list.length = 256 →
    ∃ st1, get_node fuel st = Res.ok (SUCCESS, st.heap.length, st1) ∧
      st1.bs = (bs_read_bits (ser t).length st.bs).2.2 ∧
      st.heap.length < st1.heap.length ∧
      (∀ i, i < st.heap.length → st1.heap[i]? = st.heap[i]?) ∧
      ReprFrom st1.heap st.heap.length (some st.heap.length) t ∧
      st1.tree.root = st.tree.root ∧ st1.tree.node_list.length = 256 ∧
      (∀ s, st1.tree.node_list.getD s none =
         if s ∈ t.leaves then leaf_ptr st1.heap (some st.heap.length) t s
         else st.tree.node_list.getD s none) := by
  induction t with
  | leaf s =>
    intro fuel st rest hf hc hp hsym _ hfree hlen
    obtain ⟨fuel, rfl⟩ : ∃ k, fuel = k + 1 := ⟨fuel - 1, by omega⟩
    have hs : s < 256 := hsym s (by simp [HTree.leaves])
    have hfr : st.tree.node_list.getD s none = none := hfree s (by simp [HTree.leaves])
    rw [get_node_leaf s hs fuel st rest hc hp]
    simp only [hfr, ne_eq, not_true_eq_false, if_false]
    refine ⟨_, rfl, ?_, ?_, ?_, ?_, rfl, ?_, ?_⟩
    · simp [ser, byte_bits_length]
    · simp
    · intro i hi
      simp [List.getElem?_append_left hi]
    · exact ⟨st.heap.length, { NODE.zero with ch := s }, rfl, le_refl _, by simp, rfl, rfl, rfl⟩
    · simp [hlen]
    · intro s1
      simp only [HTree.leaves, List.mem_singleton, leaf_ptr]
      rw [getD_set_node_list _ _ _ _ (by omega)]
      by_cases h : s1 = s
      · subst h; simp
      · simp [h]
  | branch l r ihl ihr =>
    intro fuel st rest hf hc hp hsym hnd hfree hlen
    obtain ⟨fuel, rfl⟩ : ∃ k, fuel = k + 1 := ⟨fuel - 1, by omega⟩
    simp only [HTree.height] at hf
    simp only [HTree.leaves, List.mem_append] at hsym hfree
    simp only [HTree.leaves] at hnd
    have hndl : l.leaves.Nodup := (List.nodup_append.mp hnd).1
    have hndr : r.leaves.Nodup := (List.nodup_append.mp hnd).2.1
    have hdis : ∀ s, s ∈ l.leaves → s ∈ r.leaves → False := fun s h1 h2 =>
      (List.nodup_append.mp hnd).2.2 h1 h2
    simp only [ser, List.cons_append, List.append_assoc] at hp
    obtain ⟨h1, h2, h3, h4, _, _⟩ := bs_read_bit_cons st.bs true _ hc hp
    -- left subtree
    obtain ⟨st1, e1, b1, g1, f1, r1, t1, n1, nl1⟩ := ihl fuel
      { st with bs := (bs_read_bit st.bs).2.2, heap := st.heap ++ [NODE.zero] }
      (ser r ++ rest) (by omega) h4 h3 (fun s hs => hsym s (Or.inl hs)) hndl
      (fun s hs => hfree s (Or.inl hs)) hlen
    simp only [List.length_append, List.length_singleton] at e1 b1 g1 f1 r1 nl1
    have hpl := bs_read_bits_pending (ser l).length (bs_read_bit st.bs).2.2 (ser l)
      (ser r ++ rest) h4 rfl h3
    rw [← b1] at hpl
    obtain ⟨hpl1, _, hpl3, hpl4, _⟩ := hpl
    have hcell : st1.heap[st.heap.length]? = some NODE.zero := by
      rw [f1 _ (by omega)]; simp
    -- right subtree
    obtain ⟨st2, e2, b2, g2, f2, r2, t2, n2, nl2⟩ := ihr fuel
      { st1 with heap := (store st1.heap st.heap.length
          (fun n => { n with left := some (st.heap.length + 1) })) }
      rest (by omega) hpl4 hpl3 (fun s hs => hsym s (Or.inr hs)) hndr
      (fun s hs => by
        show st1.tree.node_list.getD s none = none
        rw [nl1 s, if_neg (fun h => hdis s h hs)]
        exact hfree s (Or.inr hs)) n1
    simp only [store_length] at e2 b2 g2 f2 r2 nl2
    have hcell2 : st2.heap[st.heap.length]? =
        some { NODE.zero with left := some (st.heap.length + 1) } := by
      rw [f2 _ (by omega), store_getElem?, if_pos rfl, hcell]; rfl
    refine ⟨{ st2 with heap := (store st2.heap st.heap.length
        (fun n => { n with right := some st1.heap.length })) }, ?_, ?_, ?_, ?_, ?_, ?_, ?_, ?_⟩
    · rw [get_node]
      simp only [h1, h2, SUCCESS, FAILURE, Nat.zero_ne_one, if_false, if_true, malloc, e1, e2]
    · show st2.bs = _
      rw [b2, b1]
      have hlen3 : (ser (HTree.branch l r)).length = 1 + ((ser l).length + (ser r).length) := by
        simp [ser]; omega
      rw [hlen3, Nat.add_comm 1, bs_read_bits_succ _ st.bs true h2]
      simp only
      rw [bs_read_bits_add _ _ _ hpl1]
    · simp only [store_length]; omega
    · intro i hi
      show (store st2.heap st.heap.length _)[i]? = _
      rw [store_getElem?_ne _ _ _ _ (by omega), f2 _ (by omega),
        store_getElem?_ne _ _ _ _ (by omega), f1 _ (by omega)]
      simp [List.getElem?_append_left hi]
    · -- representation
      have agree1 : ∀ i, st.heap.length + 1 ≤ i → i < st1.heap.length →
          (store st2.heap st.heap.length
            (fun n => { n with right := some st1.heap.length }))[i]? = st1.heap[i]? := by
        intro i hi1 hi2
        rw [store_getElem?_ne _ _ _ _ (by omega), f2 _ hi2,
          store_getElem?_ne _ _ _ _ (by omega)]
      have agree2 : ∀ i, st1.heap.length ≤ i → i < st2.heap.length →
          (store st2.heap st.heap.length
            (fun n => { n with right := some st1.heap.length }))[i]? = st2.heap[i]? := by
        intro i hi1 hi2
        rw [store_getElem?_ne _ _ _ _ (by omega)]
      refine ⟨st.heap.length,
        { NODE.zero with left := some (st.heap.length + 1), right := some st1.heap.length },
        rfl, le_refl _, ?_, ?_, ?_⟩
      · show (store st2.heap st.heap.length _)[st.heap.length]? = _
        rw [store_getElem?, if_pos rfl, hcell2]; rfl
      · exact reprFrom_mono _ _ _ (by omega) _ _ (reprFrom_congr _ _ _ agree1 _ _ r1)
      · exact reprFrom_mono _ _ _ (by omega) _ _ (reprFrom_congr _ _ _ agree2 _ _ r2)
    · show st2.tree.root = _
      rw [t2]; exact t1
    · exact n2
    · intro s
      show st2.tree.node_list.getD s none = _
      have agree1 : ∀ i, st.heap.length + 1 ≤ i → i < st1.heap.length →
          (store st2.heap st.heap.length
            (fun n => { n with right := some st1.heap.length }))[i]? = st1.heap[i]? := by
        intro i hi1 hi2
        rw [store_getElem?_ne _ _ _ _ (by omega), f2 _ hi2,
          store_getElem?_ne _ _ _ _ (by omega)]
      have agree2 : ∀ i, st1.heap.length ≤ i → i < st2.heap.length →
          (store st2.heap st.heap.length
            (fun n => { n with right := some st1.heap.length }))[i]? = st2.heap[i]? := by
        intro i hi1 hi2
        rw [store_getElem?_ne _ _ _ _ (by omega)]
      have hcell3 : (store st2.heap st.heap.length
          (fun n => { n with right := some st1.heap.length }))[st.heap.length]? =
          some { NODE.zero with left := some (st.heap.length + 1),
                                right := some st1.heap.length } := by
        rw [store_getElem?, if_pos rfl, hcell2]; rfl
      have lp1 := leaf_ptr_congr _ _ _ agree1 _ _ s r1
      have lp2 := leaf_ptr_congr _ _ _ agree2 _ _ s r2
      simp only [HTree.leaves, List.mem_append, leaf_ptr, hcell3, lp1, lp2]
      rw [nl2 s, nl1 s]
      by_cases hl : s ∈ l.leaves
      · have hr : s ∉ r.leaves := fun h => hdis s hl h
        simp only [hl, hr, if_true, if_false, true_or]
        have := leaf_ptr_mem _ _ _ _ s r1 hl
        cases hq : leaf_ptr st1.heap (some (st.heap.length + 1)) l s with
        | none => exact absurd hq this
        | some q => rfl
      · by_cases hr : s ∈ r.leaves
        · simp only [hl, hr, if_true, if_false, or_true]
          rw [leaf_ptr_not_mem _ _ _ s hl]
        · simp only [hl, hr, if_false, or_self]

theorem get_node_dup (t : HTree) : ∀ (fuel : Nat) (st : GetState) (rest : List Bool),
    t.height < fuel → st.bs.byte_buffer_count ≤ 8 → pending_bits st.bs = ser t ++ rest →
    (∀ s ∈ t.leaves, s < 256) → st.tree.node_list.length = 256 →
    ¬ (t.leaves.Nodup ∧ ∀ s ∈ t.leaves, st.tree.node_list.getD s none = none) →
    ∃ p st1, get_node fuel st = Res.ok (FAILURE, p, st1) := by
  induction t with
  | leaf s =>
    intro fuel st rest hf hc hp hsym hlen hbad
    obtain ⟨fuel, rfl⟩ : ∃ k, fuel = k + 1 := ⟨fuel - 1, by omega⟩
    have hs : s < 256 := hsym s (by simp [HTree.leaves])
    have hne : st.tree.node_list.getD s none ≠ none := by
      intro h
      apply hbad
      refine ⟨by simp [HTree.leaves], ?_⟩
      intro s1 hs1
      simp only [HTree.leaves, List.mem_singleton] at hs1
      rw [hs1]; exact h
    rw [get_node_leaf s hs fuel st rest hc hp, if_pos hne]
    exact ⟨_, _, rfl⟩
  | branch l r ihl ihr =>
    intro fuel st rest hf hc hp hsym hlen hbad
    obtain ⟨fuel, rfl⟩ : ∃ k, fuel = k + 1 := ⟨fuel - 1, by omega⟩
    simp only [HTree.height] at hf
    simp only [HTree.leaves, List.mem_append] at hsym hbad
    simp only [ser, List.cons_append, List.append_assoc] at hp
    obtain ⟨h1, h2, h3, h4, _, _⟩ := bs_read_bit_cons st.bs true _ hc hp
    by_cases hgood : l.leaves.Nodup ∧ ∀ s ∈ l.leaves, st.tree.node_list.getD s none = none
    · obtain ⟨st1, e1, b1, g1, f1, r1, t1, n1, nl1⟩ := get_node_ok l fuel
        { st with bs := (bs_read_bit st.bs).2.2, heap := st.heap ++ [NODE.zero] }
        (ser r ++ rest) (by omega) h4 h3 (fun s hs => hsym s (Or.inl hs)) hgood.1
        hgood.2 hlen
      simp only [List.length_append, List.length_singleton] at e1 b1 g1 f1 r1 nl1
      have hpl := bs_read_bits_pending (ser l).length (bs_read_bit st.bs).2.2 (ser l)
        (ser r ++ rest) h4 rfl h3
      rw [← b1] at hpl
      obtain ⟨_, _, hpl3, hpl4, _⟩ := hpl
      have hbadr : ¬ (r.leaves.Nodup ∧ ∀ s ∈ r.leaves, st1.tree.node_list.getD s none = none) := by
        rintro ⟨hndr, hfr⟩
        apply hbad
        have hdis : ∀ s, s ∈ l.leaves → s ∈ r.leaves → False := by
          intro s hl hr
          have := hfr s hr
          rw [nl1 s, if_pos hl] at this
          exact leaf_ptr_mem _ _ _ _ s r1 hl this
        refine ⟨List.nodup_append.mpr ⟨hgood.1, hndr, fun a h1 h2 => hdis a h1 h2⟩, ?_⟩
        intro s hs
        rcases hs with hs | hs
        · exact hgood.2 s hs
        · have := hfr s hs
          rw [nl1 s, if_neg (fun h => hdis s h hs)] at this
          exact this
      obtain ⟨p2, st2, e2⟩ := ihr fuel
        { st1 with heap := (store st1.heap st.heap.length
            (fun n => { n with left := some (st.heap.length + 1) })) }
        rest (by omega) hpl4 hpl3 (fun s hs => hsym s (Or.inr hs)) n1 hbadr
      rw [get_node]
      simp only [h1, h2, SUCCESS, FAILURE, Nat.zero_ne_one, if_false, if_true, malloc, e1, e2]
      exact ⟨_, _, rfl⟩
    · obtain ⟨p1, st1, e1⟩ := ihl fuel
        { st with bs := (bs_read_bit st.bs).2.2, heap := st.heap ++ [NODE.zero] }
        (ser r ++ rest) (by omega) h4 h3 (fun s hs => hsym s (Or.inl hs)) hlen hgood
      rw [get_node]
      simp only [h1, h2, SUCCESS, FAILURE, Nat.zero_ne_one, if_false, if_true, malloc, e1]
      exact ⟨_, _, rfl⟩

theorem bs_read_bits_inv (n : Nat) (bs bs1 : BITSTREAM) (l : List Bool)
    (hc : bs.byte_buffer_count ≤ 8) (h : bs_read_bits n bs = (SUCCESS, l, bs1)) :
    pending_bits bs = l ++ pending_bits bs1 ∧ bs1.byte_buffer_count ≤ 8 := by
  induction n generalizing bs l with
  | zero =>
    simp only [bs_read_bits, Prod.mk.injEq, true_and] at h
    obtain ⟨rfl, rfl⟩ := h
    exact ⟨rfl, hc⟩
  | succ n ih =>
    cases hp : pending_bits bs with
    | nil =>
      rw [bs_read_bits, bs_read_bit_nil bs hp] at h
      simp [SUCCESS, FAILURE] at h
    | cons b rest =>
      obtain ⟨h1, h2, h3, h4, _, _⟩ := bs_read_bit_cons bs b rest hc hp
      rw [bs_read_bits_succ n bs b h2] at h
      simp only [Prod.mk.injEq] at h
      obtain ⟨e1, e2, e3⟩ := h
      have := ih (bs_read_bit bs).2.2 (bs_read_bits n (bs_read_bit bs).2.2).2.1 h4
        (Prod.ext e1 (Prod.ext rfl e3))
      rw [← e2, List.cons_append, ← this.1, h3]
      exact ⟨rfl, this.2⟩

theorem get_length_loop_pending (w n : Nat) (bs : BITSTREAM) (size : Nat) (l rest : List Bool)
    (hc : bs.byte_buffer_count ≤ 8) (hl : l.length = n) (h : pending_bits bs = l ++ rest) :
    get_length_loop w n bs size = (SUCCESS, length_value w l size, (bs_read_bits n bs).2.2) := by
  induction n generalizing bs size l with
  | zero =>
    have : l = [] := List.length_eq_zero.mp hl
    subst this
    rfl
  | succ n ih =>
    match l, hl with
    | b :: l1, hl =>
      obtain ⟨h1, h2, h3, h4, _, _⟩ := bs_read_bit_cons bs b (l1 ++ rest) hc h
      rw [bs_read_bits_succ n bs b h2, get_length_loop]
      simp only [h1, SUCCESS, FAILURE, Nat.zero_ne_one, if_false, h2]
      rw [ih (bs_read_bit bs).2.2 _ l1 h4 (by simpa using hl) h3]
      simp only [length_value, List.foldl_cons, Option.some.injEq, SUCCESS]

theorem height_lt_ser_length (t : HTree) : t.height < (ser t).length := by
  induction t with
  | leaf s => simp [HTree.height, ser]
  | branch l r ihl ihr =>
    simp only [HTree.height, ser, List.length_cons, List.length_append]
    omega

theorem pending_bits_open (bytes : List Nat) :
    pending_bits (bs_create (FILE.open bytes) BITSTREAMMODE.READ)
      = bytes_bits bytes ++ List.replicate 8 true := by
  simp [pending_bits, bs_create, FILE.open, buffer_bits]

/-- The header of an archive is read by `get_length`, whatever it holds; the
stream is left at the first bit after it. -/
theorem get_length_header (w size0 : Nat) (header body : List Nat) (hh : header.length = 4) :
    (get_length w (bs_create (FILE.open (header ++ body)) BITSTREAMMODE.READ) size0).1 = SUCCESS ∧
    pending_bits (get_length w (bs_create (FILE.open (header ++ body)) BITSTREAMMODE.READ)
        size0).2.2 = bytes_bits body ++ List.replicate 8 true ∧
    (get_length w (bs_create (FILE.open (header ++ body)) BITSTREAMMODE.READ)
        size0).2.2.byte_buffer_count ≤ 8 ∧
    (get_length w (bs_create (FILE.open (header ++ body)) BITSTREAMMODE.READ) size0).2.1
      = length_value w (bytes_bits header) size0 := by
  have hp : pending_bits (bs_create (FILE.open (header ++ body)) BITSTREAMMODE.READ)
      = bytes_bits header ++ (bytes_bits body ++ List.replicate 8 true) := by
    rw [pending_bits_open, bytes_bits_append, List.append_assoc]
  have hl : (bytes_bits header).length = 32 := by rw [bytes_bits_length, hh]
  have hc : (bs_create (FILE.open (header ++ body)) BITSTREAMMODE.READ).byte_buffer_count ≤ 8 := by
    simp [bs_create]
  have e := get_length_loop_pending w 32 _ size0 _ _ hc hl hp
  have r := bs_read_bits_pending 32 _ _ _ hc hl hp
  rw [get_length, ULONG_WIDTH, e]
  exact ⟨rfl, r.2.2.1, r.2.2.2.1, rfl⟩

/-- C6: an archive whose tree section serializes a strict binary tree with a
symbol on two leaves is rejected: `decode` returns `FAILURE` and the output
stream is left as it was, whatever the header and whatever follows the
tree. -/
theorem decode_rejects_duplicate_symbol (t : HTree) (hsym : ∀ s ∈ t.leaves, s < 256)
    (hdup : ¬ t.leaves.Nodup) (header body : List Nat) (rest : List Bool)
    (hh : header.length = 4) (hb : bytes_bits body = ser t ++ rest)
    (ulong_bits size0 : Nat) (file_out : FILE) :
    ∃ f, decode ulong_bits size0 (FILE.open (header ++ body)) file_out
      = Res.ok (FAILURE, f, file_out) := by
  obtain ⟨g1, g2, g3, _⟩ := get_length_header ulong_bits size0 header body hh
  rw [hb, List.append_assoc] at g2
  have hfuel : t.height < 8 * (FILE.open (header ++ body)).content.length + 16 := by
    have h1 := height_lt_ser_length t
    have h2 := congrArg List.length hb
    simp only [bytes_bits_length, List.length_append] at h2
    simp only [FILE.open, List.length_append]
    omega
  obtain ⟨p, st1, e⟩ := get_node_dup t _
    { bs := (get_length ulong_bits (bs_create (FILE.open (header ++ body)) BITSTREAMMODE.READ)
        size0).2.2,
      tree := { root := none, node_list := List.replicate MAX_CHAR none },
      heap := [] } _ hfuel g3 g2 hsym (by rw [List.length_replicate]; rfl) (fun h => hdup h.1)
  refine ⟨(bs_destroy st1.bs).2, ?_⟩
  rw [decode]
  simp only [g1, SUCCESS, FAILURE, Nat.zero_ne_one, if_false, get_tree, e, if_true]



/-- C6 at the tree with two leaves `X`, header length 2. -/
theorem decode_rejects_duplicate_symbol_witness :
    (∀ s ∈ (HTree.branch (HTree.leaf 88) (HTree.leaf 88)).leaves, s < 256) ∧
    ¬ (HTree.branch (HTree.leaf 88) (HTree.leaf 88)).leaves.Nodup ∧
    [0, 0, 0, 2].length = 4 ∧
    bytes_bits [150, 11, 0] = ser (HTree.branch (HTree.leaf 88) (HTree.leaf 88))
      ++ [false, false, false, false, false] ∧
    ∃ f, decode 32 0 (FILE.open ([0, 0, 0, 2] ++ [150, 11, 0])) (FILE.open [])
      = Res.ok (FAILURE, f, FILE.open []) :=
  ⟨by decide, by decide, by decide, by decide,
    decode_rejects_duplicate_symbol (HTree.branch (HTree.leaf 88) (HTree.leaf 88))
      (by decide) (by decide) [0, 0, 0, 2] [150, 11, 0] [false, false, false, false, false]
      (by decide) (by decide) 32 0 (FILE.open [])⟩

theorem getD_replicate_none (n s : Nat) :
    (List.replicate n (none : Option Nat)).getD s none = none := by
  simp only [List.getD_eq_getElem?_getD, List.getElem?_replicate]
  split <;> rfl

/-- C7: for a strict binary tree `t` with pairwise distinct leaf symbols,
`put_tree` writes `ser t`, and `get_tree` on a stream that starts with those
bits returns `SUCCESS`, leaves the stream where reading exactly those bits
leaves it, rebuilds `t` in the arena, and fills `node_list` with the pointer
of the leaf of every leaf symbol and with null for every other value. -/
theorem get_tree_inverts_put_tree (t : HTree) (hsym : ∀ s ∈ t.leaves, s < 256)
    (hnd : t.leaves.Nodup)
    (wheap : Heap) (wp : Option Nat) (wfuel : Nat) (ws : BITSTREAM)
    (hw : represents wheap wp t = true) (hwf : t.height < wfuel)
    (bs bs1 : BITSTREAM) (heap : Heap) (fuel : Nat)
    (hc : bs.byte_buffer_count ≤ 8) (hf : t.height < fuel)
    (hread : bs_read_bits (ser t).length bs = (SUCCESS, ser t, bs1)) :
    put_tree wheap wfuel ws wp = Res.ok (bs_write_bits ws (ser t)) ∧
    ∃ tree heap1, get_tree fuel bs heap = Res.ok (SUCCESS, some tree, bs1, heap1) ∧
      represents heap1 tree.root t = true ∧
      (∀ s, s ∈ t.leaves → tree.node_list.getD s none = leaf_ptr heap1 tree.root t s ∧
        leaf_ptr heap1 tree.root t s ≠ none) ∧
      (∀ s, s ∉ t.leaves → tree.node_list.getD s none = none) := by
  refine ⟨(put_tree_eq_write_ser wheap t wfuel ws wp hw hwf).1, ?_⟩
  obtain ⟨hp, _⟩ := bs_read_bits_inv _ bs bs1 (ser t) hc hread
  obtain ⟨st1, e1, b1, g1, f1, r1, t1, n1, nl1⟩ := get_node_ok t fuel
    { bs := bs, tree := { root := none, node_list := List.replicate MAX_CHAR none },
      heap := heap } (pending_bits bs1) hf hc hp hsym hnd
    (fun s _ => getD_replicate_none _ s)
    (by rw [List.length_replicate]; rfl)
  simp only at e1 b1 g1 f1 r1 t1 n1 nl1
  rw [hread] at b1
  refine ⟨{ st1.tree with root := some heap.length }, st1.heap, ?_, ?_, ?_, ?_⟩
  · rw [get_tree, e1]
    simp only [SUCCESS, FAILURE, Nat.zero_ne_one, if_false, b1]
  · exact reprFrom_represents _ _ _ _ r1
  · intro s hs
    have := nl1 s
    rw [if_pos hs] at this
    exact ⟨this, leaf_ptr_mem _ _ _ _ s r1 hs⟩
  · intro s hs
    have := nl1 s
    rw [if_neg hs] at this
    rw [show ({ st1.tree with root := some heap.length } : TREE).node_list = st1.tree.node_list
      from rfl, this]
    exact getD_replicate_none _ s

/-- C7 at the tree with leaves `A` and `B`, read from the three bytes that
hold its serialization. -/
theorem get_tree_inverts_put_tree_witness :
    (∀ s ∈ (HTree.branch (HTree.leaf 65) (HTree.leaf 66)).leaves, s < 256) ∧
    (HTree.branch (HTree.leaf 65) (HTree.leaf 66)).leaves.Nodup ∧
    represents
      [{ NODE.zero with left := some 1, right := some 2 }, { NODE.zero with ch := 65 },
        { NODE.zero with ch := 66 }] (some 0)
      (HTree.branch (HTree.leaf 65) (HTree.leaf 66)) = true ∧
    (put_tree
      [{ NODE.zero with left := some 1, right := some 2 }, { NODE.zero with ch := 65 },
        { NODE.zero with ch := 66 }] 2 (bs_create (FILE.open []) BITSTREAMMODE.WRITE) (some 0)
      = Res.ok (bs_write_bits (bs_create (FILE.open []) BITSTREAMMODE.WRITE)
          (ser (HTree.branch (HTree.leaf 65) (HTree.leaf 66)))) ∧
    ∃ tree heap1,
      get_tree 2 (bs_create (FILE.open [144, 72, 64]) BITSTREAMMODE.READ) []
        = Res.ok (SUCCESS, some tree,
            (bs_read_bits 19 (bs_create (FILE.open [144, 72, 64]) BITSTREAMMODE.READ)).2.2,
            heap1) ∧
      represents heap1 tree.root (HTree.branch (HTree.leaf 65) (HTree.leaf 66)) = true ∧
      (∀ s, s ∈ (HTree.branch (HTree.leaf 65) (HTree.leaf 66)).leaves →
        tree.node_list.getD s none
            = leaf_ptr heap1 tree.root (HTree.branch (HTree.leaf 65) (HTree.leaf 66)) s ∧
        leaf_ptr heap1 tree.root (HTree.branch (HTree.leaf 65) (HTree.leaf 66)) s ≠ none) ∧
      (∀ s, s ∉ (HTree.branch (HTree.leaf 65) (HTree.leaf 66)).leaves →
        tree.node_list.getD s none = none)) :=
  ⟨by decide, by decide, by decide,
    get_tree_inverts_put_tree (HTree.branch (HTree.leaf 65) (HTree.leaf 66))
      (by decide) (by decide) _ (some 0) 2 _ (by decide) (by decide)
      (bs_create (FILE.open [144, 72, 64]) BITSTREAMMODE.READ) _ [] 2 (by decide) (by decide)
      (by decide)⟩

/-! ## The frequency pass -/

theorem calc_freq_loop_spec (rem : List Nat) : ∀ (fuel : Nat) (f : FILE) (t : FREQTABLE),
    f.eof = false → f.content.drop f.pos = rem → (∀ b ∈ rem, b < 256) →
    rem.length + 2 ≤ fuel →
    calc_freq_loop fuel f t = Res.ok (SUCCESS,
      { f with pos := f.pos + rem.length, eof := true },
      { cells := add_counts t.cells rem, stray := t.stray + 1 }) := by
  induction rem with
  | nil =>
    intro fuel f t he hd _ hfuel
    obtain ⟨k, rfl⟩ : ∃ k, fuel = k + 2 := ⟨fuel - 2, by simp at hfuel; omega⟩
    have hg : f.content[f.pos]? = none := by
      apply List.getElem?_eq_none
      exact List.drop_eq_nil_iff.mp hd
    simp only [calc_freq_loop, feof, he, fgetc, hg, ferror_false, Bool.false_eq_true, and_false,
      if_false, FREQTABLE.incr, EOF, add_counts, List.foldl_nil, List.length_nil, Nat.add_zero]
    rfl
  | cons b rem ih =>
    intro fuel f t he hd hb hfuel
    obtain ⟨k, rfl⟩ : ∃ k, fuel = k + 1 := ⟨fuel - 1, by simp at hfuel; omega⟩
    have hlt : f.pos < f.content.length := by
      by_contra hc
      rw [List.drop_eq_nil_of_le (by omega)] at hd
      exact List.noConfusion hd
    have hg : f.content[f.pos]? = some b := by
      rw [List.drop_eq_getElem_cons hlt] at hd
      rw [List.getElem?_eq_getElem hlt]
      exact congrArg some (List.cons.inj hd).1
    have hd1 : f.content.drop (f.pos + 1) = rem := by
      rw [List.drop_eq_getElem_cons hlt] at hd
      exact (List.cons.inj hd).2
    have hb1 : b < 256 := hb b (List.mem_cons_self _ _)
    have hin : (0 : Int) ≤ (b : Int) ∧ (b : Int) < (MAX_CHAR : Int) := by
      simp only [MAX_CHAR]; omega
    rw [calc_freq_loop]
    simp only [feof, he, fgetc, hg, ferror_false, Bool.false_eq_true, and_false, if_false,
      FREQTABLE.incr, hin, and_self, if_true, Int.toNat_ofNat]
    rw [ih k _ _ rfl hd1 (fun x hx => hb x (List.mem_cons_of_mem _ hx))
      (by simp at hfuel ⊢; omega)]
    simp only [add_counts, List.foldl_cons, List.length_cons]
    congr 4
    omega

theorem calc_freq_table_open (x : List Nat) (hx : ∀ b ∈ x, b < 256) (f : FILE)
    (hf : rewind f = FILE.open x) :
    calc_freq_table (rewind f) = Res.ok (SUCCESS,
      { content := x, pos := x.length, eof := true },
      { cells := add_counts (List.replicate MAX_CHAR 0) x, stray := 1 }) := by
  rw [hf, calc_freq_table]
  rw [calc_freq_loop_spec x _ (FILE.open x) _ rfl (by simp [FILE.open]) hx
    (by simp [FILE.open])]
  simp [FILE.open]

theorem add_counts_append (cells : List Nat) (l1 l2 : List Nat) :
    add_counts cells (l1 ++ l2) = add_counts (add_counts cells l1) l2 := by
  simp [add_counts, List.foldl_append]

theorem add_counts_replicate (n b : Nat) (cells : List Nat) (hb : b < cells.length) :
    add_counts cells (List.replicate n b) = cells.set b ((cells.getD b 0 + n) % 2 ^ 32) ∨ n = 0 := by
  induction n generalizing cells with
  | zero => right; rfl
  | succ n ih =>
    left
    simp only [List.replicate_succ, add_counts, List.foldl_cons]
    rcases ih (cells.set b ((cells.getD b 0 + 1) % 2 ^ 32)) (by simpa using hb) with h | h
    · simp only [add_counts] at h
      rw [h]
      simp only [List.set_set, List.getD_eq_getElem?_getD, List.getElem?_set, hb, if_true,
        Option.getD_some]
      congr 1
      omega
    · subst h
      simp [List.getD_eq_getElem?_getD]

/-! ## Runs of `encode` and `decode` on given inputs -/

theorem put_length_loop_code (w n : Nat) (bs : BITSTREAM) (size : Nat) :
    (put_length_loop w n bs size).1 = SUCCESS := by
  induction n generalizing bs size with
  | zero => rfl
  | succ n ih =>
    rw [put_length_loop]
    simp only [bs_write_bit_code, SUCCESS, FAILURE, Nat.zero_ne_one, if_false]
    exact ih _ _

theorem put_length_code (w : Nat) (bs : BITSTREAM) (size : Nat) :
    (put_length w bs size).1 = SUCCESS :=
  put_length_loop_code w _ bs _

theorem put_tree_null (heap : Heap) (fuel : Nat) (bs : BITSTREAM) :
    put_tree heap (fuel + 1) bs none = Res.fault Fault.nullDeref := by
  simp [put_tree, deref]

set_option maxRecDepth 100000 in
theorem build_tree_nodes_large_counts :
    build_tree_nodes qsort_model
      { cells := ((List.replicate 256 0).set 65 (2 ^ 31)).set 66 (2 ^ 31 - 1), stray := 1 } []
      = Res.ok (some { root := none,
                       node_list := ((List.replicate 256 none).set 65 (some 0)).set 66 (some 1) },
          [{ ch := 65, freq := 2 ^ 31, parent := none, left := none, right := none },
           { ch := 66, freq := 2 ^ 31 - 1, parent := none, left := none, right := none }]) := by
  decide

set_option maxRecDepth 100000 in
theorem add_counts_large_counts :
    add_counts (List.replicate MAX_CHAR 0)
        (List.replicate (2 ^ 31) 65 ++ List.replicate (2 ^ 31 - 1) 66)
      = ((List.replicate 256 0).set 65 (2 ^ 31)).set 66 (2 ^ 31 - 1) := by
  rw [add_counts_append]
  rcases add_counts_replicate (2 ^ 31) 65 (List.replicate MAX_CHAR 0) (by decide) with h | h
  · rw [h]
    rcases add_counts_replicate (2 ^ 31 - 1) 66
        ((List.replicate MAX_CHAR 0).set 65
          (((List.replicate MAX_CHAR 0).getD 65 0 + 2 ^ 31) % 2 ^ 32)) (by decide) with h2 | h2
    · rw [h2]
      decide
    · exact absurd h2 (by decide)
  · exact absurd h (by decide)

theorem encode_null_root (ulong_bits : Nat) (x : List Nat) (out : FILE)
    (qsort : (Option Nat → Option Nat → Int) → List (Option Nat) → List (Option Nat))
    (hx : ∀ b ∈ x, b < 256) (hlen : x.length ≠ 1) (tree : TREE) (heap : Heap)
    (hroot : tree.root = none)
    (hb : build_tree_nodes qsort
      { cells := add_counts (List.replicate MAX_CHAR 0) x, stray := 1 } []
        = Res.ok (some tree, heap)) :
    encode ulong_bits qsort (FILE.open x) out = Res.fault Fault.nullDeref := by
  have hfreq := calc_freq_table_open x hx (fseek_end (FILE.open x)).2 rfl
  have hs : ¬ ((x.length : Int) = 1) := by omega
  rw [encode]
  simp only [fseek_end, ftell, FILE.open, put_length_code, SUCCESS, FAILURE] at hfreq ⊢
  simp only [build_tree, hfreq, hb, SUCCESS, FAILURE, hs]
  simp only [Nat.zero_ne_one, if_false]
  rw [hroot, put_tree_null]
  simp

/-- C2: on the input made of `2^31` bytes `A` followed by `2^31 - 1` bytes
`B` (two distinct values, length `2^32 - 1`), `encode` does not return: the
comparison function places the null entries before both leaves, the root of
the tree is null and `put_tree` dereferences it. -/
theorem encode_crashes_on_large_counts (ulong_bits : Nat) :
    encode ulong_bits qsort_model
        (FILE.open (List.replicate (2 ^ 31) 65 ++ List.replicate (2 ^ 31 - 1) 66))
        (FILE.open [])
      = Res.fault Fault.nullDeref := by
  apply encode_null_root ulong_bits _ _ qsort_model ?_ ?_ _ _ ?_
    (add_counts_large_counts ▸ build_tree_nodes_large_counts)
  · intro b hb
    rw [List.mem_append, List.mem_replicate, List.mem_replicate] at hb
    omega
  · rw [List.length_append, List.length_replicate, List.length_replicate]
    decide
  · rfl



/-- C1: on the one-byte input `A` the position that `ftell` reports is 1, which
`encode` takes for the error value: it returns `FAILURE` and writes nothing,
so there is no archive to decode. -/
theorem encode_fails_on_one_byte (ulong_bits : Nat)
    (qsort : (Option Nat → Option Nat → Int) → List (Option Nat) → List (Option Nat)) :
    encode ulong_bits qsort (FILE.open [65]) (FILE.open [])
      = Res.ok (FAILURE, { content := [65], pos := 1, eof := false }, FILE.open []) := by
  rfl

set_option maxRecDepth 100000 in
theorem build_tree_nodes_no_counts :
    build_tree_nodes qsort_model
      { cells := add_counts (List.replicate MAX_CHAR 0) [], stray := 1 } []
      = Res.ok (some { root := none, node_list := List.replicate 256 none }, []) := by
  decide

set_option maxRecDepth 100000 in
/-- C3: on the empty input `encode` does not return: after the 32 header bits
the tree has a null root, which `put_tree` dereferences. And `decode` on the
four header bytes of length 0 does not stop at the length: it asks `get_tree`
for a tree and returns `FAILURE`. -/
theorem encode_crashes_on_empty_input (ulong_bits : Nat) :
    encode ulong_bits qsort_model (FILE.open []) (FILE.open []) = Res.fault Fault.nullDeref ∧
    (put_length 32 (bs_create (FILE.open []) BITSTREAMMODE.WRITE) 0).2.file.content
      = [0, 0, 0, 0] ∧
    (put_length 64 (bs_create (FILE.open []) BITSTREAMMODE.WRITE) 0).2.file.content
      = [0, 0, 0, 0] ∧
    decode 32 0 (FILE.open [0, 0, 0, 0]) (FILE.open [])
      = Res.ok (FAILURE, { content := [0, 0, 0, 0], pos := 4, eof := true }, FILE.open []) ∧
    decode 64 0 (FILE.open [0, 0, 0, 0]) (FILE.open [])
      = Res.ok (FAILURE, { content := [0, 0, 0, 0], pos := 4, eof := true }, FILE.open []) := by
  refine ⟨?_, by decide, by decide, by decide, by decide⟩
  exact encode_null_root ulong_bits [] _ qsort_model (by simp) (by simp) _ _ rfl
    build_tree_nodes_no_counts

set_option maxRecDepth 100000 in
/-- C4: the input `AAAA` gives the tree whose root is the leaf `A`, and
`encode` returns `SUCCESS` with a six-byte archive; `decode` on that archive
returns `FAILURE` and writes nothing, because `get_char` looks for a child of
the root, which a leaf does not have. -/
theorem decode_fails_on_single_symbol :
    build_tree qsort_model (FILE.open [65, 65, 65, 65]) []
      = Res.ok (some { root := some 0,
                       node_list := (List.replicate 256 none).set 65 (some 0) },
          { content := [65, 65, 65, 65], pos := 4, eof := true },
          [{ ch := 65, freq := 4, parent := none, left := none, right := none }]) ∧
    encode 32 qsort_model (FILE.open [65, 65, 65, 65]) (FILE.open [])
      = Res.ok (SUCCESS, { content := [65, 65, 65, 65], pos := 4, eof := true },
          { content := [0, 0, 0, 4, 32, 128], pos := 6, eof := false }) ∧
    decode 32 0 (FILE.open [0, 0, 0, 4, 32, 128]) (FILE.open [])
      = Res.ok (FAILURE, { content := [0, 0, 0, 4, 32, 128], pos := 6, eof := false },
          FILE.open []) ∧
    decode 64 0 (FILE.open [0, 0, 0, 4, 32, 128]) (FILE.open [])
      = Res.ok (FAILURE, { content := [0, 0, 0, 4, 32, 128], pos := 6, eof := false },
          FILE.open []) := by
  refine ⟨by decide, by decide, by decide, by decide⟩

set_option maxRecDepth 100000 in
/-- C5: the archive of `ABB` is `00 00 00 03 90 48 4C`; cut after the sixth
byte it still decodes with `SUCCESS`, to `GGG`: the missing byte is read as
eight 1 bits, because `bs_read_bit` stores `EOF` in its buffer as a byte. -/
theorem decode_accepts_truncated_archive :
    encode 32 qsort_model (FILE.open [65, 66, 66]) (FILE.open [])
      = Res.ok (SUCCESS, { content := [65, 66, 66], pos := 3, eof := true },
          { content := [0, 0, 0, 3, 144, 72, 76], pos := 7, eof := false }) ∧
    decode 32 0 (FILE.open ([0, 0, 0, 3, 144, 72, 76].take 6)) (FILE.open [])
      = Res.ok (SUCCESS, { content := [0, 0, 0, 3, 144, 72], pos := 6, eof := true },
          { content := [71, 71, 71], pos := 3, eof := false }) ∧
    decode 64 0 (FILE.open ([0, 0, 0, 3, 144, 72, 76].take 6)) (FILE.open [])
      = Res.ok (SUCCESS, { content := [0, 0, 0, 3, 144, 72], pos := 6, eof := true },
          { content := [71, 71, 71], pos := 3, eof := false }) := by
  refine ⟨by decide, by decide, by decide⟩

/-! ## End of the stream -/

/-- C11: a fresh read stream over `k` bytes yields its `8k` bits, and the very
next `bs_read_bit`, made with an empty buffer and no byte left, still returns
`SUCCESS` and delivers a 1 bit (for `k = 0`: the first read on an empty
stream). -/
theorem bs_read_bit_past_end (bytes : List Nat) :
    (bs_read_bits (8 * bytes.length) (bs_create (FILE.open bytes) BITSTREAMMODE.READ)).1
      = SUCCESS ∧
    (bs_read_bits (8 * bytes.length) (bs_create (FILE.open bytes) BITSTREAMMODE.READ)).2.1
      = bytes_bits bytes ∧
    (bs_read_bit (bs_read_bits (8 * bytes.length)
      (bs_create (FILE.open bytes) BITSTREAMMODE.READ)).2.2).1 = SUCCESS ∧
    (bs_read_bit (bs_read_bits (8 * bytes.length)
      (bs_create (FILE.open bytes) BITSTREAMMODE.READ)).2.2).2.1 = some HIGH := by
  have hp := pending_bits_open bytes
  obtain ⟨h1, h2, h3, h4, _⟩ := bs_read_bits_pending (8 * bytes.length) _ (bytes_bits bytes)
    (List.replicate 8 true) (by simp [bs_create]) (bytes_bits_length bytes) hp
  obtain ⟨g1, g2, _⟩ := bs_read_bit_cons _ true (List.replicate 7 true) h4 (by rw [h3]; rfl)
  exact ⟨h1, h2, g1, g2⟩

/-! ## The length header -/

theorem or_one_of_even (m : Nat) (h : m % 2 = 0) : m ||| 1 = m + 1 := by
  apply Nat.eq_of_testBit_eq
  intro i
  rw [Nat.testBit_or]
  cases i with
  | zero =>
    simp only [Nat.testBit_zero, Nat.testBit_one_zero]
    have : (m + 1) % 2 = 1 := by omega
    simp [this]
  | succ i =>
    have h1 : Nat.testBit 1 (i + 1) = false := by
      rw [Nat.testBit_succ]; simp
    rw [h1, Bool.or_false, Nat.testBit_succ, Nat.testBit_succ]
    congr 1
    omega

theorem length_step (w a : Nat) (b : Bool) (hw : 1 ≤ w) :
    (if b = true then (a <<< 1) % 2 ^ w ||| ULONG_SET_MASK else (a <<< 1) % 2 ^ w)
      = (2 * a + b.toNat) % 2 ^ w := by
  have hpos : 0 < 2 ^ w := Nat.two_pow_pos w
  have hev : 2 ^ w % 2 = 0 := by
    obtain ⟨k, rfl⟩ : ∃ k, w = k + 1 := ⟨w - 1, by omega⟩
    rw [pow_succ]; omega
  have h2 : (a <<< 1) = 2 * a := by rw [Nat.shiftLeft_eq]; omega
  have hmod : (2 * a % 2 ^ w) % 2 = 0 := by
    have := Nat.mod_mod_of_dvd (2 * a) (Nat.dvd_of_mod_eq_zero hev)
    omega
  cases b with
  | false => simp [h2]
  | true =>
    simp only [if_true, h2, ULONG_SET_MASK, Bool.toNat_true]
    rw [or_one_of_even _ hmod]
    have hlt : 2 * a % 2 ^ w < 2 ^ w := Nat.mod_lt _ hpos
    have hle : 2 * a % 2 ^ w + 1 < 2 ^ w := by omega
    have : 1 % 2 ^ w = 1 := Nat.mod_eq_of_lt (by omega)
    rw [Nat.add_mod, this, Nat.mod_eq_of_lt hle]

theorem foldl_bits_acc (l : List Bool) (a : Nat) :
    l.foldl (fun x b => 2 * x + b.toNat) a = a * 2 ^ l.length + bits_value l := by
  induction l generalizing a with
  | nil => simp [bits_value]
  | cons b l ih =>
    simp only [List.foldl_cons, List.length_cons, bits_value]
    rw [ih, ih (2 * 0 + b.toNat)]
    ring

theorem length_value_eq (w : Nat) (hw : 1 ≤ w) (l : List Bool) (a : Nat) :
    length_value w l a = (a * 2 ^ l.length + bits_value l) % 2 ^ w ∨ l = [] := by
  induction l generalizing a with
  | nil => right; rfl
  | cons b l ih =>
    left
    simp only [length_value, List.foldl_cons]
    rw [length_step w a b hw]
    rcases ih ((2 * a + b.toNat) % 2 ^ w) with h | h
    · simp only [length_value] at h
      rw [h]
      have e : bits_value (b :: l) = b.toNat * 2 ^ l.length + bits_value l := by
        simp only [bits_value, List.foldl_cons]
        rw [foldl_bits_acc]
        simp [bits_value]
      rw [e, List.length_cons, pow_succ]
      rw [Nat.add_mod, Nat.mul_mod, Nat.mod_mod, ← Nat.mul_mod, ← Nat.add_mod]
      congr 1
      ring
    · subst h
      simp only [List.foldl_nil, bits_value, List.foldl_cons, List.length_cons, List.length_nil]
      congr 1
      omega

theorem bits_value_snoc (l : List Bool) (b : Bool) :
    bits_value (l ++ [b]) = 2 * bits_value l + b.toNat := by
  simp [bits_value, List.foldl_append]

theorem bits_value_msb (n k : Nat) :
    bits_value ((List.range k).map (fun j => n.testBit (k - 1 - j))) = n % 2 ^ k := by
  induction k generalizing n with
  | zero => simp [bits_value, Nat.mod_one]
  | succ k ih =>
    rw [List.range_succ, List.map_append, List.map_singleton, bits_value_snoc]
    have e : (List.range k).map (fun j => n.testBit (k + 1 - 1 - j))
        = (List.range k).map (fun j => (n / 2).testBit (k - 1 - j)) := by
      apply List.map_congr_left
      intro j hj
      have hj' : j < k := List.mem_range.mp hj
      have : k + 1 - 1 - j = (k - 1 - j) + 1 := by omega
      rw [this, Nat.testBit_succ]
    rw [e, ih (n / 2)]
    have e0 : k + 1 - 1 - k = 0 := by omega
    rw [e0, Nat.testBit_zero, pow_succ', Nat.mod_mul]
    have : (decide (n % 2 = 1)).toNat = n % 2 := by
      rcases Nat.mod_two_eq_zero_or_one n with h | h <;> simp [h]
    rw [this]
    omega

theorem bits_value_length_bits (n : Nat) : bits_value (length_bits n) = n % 2 ^ 32 :=
  bits_value_msb n 32



theorem and_ulong_get_mask (x : Nat) : (x &&& ULONG_GET_MASK != 0) = x.testBit 31 := by
  have h := Nat.and_two_pow x 31
  have e : ULONG_GET_MASK = 2 ^ 31 := rfl
  rw [e, h]
  cases x.testBit 31 <;> simp

theorem word_bits_succ (w x n : Nat) (hw : 32 ≤ w) (hn : n + 1 ≤ 32) :
    (List.range (n + 1)).map (fun j => x.testBit (31 - j))
      = x.testBit 31 ::
        (List.range n).map (fun j => ((x <<< 1) % 2 ^ w).testBit (31 - j)) := by
  rw [List.range_succ_eq_map]
  simp only [List.map_cons, List.map_map, Nat.sub_zero, List.cons.injEq, true_and]
  apply List.map_congr_left
  intro j hj
  have hj' : j < n := List.mem_range.mp hj
  simp only [Function.comp, Nat.testBit_mod_two_pow, Nat.testBit_shiftLeft]
  have h1 : 31 - j < w := by omega
  have h2 : 31 - j ≥ 1 := by omega
  have h3 : 31 - j - 1 = 31 - (j + 1) := by omega
  simp [h1, h2, h3]

theorem put_length_loop_bits (w n : Nat) (bs : BITSTREAM) (x : Nat) (hw : 32 ≤ w)
    (hn : n ≤ 32) :
    put_length_loop w n bs x
      = bs_write_bits bs ((List.range n).map (fun j => x.testBit (31 - j))) := by
  induction n generalizing bs x with
  | zero => rfl
  | succ n ih =>
    rw [word_bits_succ w x n hw hn, bs_write_bits_cons, put_length_loop, and_ulong_get_mask]
    simp only [bs_write_bit_code, SUCCESS, FAILURE, Nat.zero_ne_one, if_false]
    exact ih _ _ (by omega)

theorem length_bits_mod (w x : Nat) (hw : 32 ≤ w) : length_bits (x % 2 ^ w) = length_bits x := by
  unfold length_bits
  apply List.map_congr_left
  intro j _
  rw [Nat.testBit_mod_two_pow]
  have : 31 - j < w := by omega
  simp [this]

theorem put_length_bits (w : Nat) (bs : BITSTREAM) (size : Nat) (hw : 32 ≤ w) :
    put_length w bs size = bs_write_bits bs (length_bits (size % 2 ^ 32)) := by
  rw [put_length, ULONG_WIDTH, put_length_loop_bits w 32 bs _ hw (le_refl _)]
  show bs_write_bits bs (length_bits (size % 2 ^ w)) = _
  rw [length_bits_mod w size hw, length_bits_mod 32 size (le_refl _)]

theorem length_bits_length (n : Nat) : (length_bits n).length = 32 := by
  simp [length_bits]

theorem get_length_value (w size0 n : Nat) (hw : 32 ≤ w) (hn : n < 2 ^ 32) :
    length_value w (length_bits n) size0 = (size0 * 2 ^ 32 + n) % 2 ^ w := by
  rcases length_value_eq w (by omega) (length_bits n) size0 with h | h
  · rw [h, length_bits_length, bits_value_length_bits, Nat.mod_eq_of_lt hn]
  · have := length_bits_length n
    rw [h] at this
    simp at this

set_option maxRecDepth 1000000 in
/-- Claim C12 fails where `unsigned long` has 64 bits and the local `size` of
`decode` holds 1 on entry. `put_length` writes `00 00 00 03` for length 3,
and `get_length` on those bytes returns `SUCCESS` with `*size = 2^32 + 3`,
not 3: the 32 left shifts do not push the old value out of the word.
`encode` turns the bytes 65, 66, 66 into the archive `00 00 00 03 90 48 4C`;
`decode` gives the three bytes back when `size` starts as 0, and with `size`
starting as 1 it runs past the payload, writes 13 bytes and returns
`FAILURE`. -/
theorem get_length_keeps_high_bits :
    (bs_destroy (put_length 64 (bs_create (FILE.open []) BITSTREAMMODE.WRITE) 3).2).2.content
      = [0, 0, 0, 3] ∧
    (get_length 64 (bs_create (FILE.open [0, 0, 0, 3]) BITSTREAMMODE.READ) 1).1 = SUCCESS ∧
    (get_length 64 (bs_create (FILE.open [0, 0, 0, 3]) BITSTREAMMODE.READ) 1).2.1
      = 2 ^ 32 + 3 ∧
    (get_length 64 (bs_create (FILE.open [0, 0, 0, 3]) BITSTREAMMODE.READ) 1).2.1 ≠ 3 ∧
    encode 64 qsort_model (FILE.open [65, 66, 66]) (FILE.open [])
      = Res.ok (SUCCESS, { content := [65, 66, 66], pos := 3, eof := true },
          { content := [0, 0, 0, 3, 144, 72, 76], pos := 7, eof := false }) ∧
    decode 64 0 (FILE.open [0, 0, 0, 3, 144, 72, 76]) (FILE.open [])
      = Res.ok (SUCCESS, { content := [0, 0, 0, 3, 144, 72, 76], pos := 7, eof := false },
          { content := [65, 66, 66], pos := 3, eof := false }) ∧
    decode 64 1 (FILE.open [0, 0, 0, 3, 144, 72, 76]) (FILE.open [])
      = Res.ok (FAILURE, { content := [0, 0, 0, 3, 144, 72, 76], pos := 7, eof := true },
          { content := [65, 66, 66, 65, 65, 66, 66, 66, 66, 66, 66, 66, 66], pos := 13,
            eof := false }) := by
  refine ⟨?_, ?_, ?_, ?_, ?_, ?_, ?_⟩ <;> decide

/-- What `put_length` and `get_length` do for an `unsigned long` of at least
32 bits: `put_length` writes exactly 32 bits, the binary digits of
`size mod 2^32` most significant first. `get_length` on a stream that starts with the 32 bits of `n < 2^32`
returns `SUCCESS` and leaves the stream just after them; `*size` ends as `n`
for every initial value whose bits the 32 shifts push out of the word, which is
every initial value when `unsigned long` has 32 bits. -/
theorem get_length_inverts_put_length (ulong_bits n size0 : Nat) (hw : 32 ≤ ulong_bits)
    (hn : n < 2 ^ 32) (hs : (size0 * 2 ^ 32) % 2 ^ ulong_bits = 0)
    (ws bs bs1 : BITSTREAM) (hc : bs.byte_buffer_count ≤ 8)
    (hread : bs_read_bits 32 bs = (SUCCESS, length_bits n, bs1)) :
    (∀ size, put_length ulong_bits ws size = bs_write_bits ws (length_bits (size % 2 ^ 32))) ∧
    (length_bits n).length = 32 ∧
    get_length ulong_bits bs size0 = (SUCCESS, n, bs1) := by
  refine ⟨fun size => put_length_bits ulong_bits ws size hw, length_bits_length n, ?_⟩
  obtain ⟨hp, _⟩ := bs_read_bits_inv 32 bs bs1 _ hc hread
  rw [get_length, ULONG_WIDTH,
    get_length_loop_pending ulong_bits 32 bs size0 _ _ hc (length_bits_length n) hp, hread,
    get_length_value ulong_bits size0 n hw hn]
  have h32 : (2 : Nat) ^ 32 ≤ 2 ^ ulong_bits := Nat.pow_le_pow_right (by norm_num) hw
  rw [Nat.add_mod, hs, Nat.zero_add, Nat.mod_mod, Nat.mod_eq_of_lt (by omega)]

set_option maxRecDepth 100000 in
/-- The lemma `get_length_inverts_put_length` at a 32-bit `unsigned long`,
length 3 and initial value 12345. -/
theorem get_length_inverts_put_length_witness :
    32 ≤ 32 ∧ 3 < 2 ^ 32 ∧ (12345 * 2 ^ 32) % 2 ^ 32 = 0 ∧
    ((∀ size, put_length 32 (bs_create (FILE.open []) BITSTREAMMODE.WRITE) size
        = bs_write_bits (bs_create (FILE.open []) BITSTREAMMODE.WRITE)
            (length_bits (size % 2 ^ 32))) ∧
     (length_bits 3).length = 32 ∧
     get_length 32 (bs_create (FILE.open [0, 0, 0, 3]) BITSTREAMMODE.READ) 12345
       = (SUCCESS, 3,
          (bs_read_bits 32 (bs_create (FILE.open [0, 0, 0, 3]) BITSTREAMMODE.READ)).2.2)) :=
  ⟨by decide, by decide, by decide,
    get_length_inverts_put_length 32 3 12345 (by decide) (by decide) (by decide)
      (bs_create (FILE.open []) BITSTREAMMODE.WRITE)
      (bs_create (FILE.open [0, 0, 0, 3]) BITSTREAMMODE.READ) _ (by decide) (by decide)⟩

/-! ## Every read makes progress -/

theorem bs_read_bit_mono (bs : BITSTREAM) (hc : bs.byte_buffer_count ≤ 8) :
    (bs_read_bit bs).2.2.byte_buffer_count ≤ 8 ∧
    (pending_bits (bs_read_bit bs).2.2).length ≤ (pending_bits bs).length ∧
    ((bs_read_bit bs).1 = SUCCESS ∨ (bs_read_bit bs).1 = FAILURE) ∧
    ((bs_read_bit bs).1 = SUCCESS →
      (pending_bits (bs_read_bit bs).2.2).length + 1 = (pending_bits bs).length) := by
  cases hp : pending_bits bs with
  | nil =>
    rw [bs_read_bit_nil bs hp]
    simp [hc, hp, SUCCESS, FAILURE]
  | cons b rest =>
    obtain ⟨h1, _, h3, h4, _, _⟩ := bs_read_bit_cons bs b rest hc hp
    rw [h3]
    exact ⟨h4, by simp, Or.inl h1, fun _ => rfl⟩

theorem get_node_char_mono (n : Nat) (bs : BITSTREAM) (c : Nat)
    (hc : bs.byte_buffer_count ≤ 8) :
    (get_node_char n bs c).2.2.byte_buffer_count ≤ 8 ∧
    (pending_bits (get_node_char n bs c).2.2).length ≤ (pending_bits bs).length := by
  induction n generalizing bs c with
  | zero => exact ⟨hc, le_refl _⟩
  | succ n ih =>
    obtain ⟨m1, m2, _, _⟩ := bs_read_bit_mono bs hc
    rw [get_node_char]
    by_cases hf : (bs_read_bit bs).1 = FAILURE
    · simp only [hf, if_true]
      exact ⟨m1, m2⟩
    · simp only [hf, if_false]
      obtain ⟨i1, i2⟩ := ih (bs_read_bit bs).2.2
        (if (bs_read_bit bs).2.1 = some HIGH then (c <<< 1) % 256 ||| UCHAR_SET_MASK
         else (c <<< 1) % 256) m1
      exact ⟨i1, le_trans i2 m2⟩

theorem get_node_char_short (n : Nat) (bs : BITSTREAM) (c : Nat)
    (hc : bs.byte_buffer_count ≤ 8) (hs : (pending_bits bs).length < n) :
    (get_node_char n bs c).1 = FAILURE := by
  induction n generalizing bs c with
  | zero => simp at hs
  | succ n ih =>
    rw [get_node_char]
    cases hp : pending_bits bs with
    | nil =>
      rw [bs_read_bit_nil bs hp]
      simp
    | cons b rest =>
      obtain ⟨h1, _, h3, h4, _, _⟩ := bs_read_bit_cons bs b rest hc hp
      simp only [h1, SUCCESS, FAILURE, Nat.zero_ne_one, if_false]
      apply ih _ _ h4
      rw [h3]
      rw [hp] at hs
      simpa using hs

theorem get_node_total : ∀ (fuel : Nat) (st : GetState), st.bs.byte_buffer_count ≤ 8 →
    (pending_bits st.bs).length < fuel →
    ∃ c p st1, get_node fuel st = Res.ok (c, p, st1) ∧
      st1.bs.byte_buffer_count ≤ 8 ∧
      (pending_bits st1.bs).length ≤ (pending_bits st.bs).length ∧
      (c = SUCCESS ∨ c = FAILURE) := by
  intro fuel
  induction fuel with
  | zero => intro st _ h; simp at h
  | succ fuel ih =>
    intro st hc hf
    obtain ⟨m1, m2, m3, m4⟩ := bs_read_bit_mono st.bs hc
    rw [get_node]
    by_cases hfail : (bs_read_bit st.bs).1 = FAILURE
    · simp only [hfail, if_true]
      exact ⟨_, _, _, rfl, m1, m2, Or.inr rfl⟩
    · have hsucc : (bs_read_bit st.bs).1 = SUCCESS := by
        rcases m3 with h | h
        · exact h
        · exact absurd h hfail
      have hlen := m4 hsucc
      simp only [hfail, if_false]
      by_cases hb : (bs_read_bit st.bs).2.1 = some HIGH
      · simp only [hb, if_true]
        obtain ⟨c1, p1, st1, e1, k1, l1, _⟩ := ih
          { st with bs := (bs_read_bit st.bs).2.2, heap := (malloc st.heap NODE.zero).2 }
          m1 (by simp only; omega)
        simp only [e1]
        by_cases hc1 : c1 = FAILURE
        · simp only [hc1, if_true]
          exact ⟨_, _, _, rfl, k1, by simp only at l1 ⊢; omega, Or.inr rfl⟩
        · simp only [hc1, if_false]
          obtain ⟨c2, p2, st2, e2, k2, l2, _⟩ := ih
            { st1 with heap := (store st1.heap (malloc st.heap NODE.zero).1
                (fun n => { n with left := some p1 })) }
            k1 (by simp only at l1 ⊢; omega)
          simp only [e2]
          by_cases hc2 : c2 = FAILURE
          · simp only [hc2, if_true]
            exact ⟨_, _, _, rfl, k2, by simp only at l1 l2 ⊢; omega, Or.inr rfl⟩
          · simp only [hc2, if_false]
            exact ⟨_, _, _, rfl, k2, by simp only at l1 l2 ⊢; omega, Or.inl rfl⟩
      · simp only [hb, if_false]
        obtain ⟨n1, n2⟩ := get_node_char_mono UCHAR_WIDTH (bs_read_bit st.bs).2.2 0 m1
        by_cases hr : (get_node_char UCHAR_WIDTH (bs_read_bit st.bs).2.2 0).1 = FAILURE
        · simp only [hr, if_true]
          exact ⟨_, _, _, rfl, n1, by simp only; omega, Or.inr rfl⟩
        · simp only [hr, if_false]
          split
          · exact ⟨_, _, _, rfl, n1, by simp only; omega, Or.inr rfl⟩
          · exact ⟨_, _, _, rfl, n1, by simp only; omega, Or.inl rfl⟩



set_option maxRecDepth 100000 in
theorem byte_bits_char_value (l : List Bool) (h : l.length = 8) :
    char_value l 0 < 256 ∧ byte_bits (char_value l 0) = l := by
  match l, h with
  | [a, b, c, d, e, f, g, i], _ => revert a b c d e f g i; decide

theorem get_node_code (fuel : Nat) (st : GetState) (c p : Nat) (st1 : GetState)
    (h : get_node fuel st = Res.ok (c, p, st1)) : c = SUCCESS ∨ c = FAILURE := by
  cases fuel with
  | zero => simp [get_node] at h
  | succ fuel =>
    rw [get_node] at h
    dsimp only at h
    by_cases hfail : (bs_read_bit st.bs).1 = FAILURE
    · simp only [hfail, if_true, Res.ok.injEq, Prod.mk.injEq] at h
      exact Or.inr h.1.symm
    · simp only [hfail, if_false] at h
      by_cases hb : (bs_read_bit st.bs).2.1 = some HIGH
      · simp only [hb, if_true] at h
        cases e1 : get_node fuel
            { st with bs := (bs_read_bit st.bs).2.2, heap := (malloc st.heap NODE.zero).2 } with
        | fault e => rw [e1] at h; simp at h
        | ok r1 =>
          obtain ⟨c1, pl, stl⟩ := r1
          rw [e1] at h
          dsimp only at h
          by_cases hc1 : c1 = FAILURE
          · simp only [hc1, if_true, Res.ok.injEq, Prod.mk.injEq] at h
            exact Or.inr h.1.symm
          · simp only [hc1, if_false] at h
            cases e2 : get_node fuel
                { stl with heap := (store stl.heap (malloc st.heap NODE.zero).1
                  (fun n => { n with left := some pl })) } with
            | fault e => rw [e2] at h; simp at h
            | ok r2 =>
              obtain ⟨c2, pr, str⟩ := r2
              rw [e2] at h
              dsimp only at h
              by_cases hc2 : c2 = FAILURE
              · simp only [hc2, if_true, Res.ok.injEq, Prod.mk.injEq] at h
                exact Or.inr h.1.symm
              · simp only [hc2, if_false, Res.ok.injEq, Prod.mk.injEq] at h
                exact Or.inl h.1.symm
      · simp only [hb, if_false] at h
        by_cases hr : (get_node_char UCHAR_WIDTH (bs_read_bit st.bs).2.2 0).1 = FAILURE
        · simp only [hr, if_true, Res.ok.injEq, Prod.mk.injEq] at h
          exact Or.inr h.1.symm
        · simp only [hr, if_false] at h
          split at h
          · simp only [Res.ok.injEq, Prod.mk.injEq] at h
            exact Or.inr h.1.symm
          · simp only [Res.ok.injEq, Prod.mk.injEq] at h
            exact Or.inl h.1.symm

theorem get_node_inv : ∀ (fuel : Nat) (st : GetState) (p : Nat) (st1 : GetState),
    st.bs.byte_buffer_count ≤ 8 → st.tree.node_list.length = 256 →
    get_node fuel st = Res.ok (SUCCESS, p, st1) →
    ∃ t rest, pending_bits st.bs = ser t ++ rest ∧ t.height < fuel ∧
      (∀ s ∈ t.leaves, s < 256) ∧ t.leaves.Nodup ∧
      (∀ s ∈ t.leaves, st.tree.node_list.getD s none = none) := by
  intro fuel
  induction fuel with
  | zero => intro st p st1 _ _ h; simp [get_node] at h
  | succ fuel ih =>
    intro st p st1 hc hlen h
    cases hp : pending_bits st.bs with
    | nil =>
      rw [get_node, bs_read_bit_nil st.bs hp] at h
      simp [SUCCESS, FAILURE] at h
    | cons b rest0 =>
      obtain ⟨h1, h2, h3, h4, _, _⟩ := bs_read_bit_cons st.bs b rest0 hc hp
      cases b with
      | false =>
        by_cases hshort : rest0.length < 8
        · have := get_node_char_short UCHAR_WIDTH (bs_read_bit st.bs).2.2 0 h4
            (by rw [h3]; exact hshort)
          rw [get_node] at h
          simp only [h1, h2, SUCCESS, FAILURE, Nat.zero_ne_one, if_false, Option.some.injEq,
            Bool.false_eq_true, this, if_true] at h
          simp at h
        · have hsplit : rest0 = rest0.take 8 ++ rest0.drop 8 :=
            (List.take_append_drop 8 rest0).symm
          have hl8 : (rest0.take 8).length = 8 := by
            rw [List.length_take]; omega
          obtain ⟨hv, hbb⟩ := byte_bits_char_value (rest0.take 8) hl8
          have hp2 : pending_bits st.bs
              = ser (HTree.leaf (char_value (rest0.take 8) 0)) ++ rest0.drop 8 := by
            rw [hp, ser, hbb, List.cons_append, ← hsplit]
          rw [get_node_leaf _ hv fuel st _ hc hp2] at h
          by_cases hfree : st.tree.node_list.getD (char_value (rest0.take 8) 0) none = none
          · refine ⟨HTree.leaf (char_value (rest0.take 8) 0), rest0.drop 8,
              by rw [← hp]; exact hp2, by simp [HTree.height], ?_, by simp [HTree.leaves], ?_⟩
            · intro s hs
              simp only [HTree.leaves, List.mem_singleton] at hs
              rw [hs]; exact hv
            · intro s hs
              simp only [HTree.leaves, List.mem_singleton] at hs
              rw [hs]; exact hfree
          · rw [if_pos hfree] at h
            simp [SUCCESS, FAILURE] at h
      | true =>
        rw [get_node] at h
        simp only [h1, h2, SUCCESS, FAILURE, Nat.zero_ne_one, if_false, if_true, malloc] at h
        cases e1 : get_node fuel
            { st with bs := (bs_read_bit st.bs).2.2, heap := st.heap ++ [NODE.zero] } with
        | fault e => rw [e1] at h; simp at h
        | ok r1 =>
          obtain ⟨c1, pl, stl⟩ := r1
          rw [e1] at h
          simp only at h
          have hc1 : c1 = SUCCESS := by
            rcases get_node_code _ _ _ _ _ e1 with hh | hh
            · exact hh
            · rw [hh] at h; simp [FAILURE] at h
          subst hc1
          simp only [SUCCESS, Nat.zero_ne_one, if_false] at h
          obtain ⟨tl, rest1, q1, q2, q3, q4, q5⟩ := ih
            { st with bs := (bs_read_bit st.bs).2.2, heap := st.heap ++ [NODE.zero] }
            pl stl h4 hlen e1
          obtain ⟨stl', e1', b1, g1, f1, r1, t1, n1, nl1⟩ := get_node_ok tl fuel
            { st with bs := (bs_read_bit st.bs).2.2, heap := st.heap ++ [NODE.zero] }
            rest1 q2 h4 q1 q3 q4 q5 hlen
          rw [e1] at e1'
          simp only [Res.ok.injEq, Prod.mk.injEq, true_and] at e1'
          obtain ⟨epl, est⟩ := e1'
          subst est
          simp only [List.length_append, List.length_singleton] at b1 g1 f1 r1 nl1 epl
          have hpl := bs_read_bits_pending (ser tl).length (bs_read_bit st.bs).2.2 (ser tl)
            rest1 h4 rfl q1
          rw [← b1] at hpl
          obtain ⟨_, _, hpl3, hpl4, _⟩ := hpl
          cases e2 : get_node fuel
              { stl with heap := (store stl.heap st.heap.length
                (fun n => { n with left := some pl })) } with
          | fault e => rw [e2] at h; simp at h
          | ok r2 =>
            obtain ⟨c2, pr, str⟩ := r2
            rw [e2] at h
            simp only at h
            have hc2 : c2 = SUCCESS := by
              rcases get_node_code _ _ _ _ _ e2 with hh | hh
              · exact hh
              · rw [hh] at h; simp [FAILURE] at h
            subst hc2
            obtain ⟨tr, rest2, u1, u2, u3, u4, u5⟩ := ih
              { stl with heap := (store stl.heap st.heap.length
                (fun n => { n with left := some pl })) } pr str hpl4 n1 e2
            simp only at u1 u5
            have hdis : ∀ s, s ∈ tl.leaves → s ∈ tr.leaves → False := by
              intro s hl hr
              have := u5 s hr
              rw [nl1 s, if_pos hl] at this
              exact leaf_ptr_mem _ _ _ _ s r1 hl this
            refine ⟨HTree.branch tl tr, rest2, ?_, ?_, ?_, ?_, ?_⟩
            · rw [← h3, q1, ← hpl3, u1]
              simp [ser]
            · simp only [HTree.height]; omega
            · intro s hs
              simp only [HTree.leaves, List.mem_append] at hs
              rcases hs with hs | hs
              · exact q3 s hs
              · exact u3 s hs
            · exact List.nodup_append.mpr ⟨q4, u4, fun a ha hb => hdis a ha hb⟩
            · intro s hs
              simp only [HTree.leaves, List.mem_append] at hs
              rcases hs with hs | hs
              · exact q5 s hs
              · have := u5 s hs
                rw [nl1 s, if_neg (fun hh => hdis s hh hs)] at this
                exact this

/-! ## Shape of deserialized trees, termination of `decode` -/

theorem height_lt_leaves (t : HTree) : t.height < t.leaves.length := by
  induction t with
  | leaf s => simp [HTree.height, HTree.leaves]
  | branch l r ihl ihr =>
    simp only [HTree.height, HTree.leaves, List.length_append]
    omega

theorem nodup_bounded_length (l : List Nat) (n : Nat) (hnd : l.Nodup)
    (hlt : ∀ x ∈ l, x < n) : l.length ≤ n := by
  have h := (List.subperm_of_subset hnd (fun x hx => List.mem_range.mpr (hlt x hx))).length_le
  simpa using h

theorem get_char_total (heap : Heap) (t : HTree) : ∀ (fuel : Nat) (bs : BITSTREAM)
    (p : Option Nat), represents heap p t = true → t.height < fuel →
    ∃ r, get_char heap fuel bs p = Res.ok r ∧ (r.1 = SUCCESS ∨ r.1 = FAILURE) := by
  induction t with
  | leaf s =>
    intro fuel bs p hr hf
    obtain ⟨i, n, rfl, hn⟩ := represents_some heap p _ hr
    obtain ⟨fuel, rfl⟩ : ∃ k, fuel = k + 1 := ⟨fuel - 1, by omega⟩
    simp only [represents, hn, Bool.and_eq_true, beq_iff_eq] at hr
    obtain ⟨⟨_, h2⟩, h3⟩ := hr
    rw [get_char]
    dsimp only
    by_cases hfail : (bs_read_bit bs).1 = FAILURE
    · simp only [hfail, if_true]
      exact ⟨_, rfl, Or.inr rfl⟩
    · simp only [hfail, if_false, deref, hn, h2, h3, ite_self, if_true]
      exact ⟨_, rfl, Or.inr rfl⟩
  | branch l r ihl ihr =>
    intro fuel bs p hr hf
    obtain ⟨i, n, rfl, hn⟩ := represents_some heap p _ hr
    obtain ⟨fuel, rfl⟩ : ∃ k, fuel = k + 1 := ⟨fuel - 1, by omega⟩
    simp only [represents, hn, Bool.and_eq_true] at hr
    obtain ⟨hl, hrr⟩ := hr
    simp only [HTree.height] at hf
    rw [get_char]
    dsimp only
    by_cases hfail : (bs_read_bit bs).1 = FAILURE
    · simp only [hfail, if_true]
      exact ⟨_, rfl, Or.inr rfl⟩
    · simp only [hfail, if_false, deref, hn]
      by_cases hb : (bs_read_bit bs).2.1 = some HIGH
      · simp only [hb, if_true]
        obtain ⟨j, nx, hj, hnx⟩ := represents_some heap _ _ hrr
        simp only [hj, hnx, reduceCtorEq, if_false]
        by_cases hlf : nx.left = none
        · simp only [hlf, if_true]
          exact ⟨_, rfl, Or.inl rfl⟩
        · simp only [hlf, if_false]
          rw [← hj]
          have hpos : 0 < fuel := by
            cases r with
            | leaf s =>
              rw [hj] at hrr
              simp only [represents, hnx, Bool.and_eq_true, beq_iff_eq] at hrr
              exact absurd hrr.1.2 hlf
            | branch a b => simp only [HTree.height] at hf; omega
          exact ihr fuel _ _ hrr (by omega)
      · simp only [hb, if_false]
        obtain ⟨j, nx, hj, hnx⟩ := represents_some heap _ _ hl
        simp only [hj, hnx, reduceCtorEq, if_false]
        by_cases hlf : nx.left = none
        · simp only [hlf, if_true]
          exact ⟨_, rfl, Or.inl rfl⟩
        · simp only [hlf, if_false]
          rw [← hj]
          exact ihl fuel _ _ hl (by omega)

theorem get_tree_inv (fuel : Nat) (bs bs1 : BITSTREAM) (heap heap1 : Heap) (tree : TREE)
    (hc : bs.byte_buffer_count ≤ 8)
    (h : get_tree fuel bs heap = Res.ok (SUCCESS, some tree, bs1, heap1)) :
    ∃ t, represents heap1 tree.root t = true ∧ t.leaves.Nodup ∧ (∀ s ∈ t.leaves, s < 256) ∧
      t.height < fuel ∧ bs1.byte_buffer_count ≤ 8 ∧
      (pending_bits bs1).length ≤ (pending_bits bs).length := by
  rw [get_tree] at h
  cases e : get_node fuel
      { bs := bs, tree := { root := none, node_list := List.replicate MAX_CHAR none },
        heap := heap } with
  | fault f => rw [e] at h; simp at h
  | ok r =>
    obtain ⟨c, p, st⟩ := r
    rw [e] at h
    dsimp only at h
    have hcs : c = SUCCESS := by
      rcases get_node_code _ _ _ _ _ e with hh | hh
      · exact hh
      · rw [hh] at h; simp [SUCCESS, FAILURE] at h
    subst hcs
    simp only [SUCCESS, FAILURE, Nat.zero_ne_one, if_false, Res.ok.injEq, Prod.mk.injEq,
      Option.some.injEq, true_and] at h
    obtain ⟨htree, hbs, hheap⟩ := h
    have hlen : (List.replicate MAX_CHAR (none : Option Nat)).length = 256 := by
      rw [List.length_replicate]; rfl
    obtain ⟨t, rest, q1, q2, q3, q4, q5⟩ := get_node_inv fuel _ p st hc hlen e
    obtain ⟨st', e', b1, g1, f1, r1, t1, n1, nl1⟩ := get_node_ok t fuel _ rest q2 hc q1 q3 q4
      q5 hlen
    rw [e] at e'
    simp only [Res.ok.injEq, Prod.mk.injEq, true_and] at e'
    obtain ⟨ep, est⟩ := e'
    subst est
    obtain ⟨_, _, hpl3, hpl4, _⟩ := bs_read_bits_pending (ser t).length bs (ser t) rest hc rfl q1
    refine ⟨t, ?_, q4, q3, q2, ?_, ?_⟩
    · rw [← htree, ← hheap]
      simp only [ep]
      exact reprFrom_represents _ _ _ _ r1
    · rw [← hbs, b1]; exact hpl4
    · rw [← hbs, b1, hpl3]
      simp only at q1
      rw [q1]
      simp

/-- C19: a tree that `get_tree` returns with `SUCCESS` is a strict binary
tree with pairwise distinct leaf symbols; it has at most 256 leaves and height
at most 255, and a recursion budget of 256 is enough for `put_tree` and for
`get_char` on it. -/
theorem get_tree_success_shape (fuel : Nat) (bs bs1 : BITSTREAM) (heap heap1 : Heap)
    (tree : TREE) (hc : bs.byte_buffer_count ≤ 8)
    (h : get_tree fuel bs heap = Res.ok (SUCCESS, some tree, bs1, heap1)) :
    ∃ t, represents heap1 tree.root t = true ∧ t.leaves.Nodup ∧
      t.leaves.length ≤ 256 ∧ t.height ≤ 255 ∧
      (∀ ws, put_tree heap1 256 ws tree.root = Res.ok (bs_write_bits ws (ser t))) ∧
      (∀ rs, ∃ r, get_char heap1 256 rs tree.root = Res.ok r) := by
  obtain ⟨t, hr, hnd, hsym, _, _, _⟩ := get_tree_inv fuel bs bs1 heap heap1 tree hc h
  have hl : t.leaves.length ≤ 256 := nodup_bounded_length _ _ hnd hsym
  have hh : t.height < 256 := lt_of_lt_of_le (height_lt_leaves t) hl
  refine ⟨t, hr, hnd, hl, by omega, ?_, ?_⟩
  · intro ws
    exact (put_tree_eq_write_ser heap1 t 256 ws tree.root hr hh).1
  · intro rs
    obtain ⟨r, e, _⟩ := get_char_total heap1 t 256 rs tree.root hr hh
    exact ⟨r, e⟩

set_option maxRecDepth 100000 in
/-- C19 at the tree read from the bytes `90 48 40`. -/
theorem get_tree_success_shape_witness :
    (bs_create (FILE.open [144, 72, 64]) BITSTREAMMODE.READ).byte_buffer_count ≤ 8 ∧
    get_tree 2 (bs_create (FILE.open [144, 72, 64]) BITSTREAMMODE.READ) []
      = Res.ok (SUCCESS,
          some { root := some 0,
                 node_list := ((List.replicate 256 none).set 65 (some 1)).set 66 (some 2) },
          { file := { content := [144, 72, 64], pos := 3, eof := false },
            mode := BITSTREAMMODE.READ, byte_buffer := 0, byte_buffer_count := 5 },
          [{ NODE.zero with left := some 1, right := some 2 }, { NODE.zero with ch := 65 },
           { NODE.zero with ch := 66 }]) ∧
    ∃ t, represents
        [{ NODE.zero with left := some 1, right := some 2 }, { NODE.zero with ch := 65 },
         { NODE.zero with ch := 66 }] (some 0) t = true ∧ t.leaves.Nodup ∧
      t.leaves.length ≤ 256 ∧ t.height ≤ 255 ∧
      (∀ ws, put_tree
        [{ NODE.zero with left := some 1, right := some 2 }, { NODE.zero with ch := 65 },
         { NODE.zero with ch := 66 }] 256 ws (some 0) = Res.ok (bs_write_bits ws (ser t))) ∧
      (∀ rs, ∃ r, get_char
        [{ NODE.zero with left := some 1, right := some 2 }, { NODE.zero with ch := 65 },
         { NODE.zero with ch := 66 }] 256 rs (some 0) = Res.ok r) :=
  ⟨by decide, by decide,
    get_tree_success_shape 2 (bs_create (FILE.open [144, 72, 64]) BITSTREAMMODE.READ)
      { file := { content := [144, 72, 64], pos := 3, eof := false },
        mode := BITSTREAMMODE.READ, byte_buffer := 0, byte_buffer_count := 5 } [] _
      { root := some 0,
        node_list := ((List.replicate 256 none).set 65 (some 1)).set 66 (some 2) }
      (by decide) (by decide)⟩

theorem get_length_loop_mono (w n : Nat) (bs : BITSTREAM) (size : Nat)
    (hc : bs.byte_buffer_count ≤ 8) :
    (get_length_loop w n bs size).2.2.byte_buffer_count ≤ 8 ∧
    (pending_bits (get_length_loop w n bs size).2.2).length ≤ (pending_bits bs).length ∧
    ((get_length_loop w n bs size).1 = SUCCESS ∨ (get_length_loop w n bs size).1 = FAILURE) := by
  induction n generalizing bs size with
  | zero => exact ⟨hc, le_refl _, Or.inl rfl⟩
  | succ n ih =>
    obtain ⟨m1, m2, _, _⟩ := bs_read_bit_mono bs hc
    rw [get_length_loop]
    by_cases hf : (bs_read_bit bs).1 = FAILURE
    · rw [if_pos hf]
      exact ⟨m1, m2, Or.inr rfl⟩
    · rw [if_neg hf]
      obtain ⟨i1, i2, i3⟩ := ih (bs_read_bit bs).2.2
        (if (bs_read_bit bs).2.1 = some HIGH then (size <<< 1) % 2 ^ w ||| ULONG_SET_MASK
         else (size <<< 1) % 2 ^ w) m1
      exact ⟨i1, le_trans i2 m2, i3⟩

theorem decode_loop_total (heap : Heap) (t : HTree) (root : Option Nat) (fuel : Nat)
    (hr : represents heap root t = true) (hf : t.height < fuel) :
    ∀ (n : Nat) (bs : BITSTREAM) (out : FILE),
      ∃ c bs1 out1, decode_loop heap root fuel n bs out = Res.ok (c, bs1, out1) ∧
        (c = SUCCESS ∨ c = FAILURE) := by
  intro n
  induction n with
  | zero => intro bs out; exact ⟨_, _, _, rfl, Or.inl rfl⟩
  | succ n ih =>
    intro bs out
    obtain ⟨r, e, _⟩ := get_char_total heap t fuel bs root hr hf
    rw [decode_loop, e]
    dsimp only
    by_cases hfail : r.1 = FAILURE
    · simp only [hfail, if_true]
      exact ⟨_, _, _, rfl, Or.inr rfl⟩
    · simp only [hfail, if_false, ferror_false, Bool.false_eq_true, and_false]
      exact ih _ _

/-- C20: on every finite archive `decode` returns, with `SUCCESS` or with
`FAILURE`: the recursion budget it gives `get_node` and `get_char`, the number
of bits the stream can still deliver plus a margin, is never exhausted, and no
pointer it follows is null. -/
theorem decode_terminates (ulong_bits size0 : Nat) (archive : List Nat) (file_out : FILE) :
    ∃ c f out, decode ulong_bits size0 (FILE.open archive) file_out = Res.ok (c, f, out) ∧
      (c = SUCCESS ∨ c = FAILURE) := by
  have hc0 : (bs_create (FILE.open archive) BITSTREAMMODE.READ).byte_buffer_count ≤ 8 := by
    simp [bs_create]
  obtain ⟨g1, g2, g3⟩ := get_length_loop_mono ulong_bits ULONG_WIDTH
    (bs_create (FILE.open archive) BITSTREAMMODE.READ) size0 hc0
  rw [pending_bits_open, List.length_append, bytes_bits_length, List.length_replicate] at g2
  rw [decode]
  dsimp only
  by_cases hfail : (get_length ulong_bits (bs_create (FILE.open archive) BITSTREAMMODE.READ)
      size0).1 = FAILURE
  · simp only [hfail, if_true]
    exact ⟨_, _, _, rfl, Or.inr rfl⟩
  · simp only [hfail, if_false]
    have hfuel : (pending_bits (get_length ulong_bits
        (bs_create (FILE.open archive) BITSTREAMMODE.READ) size0).2.2).length
        < 8 * (FILE.open archive).content.length + 16 := by
      have hl : (FILE.open archive).content.length = archive.length := rfl
      rw [hl, get_length]
      omega
    obtain ⟨c, p, st, e, k1, k2, k3⟩ := get_node_total _
      { bs := (get_length ulong_bits (bs_create (FILE.open archive) BITSTREAMMODE.READ)
          size0).2.2,
        tree := { root := none, node_list := List.replicate MAX_CHAR none },
        heap := [] } g1 hfuel
    have egt : get_tree (8 * (FILE.open archive).content.length + 16)
        (get_length ulong_bits (bs_create (FILE.open archive) BITSTREAMMODE.READ) size0).2.2 []
        = (if c = FAILURE then Res.ok (FAILURE, none, st.bs, st.heap)
           else Res.ok (SUCCESS, some { st.tree with root := some p }, st.bs, st.heap)) := by
      rw [get_tree, e]
    by_cases hcf : c = FAILURE
    · rw [egt, if_pos hcf]
      simp only [if_true]
      exact ⟨_, _, _, rfl, Or.inr rfl⟩
    · rw [if_neg hcf] at egt
      obtain ⟨t, hr, _, _, hh, _, _⟩ := get_tree_inv _ _ _ _ _ _ g1 egt
      rw [egt]
      simp only [SUCCESS, FAILURE, Nat.zero_ne_one, if_false]
      obtain ⟨c2, bs2, out2, e2, hc2⟩ := decode_loop_total st.heap t (some p) _ hr hh
        (get_length ulong_bits (bs_create (FILE.open archive) BITSTREAMMODE.READ) size0).2.1
        st.bs file_out
      simp only [Option.bind] at e2 ⊢
      rw [e2]
      exact ⟨_, _, _, rfl, hc2⟩

/-! ## Codes: `put_node` and `get_char` -/

theorem holds_root (heap : Heap) (par : Option Nat) (t : PTree) (h : holds heap par t = true) :
    heap[t.cell]? = some (t.node par) := by
  cases t with
  | leaf c s w => simpa [holds, PTree.cell] using h
  | branch c s w l r =>
    simp only [holds, Bool.and_eq_true, decide_eq_true_eq] at h
    exact h.1.1

theorem bs_write_bits_snoc (bs : BITSTREAM) (l : List BIT) (b : BIT) :
    bs_write_bits bs (l ++ [b]) = bs_write_bit (bs_write_bits bs l).2 b := by
  rw [bs_write_bits_append, bs_write_bits, bs_write_bits]
  simp only [bs_write_bit_code, SUCCESS, FAILURE, Nat.zero_ne_one, if_false]
  exact Prod.ext (bs_write_bit_code _ _).symm rfl

theorem put_node_child (heap : Heap) (par : Option Nat) (u ch : PTree) (d : Bool)
    (pi : List Bool)
    (hu : heap[u.cell]? = some (u.node par))
    (hch : heap[ch.cell]? = some (ch.node (some u.cell)))
    (hd : (if (u.node par).left = some ch.cell then LOW else HIGH) = d)
    (hpi : par = none → pi = [])
    (hq : ∀ fuel bs, pi.length < fuel →
      put_node heap fuel bs (some u.cell) = Res.ok (bs_write_bits bs pi)) :
    ∀ fuel bs, (pi ++ [d]).length < fuel →
      put_node heap fuel bs (some ch.cell) = Res.ok (bs_write_bits bs (pi ++ [d])) := by
  intro fuel bs hf
  obtain ⟨fuel, rfl⟩ : ∃ k, fuel = k + 1 := ⟨fuel - 1, by omega⟩
  have hpar : (ch.node (some u.cell)).parent = some u.cell := by cases ch <;> rfl
  have hupar : (u.node par).parent = par := by cases u <;> rfl
  rw [put_node]
  simp only [deref, hch, hpar, hu, hupar, ne_eq, reduceCtorEq, not_false_eq_true, if_true]
  rw [bs_write_bits_snoc, ← hd]
  by_cases hp : par = none
  · rw [hpi hp]
    simp only [hp, not_true_eq_false, if_false, SUCCESS, FAILURE, Nat.zero_ne_one, bs_write_bits]
  · simp only [hp, not_false_eq_true, if_true]
    rw [hq fuel bs (by simp at hf; omega)]
    simp only [bs_write_bits_code, SUCCESS, FAILURE, Nat.zero_ne_one, if_false]

theorem put_node_find (heap : Heap) (u : PTree) : ∀ (par : Option Nat) (pi : List Bool),
    holds heap par u = true → u.cells.Nodup → (par = none → pi = []) →
    (∀ fuel bs, pi.length < fuel →
      put_node heap fuel bs (some u.cell) = Res.ok (bs_write_bits bs pi)) →
    ∀ s c p, u.find s = some (c, p) → ∀ fuel bs, (pi ++ p).length < fuel →
      put_node heap fuel bs (some c) = Res.ok (bs_write_bits bs (pi ++ p)) := by
  induction u with
  | leaf c0 s0 w0 =>
    intro par pi _ _ _ hq s c p hfind fuel bs hf
    simp only [PTree.find] at hfind
    split at hfind
    · simp only [Option.some.injEq, Prod.mk.injEq] at hfind
      obtain ⟨rfl, rfl⟩ := hfind
      simp only [List.append_nil] at hf ⊢
      exact hq fuel bs hf
    · exact absurd hfind (by simp)
  | branch c0 s0 w0 l r ihl ihr =>
    intro par pi hh hnd hpi hq s c p hfind fuel bs hf
    have hu := holds_root heap par _ hh
    simp only [holds, Bool.and_eq_true, decide_eq_true_eq] at hh
    obtain ⟨⟨_, hl⟩, hr⟩ := hh
    simp only [PTree.cells, List.nodup_cons, List.mem_append, not_or] at hnd
    obtain ⟨_, hnd2⟩ := hnd
    have hndl : l.cells.Nodup := (List.nodup_append.mp hnd2).1
    have hndr : r.cells.Nodup := (List.nodup_append.mp hnd2).2.1
    have hlc : l.cell ∈ l.cells := by cases l <;> simp [PTree.cell, PTree.cells]
    have hrc : r.cell ∈ r.cells := by cases r <;> simp [PTree.cell, PTree.cells]
    have hne : l.cell ≠ r.cell := fun e =>
      (List.nodup_append.mp hnd2).2.2 hlc (e ▸ hrc)
    simp only [PTree.find] at hfind
    cases hfl : l.find s with
    | some cp =>
      obtain ⟨c1, p1⟩ := cp
      rw [hfl] at hfind
      simp only [Option.some.injEq, Prod.mk.injEq] at hfind
      obtain ⟨rfl, rfl⟩ := hfind
      have hql := put_node_child heap par (PTree.branch c0 s0 w0 l r) l false pi hu
        (holds_root heap _ l hl) (by simp [PTree.node]) hpi hq
      have := ihl (some c0) (pi ++ [false]) hl hndl (by simp) hql s c1 p1 hfl fuel bs
        (by simpa using hf)
      simpa using this
    | none =>
      rw [hfl] at hfind
      cases hfr : r.find s with
      | none => rw [hfr] at hfind; exact absurd hfind (by simp)
      | some cp =>
        obtain ⟨c1, p1⟩ := cp
        rw [hfr] at hfind
        simp only [Option.some.injEq, Prod.mk.injEq] at hfind
        obtain ⟨rfl, rfl⟩ := hfind
        have hqr := put_node_child heap par (PTree.branch c0 s0 w0 l r) r true pi hu
          (holds_root heap _ r hr) (by simp [PTree.node, hne]) hpi hq
        have := ihr (some c0) (pi ++ [true]) hr hndr (by simp) hqr s c1 p1 hfr fuel bs
          (by simpa using hf)
        simpa using this

theorem put_node_root (heap : Heap) (t : PTree) (h : holds heap none t = true) (fuel : Nat)
    (bs : BITSTREAM) : put_node heap (fuel + 1) bs (some t.cell) = Res.ok (SUCCESS, bs) := by
  have hr := holds_root heap none t h
  have hp : (t.node none).parent = none := by cases t <;> rfl
  rw [put_node]
  simp [deref, hr, hp]

theorem put_node_code (heap : Heap) (t : PTree) (h : holds heap none t = true)
    (hnd : t.cells.Nodup) (s c : Nat) (p : List Bool) (hfind : t.find s = some (c, p))
    (fuel : Nat) (bs : BITSTREAM) (hf : p.length < fuel) :
    put_node heap fuel bs (some c) = Res.ok (bs_write_bits bs p) := by
  have := put_node_find heap t none [] h hnd (fun _ => rfl)
    (fun fuel bs hfu => by
      obtain ⟨k, rfl⟩ : ∃ k, fuel = k + 1 := ⟨fuel - 1, by simp at hfu; omega⟩
      rw [put_node_root heap t h k bs]; rfl)
    s c p hfind fuel bs (by simpa using hf)
  simpa using this

theorem find_leaf_symbol (c0 s0 w0 s c : Nat) (p : List Bool)
    (h : (PTree.leaf c0 s0 w0).find s = some (c, p)) : s0 = s ∧ p = [] := by
  simp only [PTree.find] at h
  split at h
  · simp only [Option.some.injEq, Prod.mk.injEq] at h
    exact ⟨by assumption, h.2.symm⟩
  · exact absurd h (by simp)

theorem get_char_step (heap : Heap) (par : Option Nat) (c0 s0 w0 : Nat) (l r u : PTree)
    (d : Bool) (hu : u = if d = true then r else l)
    (hh : holds heap par (PTree.branch c0 s0 w0 l r) = true)
    (s c : Nat) (p rest : List Bool) (hfind : u.find s = some (c, p))
    (fuel : Nat) (bs : BITSTREAM) (hc : bs.byte_buffer_count ≤ 8)
    (hp : pending_bits bs = d :: (p ++ rest))
    (ih : u.is_branch = true → ∀ bs1 : BITSTREAM, bs1.byte_buffer_count ≤ 8 →
      pending_bits bs1 = p ++ rest →
      get_char heap fuel bs1 (some u.cell) =
        Res.ok (SUCCESS, some s, (bs_read_bits p.length bs1).2.2)) :
    get_char heap (fuel + 1) bs (some c0) =
      Res.ok (SUCCESS, some s, (bs_read_bits (p.length + 1) bs).2.2) := by
  obtain ⟨h1, h2, h3, h4, _, _⟩ := bs_read_bit_cons bs d (p ++ rest) hc hp
  have hroot := holds_root heap par _ hh
  simp only [holds, Bool.and_eq_true, decide_eq_true_eq] at hh
  obtain ⟨⟨_, hl⟩, hr⟩ := hh
  have hchild : holds heap (some c0) u = true := by
    subst hu; cases d <;> simpa using (by assumption)
  have hur := holds_root heap _ u hchild
  have hnext : (if (bs_read_bit bs).2.1 = some HIGH then
      ((PTree.branch c0 s0 w0 l r).node par).right
      else ((PTree.branch c0 s0 w0 l r).node par).left) = some u.cell := by
    rw [h2]; subst hu; cases d <;> simp [HIGH, PTree.node]
  rw [bs_read_bits_succ _ bs d h2, get_char]
  simp only [PTree.cell] at hroot
  simp only [h1, SUCCESS, FAILURE, Nat.zero_ne_one, if_false, deref, hroot]
  rw [hnext]
  simp only [reduceCtorEq, if_false, hur]
  cases u with
  | leaf c1 s1 w1 =>
    obtain ⟨rfl, rfl⟩ := find_leaf_symbol _ _ _ _ _ _ hfind
    simp [PTree.node, bs_read_bits]
  | branch c1 s1 w1 l1 r1 =>
    simp only [PTree.node, reduceCtorEq, if_false]
    exact ih rfl _ h4 h3

theorem get_char_find (heap : Heap) (t : PTree) : ∀ (par : Option Nat) (fuel s c : Nat)
    (p rest : List Bool) (bs : BITSTREAM), holds heap par t = true → t.is_branch = true →
    t.find s = some (c, p) → t.height ≤ fuel → bs.byte_buffer_count ≤ 8 →
    pending_bits bs = p ++ rest →
    get_char heap fuel bs (some t.cell) =
      Res.ok (SUCCESS, some s, (bs_read_bits p.length bs).2.2) := by
  induction t with
  | leaf c0 s0 w0 => intro _ _ _ _ _ _ _ _ hb; exact absurd hb (by simp [PTree.is_branch])
  | branch c0 s0 w0 l r ihl ihr =>
    intro par fuel s c p rest bs hh _ hfind hfuel hc hp
    simp only [PTree.height] at hfuel
    obtain ⟨fuel, rfl⟩ : ∃ k, fuel = k + 1 := ⟨fuel - 1, by omega⟩
    have hh2 := hh
    simp only [holds, Bool.and_eq_true, decide_eq_true_eq] at hh2
    obtain ⟨⟨_, hl⟩, hr⟩ := hh2
    simp only [PTree.find] at hfind
    cases hfl : l.find s with
    | some cp =>
      obtain ⟨c1, p1⟩ := cp
      rw [hfl] at hfind
      simp only [Option.some.injEq, Prod.mk.injEq] at hfind
      obtain ⟨rfl, rfl⟩ := hfind
      exact get_char_step heap par c0 s0 w0 l r l false (by simp) hh s c1 p1 rest hfl fuel bs hc
        (by simpa using hp)
        (fun hb bs1 hc1 hp1 => ihl (some c0) fuel s c1 p1 rest bs1 hl hb hfl
          (by have := Nat.le_max_left l.height r.height; omega) hc1 hp1)
    | none =>
      rw [hfl] at hfind
      cases hfr : r.find s with
      | none => rw [hfr] at hfind; exact absurd hfind (by simp)
      | some cp =>
        obtain ⟨c1, p1⟩ := cp
        rw [hfr] at hfind
        simp only [Option.some.injEq, Prod.mk.injEq] at hfind
        obtain ⟨rfl, rfl⟩ := hfind
        exact get_char_step heap par c0 s0 w0 l r r true (by simp) hh s c1 p1 rest hfr fuel bs hc
          (by simpa using hp)
          (fun hb bs1 hc1 hp1 => ihr (some c0) fuel s c1 p1 rest bs1 hr hb hfr
            (by have := Nat.le_max_right l.height r.height; omega) hc1 hp1)

theorem find_of_mem (t : PTree) (s : Nat) (h : s ∈ t.symbols) : ∃ c p, t.find s = some (c, p) := by
  induction t with
  | leaf c0 s0 w0 =>
    simp only [PTree.symbols, List.mem_singleton] at h
    exact ⟨c0, [], by simp [PTree.find, h]⟩
  | branch c0 s0 w0 l r ihl ihr =>
    simp only [PTree.symbols, List.mem_append] at h
    cases hfl : l.find s with
    | some cp => exact ⟨cp.1, false :: cp.2, by simp [PTree.find, hfl]⟩
    | none =>
      rcases h with h | h
      · obtain ⟨c, p, e⟩ := ihl h; rw [e] at hfl; exact absurd hfl (by simp)
      · obtain ⟨c, p, e⟩ := ihr h
        exact ⟨c, true :: p, by simp [PTree.find, hfl, e]⟩

theorem find_length_le (t : PTree) (s c : Nat) (p : List Bool) (h : t.find s = some (c, p)) :
    p.length ≤ t.height := by
  induction t generalizing c p with
  | leaf c0 s0 w0 =>
    obtain ⟨_, rfl⟩ := find_leaf_symbol _ _ _ _ _ _ h
    simp
  | branch c0 s0 w0 l r ihl ihr =>
    simp only [PTree.find] at h
    simp only [PTree.height]
    cases hfl : l.find s with
    | some cp =>
      obtain ⟨c1, p1⟩ := cp
      rw [hfl] at h
      simp only [Option.some.injEq, Prod.mk.injEq] at h
      obtain ⟨rfl, rfl⟩ := h
      have := ihl c1 p1 hfl
      have := Nat.le_max_left l.height r.height
      simp only [List.length_cons]; omega
    | none =>
      rw [hfl] at h
      cases hfr : r.find s with
      | none => rw [hfr] at h; exact absurd h (by simp)
      | some cp =>
        obtain ⟨c1, p1⟩ := cp
        rw [hfr] at h
        simp only [Option.some.injEq, Prod.mk.injEq] at h
        obtain ⟨rfl, rfl⟩ := h
        have := ihr c1 p1 hfr
        have := Nat.le_max_right l.height r.height
        simp only [List.length_cons]; omega

theorem decode_loop_codes (heap : Heap) (t : PTree) (hh : holds heap none t = true)
    (hb : t.is_branch = true) (hbyte : ∀ s ∈ t.symbols, s < 256) (fuel : Nat)
    (hf : t.height ≤ fuel) (ss : List Nat) : ∀ (bs : BITSTREAM) (out : FILE) (rest : List Bool),
    (∀ s ∈ ss, s ∈ t.symbols) → bs.byte_buffer_count ≤ 8 →
    pending_bits bs = t.codes ss ++ rest →
    decode_loop heap (some t.cell) fuel ss.length bs out =
      Res.ok (SUCCESS, (bs_read_bits (t.codes ss).length bs).2.2,
        { out with content := out.content ++ ss, pos := out.pos + ss.length }) := by
  induction ss with
  | nil => intro bs out rest _ _ _; simp [decode_loop, PTree.codes, bs_read_bits]
  | cons s ss ih =>
    intro bs out rest hss hc hp
    obtain ⟨c, p, hfind⟩ := find_of_mem t s (hss s (List.mem_cons_self _ _))
    have hs := hbyte s (hss s (List.mem_cons_self _ _))
    have hcodes : t.codes (s :: ss) = p ++ t.codes ss := by simp [PTree.codes, hfind]
    rw [hcodes, List.append_assoc] at hp
    have hg := get_char_find heap t none fuel s c p (t.codes ss ++ rest) bs hh hb hfind hf hc hp
    obtain ⟨r1, _, r3, r4, _⟩ := bs_read_bits_pending p.length bs p (t.codes ss ++ rest) hc rfl hp
    have ih2 := ih (bs_read_bits p.length bs).2.2 (fputc s out).2 rest
      (fun x hx => hss x (List.mem_cons_of_mem _ hx)) r4 r3
    rw [hcodes, List.length_append, bs_read_bits_add _ _ _ r1]
    simp only [List.length_cons, decode_loop, hg, SUCCESS, FAILURE, Nat.zero_ne_one, if_false,
      Option.getD_some, ferror_false, Bool.false_eq_true, and_false]
    rw [ih2]
    simp only [fputc, Nat.mod_eq_of_lt hs, List.append_assoc, List.singleton_append, SUCCESS]
    congr 4
    omega

/-- Claim C16. For a strict binary tree held by the arena whose root is a
branch and whose leaf symbols are pairwise distinct byte values, and a
sequence of its leaf symbols: `put_node` writes for each of them the code
`find` gives, and on a stream that starts with the concatenated codes the
decoding loop, calling `get_char` from the root once per symbol, succeeds
and writes exactly these symbols, leaving the stream right after the codes,
so that every bit after them is still to be read. -/
theorem get_char_inverts_put_node (heap : Heap) (t : PTree) (ss : List Nat)
    (bs : BITSTREAM) (rest : List Bool) (out : FILE)
    (hh : holds heap none t = true) (hb : t.is_branch = true)
    (hcells : t.cells.Nodup) (_hsym : t.symbols.Nodup) (hbyte : ∀ s ∈ t.symbols, s < 256)
    (hss : ∀ s ∈ ss, s ∈ t.symbols) (hc : bs.byte_buffer_count ≤ 8)
    (hp : pending_bits bs = t.codes ss ++ rest) :
    (∀ s ∈ ss, ∃ c p, t.find s = some (c, p) ∧
      ∀ ws, put_node heap (t.height + 1) ws (some c) = Res.ok (bs_write_bits ws p)) ∧
    (∃ bs1, decode_loop heap (some t.cell) t.height ss.length bs out =
        Res.ok (SUCCESS, bs1, { out with content := out.content ++ ss,
                                         pos := out.pos + ss.length }) ∧
      bs_read_bits (t.codes ss).length bs = (SUCCESS, t.codes ss, bs1) ∧
      pending_bits bs1 = rest) := by
  refine ⟨fun s hs => ?_, ?_⟩
  · obtain ⟨c, p, hfind⟩ := find_of_mem t s (hss s hs)
    exact ⟨c, p, hfind, fun ws => put_node_code heap t hh hcells s c p hfind _ ws
      (by have := find_length_le t s c p hfind; omega)⟩
  · obtain ⟨r1, r2, r3, _, _⟩ :=
      bs_read_bits_pending (t.codes ss).length bs (t.codes ss) rest hc rfl hp
    refine ⟨(bs_read_bits (t.codes ss).length bs).2.2,
      decode_loop_codes heap t hh hb hbyte _ (le_refl _) ss bs out rest hss hc hp, ?_, r3⟩
    exact Prod.ext r1 (Prod.ext r2 rfl)

theorem get_char_inverts_put_node_witness :
    (∀ s ∈ [65, 66, 66], ∃ c p,
      (PTree.branch 2 0 3 (PTree.leaf 0 65 1) (PTree.leaf 1 66 2)).find s = some (c, p) ∧
      ∀ ws, put_node
        [⟨65, 1, some 2, none, none⟩, ⟨66, 2, some 2, none, none⟩, ⟨0, 3, none, some 0, some 1⟩]
        ((PTree.branch 2 0 3 (PTree.leaf 0 65 1) (PTree.leaf 1 66 2)).height + 1) ws (some c) =
          Res.ok (bs_write_bits ws p)) ∧
    (∃ bs1, decode_loop
        [⟨65, 1, some 2, none, none⟩, ⟨66, 2, some 2, none, none⟩, ⟨0, 3, none, some 0, some 1⟩]
        (some (PTree.branch 2 0 3 (PTree.leaf 0 65 1) (PTree.leaf 1 66 2)).cell)
        (PTree.branch 2 0 3 (PTree.leaf 0 65 1) (PTree.leaf 1 66 2)).height
        [65, 66, 66].length (bs_create (FILE.open [96]) BITSTREAMMODE.READ) (FILE.open []) =
        Res.ok (SUCCESS, bs1, { FILE.open [] with
          content := (FILE.open []).content ++ [65, 66, 66],
          pos := (FILE.open []).pos + [65, 66, 66].length }) ∧
      bs_read_bits ((PTree.branch 2 0 3 (PTree.leaf 0 65 1) (PTree.leaf 1 66 2)).codes
          [65, 66, 66]).length (bs_create (FILE.open [96]) BITSTREAMMODE.READ) =
        (SUCCESS, (PTree.branch 2 0 3 (PTree.leaf 0 65 1) (PTree.leaf 1 66 2)).codes [65, 66, 66],
          bs1) ∧
      pending_bits bs1 = [false, false, false, false, false] ++ List.replicate 8 true) :=
  get_char_inverts_put_node
    [⟨65, 1, some 2, none, none⟩, ⟨66, 2, some 2, none, none⟩, ⟨0, 3, none, some 0, some 1⟩]
    (PTree.branch 2 0 3 (PTree.leaf 0 65 1) (PTree.leaf 1 66 2)) [65, 66, 66]
    (bs_create (FILE.open [96]) BITSTREAMMODE.READ)
    ([false, false, false, false, false] ++ List.replicate 8 true) (FILE.open [])
    (by decide) (by decide) (by decide) (by decide) (by decide) (by decide) (by decide)
    (by decide)

/-! ## The arena under the merge loop -/

theorem forest_cells_append (a b : List PTree) :
    forest_cells (a ++ b) = forest_cells a ++ forest_cells b := by
  induction a with
  | nil => rfl
  | cons t ts ih => simp [forest_cells, ih]

theorem forest_leaves_append (a b : List PTree) :
    forest_leaves (a ++ b) = forest_leaves a ++ forest_leaves b := by
  induction a with
  | nil => rfl
  | cons t ts ih => simp [forest_leaves, ih]

theorem mem_forest_cells (ts : List PTree) (t : PTree) (ht : t ∈ ts) (c : Nat)
    (hc : c ∈ t.cells) : c ∈ forest_cells ts := by
  induction ts with
  | nil => exact absurd ht (by simp)
  | cons u us ih =>
    simp only [forest_cells, List.mem_append]
    rcases List.mem_cons.mp ht with h | h
    · subst h; exact Or.inl hc
    · exact Or.inr (ih h)

theorem cell_mem_cells (t : PTree) : t.cell ∈ t.cells := by
  cases t <;> simp [PTree.cell, PTree.cells]

theorem holds_congr (heap heap2 : Heap) (t : PTree) : ∀ (par : Option Nat),
    (∀ c ∈ t.cells, heap2[c]? = heap[c]?) → holds heap2 par t = holds heap par t := by
  induction t with
  | leaf c s w => intro par h; simp [holds, h c (by simp [PTree.cells])]
  | branch c s w l r ihl ihr =>
    intro par h
    simp only [holds]
    rw [h c (by simp [PTree.cells]),
      ihl (some c) (fun x hx => h x (by simp [PTree.cells, hx])),
      ihr (some c) (fun x hx => h x (by simp [PTree.cells, hx]))]

theorem holds_cells_lt (heap : Heap) (t : PTree) : ∀ (par : Option Nat),
    holds heap par t = true → ∀ c ∈ t.cells, c < heap.length := by
  induction t with
  | leaf c s w =>
    intro par h x hx
    simp only [PTree.cells, List.mem_singleton] at hx
    subst hx
    have := holds_root heap par _ h
    exact (List.getElem?_eq_some_iff.mp this).1
  | branch c s w l r ihl ihr =>
    intro par h x hx
    have hr := holds_root heap par _ h
    simp only [holds, Bool.and_eq_true, decide_eq_true_eq] at h
    simp only [PTree.cells, List.mem_cons, List.mem_append] at hx
    rcases hx with rfl | hx | hx
    · exact (List.getElem?_eq_some_iff.mp hr).1
    · exact ihl _ h.1.2 x hx
    · exact ihr _ h.2 x hx

theorem node_reparent (t : PTree) (par p2 : Option Nat) :
    { t.node par with parent := p2 } = t.node p2 := by
  cases t <;> rfl

theorem holds_reparent (heap : Heap) (t : PTree) (par p2 : Option Nat)
    (h : holds heap par t = true) (hnd : t.cells.Nodup) :
    holds (store heap t.cell (fun n => { n with parent := p2 })) p2 t = true := by
  have hr := holds_root heap par t h
  have hroot : (store heap t.cell (fun n => { n with parent := p2 }))[t.cell]?
      = some (t.node p2) := by
    rw [store_getElem?, if_pos rfl, hr, Option.map_some', node_reparent]
  cases t with
  | leaf c s w => simpa [holds, PTree.cell] using hroot
  | branch c s w l r =>
    simp only [holds, Bool.and_eq_true, decide_eq_true_eq] at h ⊢
    simp only [PTree.cells, List.nodup_cons, List.mem_append, not_or] at hnd
    simp only [PTree.cell] at hroot ⊢
    refine ⟨⟨hroot, ?_⟩, ?_⟩
    · rw [holds_congr heap _ l (some c) (fun x hx => store_getElem?_ne _ _ _ _
        (fun e => hnd.1.1 (by rw [← e]; exact hx)))]
      exact h.1.2
    · rw [holds_congr heap _ r (some c) (fun x hx => store_getElem?_ne _ _ _ _
        (fun e => hnd.1.2 (by rw [← e]; exact hx)))]
      exact h.2

theorem take_set_ge (l : List (Option Nat)) (n m : Nat) (x : Option Nat) (h : n ≤ m) :
    (l.set m x).take n = l.take n := by
  apply List.ext_getElem?
  intro i
  simp only [List.getElem?_take]
  split
  · rw [List.getElem?_set_ne (by omega)]
  · rfl

theorem add_node_spec (heap : Heap) (q : Nat) (nq : NODE) (hq : heap[q]? = some nq) :
    ∀ (count : Nat) (nodes : List (Option Nat)), count < nodes.length →
    (∀ j, j < count → ∃ c n, nodes[j]? = some (some c) ∧ heap[c]? = some n) →
    ∃ s a b, add_node heap count nodes (some q) = Res.ok s ∧ s.length = nodes.length ∧
      nodes.take count = a ++ b ∧ s.take (count + 1) = a ++ [some q] ++ b ∧
      (∀ j, count < j → s[j]? = nodes[j]?) := by
  intro count
  induction count with
  | zero =>
    intro nodes hlen _
    refine ⟨nodes.set 0 (some q), [], [], rfl, by simp, by simp, ?_, ?_⟩
    · cases nodes with
      | nil => simp at hlen
      | cons x xs => simp
    · intro j hj
      rw [List.getElem?_set_ne (by omega)]
  | succ count ih =>
    intro nodes hlen hall
    obtain ⟨c, n, hc, hn⟩ := hall count (by omega)
    have hcur : nodes.getD count none = some c := by
      simp [List.getD_eq_getElem?_getD, hc]
    rw [add_node]
    simp only [hcur, deref, hn, hq]
    by_cases hge : n.freq ≥ nq.freq
    · simp only [hge, if_true]
      refine ⟨_, nodes.take (count + 1), [], rfl, by simp, by simp, ?_, ?_⟩
      · rw [List.take_succ, take_set_ge _ _ _ _ (by omega : count + 1 ≤ count + 1)]
        simp [List.getElem?_set, hlen]
      · intro j hj
        rw [List.getElem?_set_ne (by omega)]
    · simp only [hge, if_false]
      obtain ⟨s, a, b, hs, hl, hab, hs1, hs2⟩ := ih (nodes.set (count + 1) (some c))
        (by simp; omega)
        (fun j hj => by
          obtain ⟨c1, n1, h1, h2⟩ := hall j (by omega)
          exact ⟨c1, n1, by rw [List.getElem?_set_ne (by omega)]; exact h1, h2⟩)
      refine ⟨s, a, b ++ [some c], hs, by simpa using hl, ?_, ?_, ?_⟩
      · rw [List.take_succ, hc, ← List.append_assoc, ← hab,
          take_set_ge _ _ _ _ (by omega : count ≤ count + 1)]
        rfl
      · rw [List.take_succ, hs1, hs2 (count + 1) (by omega)]
        simp [List.getElem?_set, hlen]
      · intro j hj
        rw [hs2 j (by omega), List.getElem?_set_ne (by omega)]

theorem split_last_two (ts : List PTree) (n : Nat) (h : ts.length = n + 2) :
    ∃ ts0 b a, ts = ts0 ++ [b, a] ∧ ts0.length = n := by
  have h1 := List.take_append_drop n ts
  have h2 : (ts.drop n).length = 2 := by simp [h]
  match hd : ts.drop n, h2 with
  | [b, a], _ =>
    refine ⟨ts.take n, b, a, ?_, by simp [h]⟩
    rw [← hd, h1]

theorem forest_cells_mem (ts : List PTree) (c : Nat) (h : c ∈ forest_cells ts) :
    ∃ t ∈ ts, c ∈ t.cells := by
  induction ts with
  | nil => exact absurd h (by simp [forest_cells])
  | cons u us ih =>
    simp only [forest_cells, List.mem_append] at h
    rcases h with h | h
    · exact ⟨u, by simp, h⟩
    · obtain ⟨t, ht, hc⟩ := ih h
      exact ⟨t, by simp [ht], hc⟩

theorem node_freq (t : PTree) (par : Option Nat) : (t.node par).freq = t.freq := by
  cases t <;> rfl

theorem merge_step_forest (heap : Heap) (s : List (Option Nat)) (nc : Nat)
    (ts0 : List PTree) (b a : PTree) (hf : Forest heap s (nc + 2) (ts0 ++ [b, a]))
    (newnode : NODE) (h1 h2 : Heap)
    (hnew : (PTree.branch heap.length 0 ((a.freq + b.freq) % 2 ^ 32) a b).node none = newnode)
    (hh1 : store (heap ++ [newnode]) a.cell
      (fun n => { n with parent := some heap.length }) = h1)
    (hh2 : store h1 b.cell (fun n => { n with parent := some heap.length }) = h2) :
    s.getD (nc + 1) none = some a.cell ∧
    ((s.set (nc + 1) none).getD nc none) = some b.cell ∧
    ∃ s3 ta tb, ts0 = ta ++ tb ∧
      add_node h2 nc ((s.set (nc + 1) none).set nc none) (some heap.length) = Res.ok s3 ∧
      s3.length = s.length ∧
      Forest h2 s3 (nc + 1)
        (ta ++ [PTree.branch heap.length 0 ((a.freq + b.freq) % 2 ^ 32) a b] ++ tb) := by
  obtain ⟨hlen, htl, htake, hholds, hnd⟩ := hf
  have hl0 : ts0.length = nc := by simp at htl; omega
  -- the two entries at the tail
  have hgA : s[nc + 1]? = some (some a.cell) := by
    have := congrArg (fun l => l[nc + 1]?) htake
    simp only [List.getElem?_take, List.map_append, List.map_cons, List.map_nil] at this
    rw [if_pos (by omega)] at this
    rw [this, List.getElem?_append_right (by simp [hl0])]
    simp [hl0]
  have hgB : s[nc]? = some (some b.cell) := by
    have := congrArg (fun l => l[nc]?) htake
    simp only [List.getElem?_take, List.map_append, List.map_cons, List.map_nil] at this
    rw [if_pos (by omega)] at this
    rw [this, List.getElem?_append_right (by simp [hl0])]
    simp [hl0]
  have htk : s.take nc = ts0.map (fun t => some t.cell) := by
    have := congrArg (fun l => l.take nc) htake
    simp only [List.take_take, List.map_append] at this
    rw [Nat.min_eq_left (by omega)] at this
    rw [this, List.take_append_of_le_length (by simp [hl0])]
    simp [hl0]
  have hA : s.getD (nc + 1) none = some a.cell := by
    simp [List.getD_eq_getElem?_getD, hgA]
  have hB : (s.set (nc + 1) none).getD nc none = some b.cell := by
    rw [List.getD_eq_getElem?_getD, List.getElem?_set_ne (by omega), hgB]; rfl
  refine ⟨hA, hB, ?_⟩
  -- cells
  have hha : holds heap none a = true := hholds a (by simp)
  have hhb : holds heap none b = true := hholds b (by simp)
  have hcells : forest_cells (ts0 ++ [b, a]) = forest_cells ts0 ++ (b.cells ++ a.cells) := by
    simp [forest_cells_append, forest_cells]
  rw [hcells] at hnd
  have hnd0 : (forest_cells ts0).Nodup := (List.nodup_append.mp hnd).1
  have hndba : (b.cells ++ a.cells).Nodup := (List.nodup_append.mp hnd).2.1
  have hdis0 : ∀ c ∈ forest_cells ts0, c ∉ b.cells ++ a.cells :=
    fun c hc hc2 => (List.nodup_append.mp hnd).2.2 hc hc2
  have hndb : b.cells.Nodup := (List.nodup_append.mp hndba).1
  have hnda : a.cells.Nodup := (List.nodup_append.mp hndba).2.1
  have hdisba : ∀ c ∈ b.cells, c ∉ a.cells :=
    fun c hc hc2 => (List.nodup_append.mp hndba).2.2 hc hc2
  have hlta := holds_cells_lt heap a none hha
  have hltb := holds_cells_lt heap b none hhb
  -- the arena after the step
  have hframe : ∀ c, c < heap.length → c ≠ a.cell → c ≠ b.cell → h2[c]? = heap[c]? := by
    intro c hc hca hcb
    rw [← hh2, store_getElem?_ne _ _ _ _ hcb, ← hh1, store_getElem?_ne _ _ _ _ hca,
      List.getElem?_append_left hc]
  have hq : h2[heap.length]? = some newnode := by
    have hac := hlta _ (cell_mem_cells a)
    have hbc := hltb _ (cell_mem_cells b)
    rw [← hh2, store_getElem?_ne _ _ _ _ (by omega), ← hh1, store_getElem?_ne _ _ _ _ (by omega)]
    simp
  have hlen2 : h2.length = heap.length + 1 := by
    rw [← hh2, store_length, ← hh1, store_length]; simp
  have hholds0 : ∀ t ∈ ts0, holds h2 none t = true := by
    intro t ht
    have hh := hholds t (by simp [ht])
    rw [holds_congr heap h2 t none]
    · exact hh
    · intro c hc
      have hcf := mem_forest_cells ts0 t ht c hc
      have hn := hdis0 c hcf
      simp only [List.mem_append, not_or] at hn
      exact hframe c (holds_cells_lt heap t none hh c hc)
        (fun e => hn.2 (e ▸ cell_mem_cells a)) (fun e => hn.1 (e ▸ cell_mem_cells b))
  have hholdsA : holds h2 (some heap.length) a = true := by
    have e1 : holds (heap ++ [newnode]) none a = true := by
      rw [holds_congr heap _ a none (fun c hc => List.getElem?_append_left (hlta c hc))]
      exact hha
    have e2 := holds_reparent _ a none (some heap.length) e1 hnda
    rw [hh1] at e2
    rw [← hh2, holds_congr h1 _ a _ (fun c hc => store_getElem?_ne _ _ _ _
      (fun e => hdisba _ (cell_mem_cells b) (by rw [← e]; exact hc)))]
    exact e2
  have hholdsB : holds h2 (some heap.length) b = true := by
    have e1 : holds h1 none b = true := by
      rw [holds_congr heap _ b none]
      · exact hhb
      · intro c hc
        rw [← hh1, store_getElem?_ne _ _ _ _ (fun e => hdisba c hc (by rw [e]; exact cell_mem_cells a)),
          List.getElem?_append_left (hltb c hc)]
    have e2 := holds_reparent _ b none (some heap.length) e1 hndb
    rw [hh2] at e2
    exact e2
  -- the insertion
  have hs2len : ((s.set (nc + 1) none).set nc none).length = s.length := by simp
  obtain ⟨s3, la, lb, hadd, hl3, hab, htk3, _⟩ := add_node_spec h2 heap.length newnode hq nc
    ((s.set (nc + 1) none).set nc none) (by rw [hs2len]; omega)
    (fun j hj => by
      have hj0 : j < ts0.length := by omega
      have hsj : s[j]? = some (some (ts0.get ⟨j, hj0⟩).cell) := by
        have := congrArg (fun l => l[j]?) htk
        simp only [List.getElem?_take] at this
        rw [if_pos hj] at this
        rw [this]
        simp [List.getElem?_eq_getElem hj0]
      have hmem : ts0.get ⟨j, hj0⟩ ∈ ts0 := List.get_mem _ _ _
      have hh := hholds0 _ hmem
      refine ⟨_, _, ?_, holds_root _ _ _ hh⟩
      rw [List.getElem?_set_ne (by omega), List.getElem?_set_ne (by omega)]
      exact hsj)
  have hab2 : ts0.map (fun t => some t.cell) = la ++ lb := by
    rw [← htk, ← hab, take_set_ge _ _ _ _ (le_refl _), take_set_ge _ _ _ _ (by omega)]
  obtain ⟨ta, tb, hts0, hta, htb⟩ := List.map_eq_append_iff.mp hab2
  refine ⟨s3, ta, tb, hts0, hadd, by rw [hl3, hs2len], ?_, ?_, ?_, ?_, ?_⟩
  · rw [hl3, hs2len]; omega
  · have := congrArg List.length hts0
    simp only [List.length_append] at this
    simp only [List.length_append, List.length_cons, List.length_nil]
    omega
  · rw [htk3, ← hta, ← htb]
    simp [PTree.cell]
  · intro t ht
    simp only [List.mem_append, List.mem_singleton] at ht
    rcases ht with (ht | ht) | ht
    · exact hholds0 t (by rw [hts0]; simp [ht])
    · subst ht
      simp only [holds, Bool.and_eq_true, decide_eq_true_eq]
      refine ⟨⟨?_, hholdsA⟩, hholdsB⟩
      rw [hq, ← hnew]
    · exact hholds0 t (by rw [hts0]; simp [ht])
  · have hperm : (forest_cells (ta ++ [PTree.branch heap.length 0
        ((a.freq + b.freq) % 2 ^ 32) a b] ++ tb)).Perm
        (heap.length :: (forest_cells ts0 ++ (b.cells ++ a.cells))) := by
      rw [hts0, List.perm_iff_count]
      intro x
      simp only [forest_cells_append, forest_cells, PTree.cells, List.count_append,
        List.count_cons, List.count_nil, List.append_nil]
      omega
    rw [hperm.nodup_iff, List.nodup_cons]
    refine ⟨?_, hnd⟩
    intro hmem
    rcases List.mem_append.mp hmem with h | h
    · obtain ⟨t, ht, hc⟩ := forest_cells_mem ts0 _ h
      have := holds_cells_lt heap t none (hholds t (by simp [ht])) _ hc
      omega
    · rcases List.mem_append.mp h with h | h
      · have := hltb _ h; omega
      · have := hlta _ h; omega

theorem merge_nodes_forest : ∀ (nc : Nat) (s : List (Option Nat)) (heap : Heap)
    (ts : List PTree), Forest heap s nc ts →
    ∃ s2 heap2 ts2, merge_nodes nc s heap = Res.ok (s2, heap2) ∧
      Forest heap2 s2 (min nc 1) ts2 ∧ (forest_leaves ts2).Perm (forest_leaves ts) ∧
      s2.length = s.length ∧ (nc = 0 → s2 = s ∧ heap2 = heap) := by
  intro nc
  induction nc with
  | zero =>
    intro s heap ts hf
    exact ⟨s, heap, ts, rfl, hf, List.Perm.refl _, rfl, fun _ => ⟨rfl, rfl⟩⟩
  | succ n ih =>
    cases n with
    | zero =>
      intro s heap ts hf
      exact ⟨s, heap, ts, rfl, hf, List.Perm.refl _, rfl, fun h => absurd h (by omega)⟩
    | succ m =>
      intro s heap ts hf
      obtain ⟨ts0, b, a, rfl, _⟩ := split_last_two ts m hf.2.1
      obtain ⟨hA, hB, s3, ta, tb, hts0, hadd, hl3, hf3⟩ :=
        merge_step_forest heap s m ts0 b a hf _ _ _ rfl rfl rfl
      have hra := holds_root heap none a (hf.2.2.2.1 a (by simp))
      have hrb := holds_root heap none b (hf.2.2.2.1 b (by simp))
      obtain ⟨s2, heap2, ts2, hm, hf2, hperm, hl2, _⟩ := ih s3 _ _ hf3
      refine ⟨s2, heap2, ts2, ?_, ?_, ?_, by rw [hl2, hl3], fun h => absurd h (by omega)⟩
      · rw [merge_nodes]
        simp only [hA, hB, deref, hra, hrb, malloc, node_freq]
        simp only [PTree.node] at hadd hm
        rw [hadd]
        exact hm
      · simpa using hf2
      · refine hperm.trans ?_
        rw [hts0, List.perm_iff_count]
        intro x
        simp only [forest_leaves_append, forest_leaves, PTree.leaf_list, List.count_append,
          List.append_nil]
        omega

/-! ## The leaves and the sorted list -/

theorem init_node_loop_spec (ft : FREQTABLE) : ∀ (n i : Nat) (tree : TREE) (heap : Heap),
    i + n = 256 → LeafTable ft.cells i tree.node_list heap →
    LeafTable ft.cells 256 (init_node_loop ft n i tree heap).1.node_list
      (init_node_loop ft n i tree heap).2 ∧
    (init_node_loop ft n i tree heap).1.root = tree.root := by
  intro n
  induction n with
  | zero =>
    intro i tree heap hi h
    have : i = 256 := by omega
    subst this
    exact ⟨h, rfl⟩
  | succ n ih =>
    intro i tree heap hi h
    rw [init_node_loop]
    by_cases hpos : ft.cells.getD i 0 > 0
    · rw [if_pos hpos]
      refine ih (i + 1) _ _ (by omega) ⟨by simpa using h.1, fun v hv => ⟨fun hc => ?_, fun hc => ?_⟩⟩
      · by_cases hvi : v = i
        · subst hvi
          refine ⟨heap.length, ?_, ?_⟩
          · simp only [malloc]
            rw [List.getElem?_set_self (by rw [h.1]; exact hv)]
          · simp [malloc, NODE.zero, Nat.mod_eq_of_lt hv]
        · obtain ⟨c, h1, h2⟩ := (h.2 v hv).1 ⟨by omega, hc.2⟩
          refine ⟨c, ?_, ?_⟩
          · simp only [malloc]
            rw [List.getElem?_set_ne (Ne.symm hvi)]
            exact h1
          · simp only [malloc]
            rw [List.getElem?_append_left (List.getElem?_eq_some_iff.mp h2).1]
            exact h2
      · have hvi : v ≠ i := fun e => hc ⟨by omega, e ▸ hpos⟩
        simp only [malloc]
        rw [List.getElem?_set_ne (Ne.symm hvi)]
        exact (h.2 v hv).2 (fun hh => hc ⟨by omega, hh.2⟩)
    · rw [if_neg hpos]
      refine ih (i + 1) _ _ (by omega) ⟨h.1, fun v hv => ⟨fun hc => ?_, fun hc => ?_⟩⟩
      · have hvi : v ≠ i := fun e => hpos (e ▸ hc.2)
        exact (h.2 v hv).1 ⟨by omega, hc.2⟩
      · exact (h.2 v hv).2 (fun hh => hc ⟨by omega, hh.2⟩)

theorem init_node_list_spec (ft : FREQTABLE) (heap : Heap) :
    ∃ nl heap1, init_node_list { root := none, node_list := [] } heap ft
        = (SUCCESS, { root := none, node_list := nl }, heap1) ∧
      LeafTable ft.cells 256 nl heap1 := by
  have h0 : LeafTable ft.cells 0 (List.replicate MAX_CHAR (none : Option Nat)) heap := by
    refine ⟨List.length_replicate _ _, fun v hv => ⟨fun hc => absurd hc.1 (by omega), fun _ => ?_⟩⟩
    rw [List.getElem?_replicate, if_pos (show v < MAX_CHAR from hv)]
  have h := init_node_loop_spec ft MAX_CHAR 0
    { root := none, node_list := List.replicate MAX_CHAR none } heap rfl h0
  rw [init_node_list]
  generalize init_node_loop ft MAX_CHAR 0
    { root := none, node_list := List.replicate MAX_CHAR none } heap = r at h
  obtain ⟨⟨root, nl⟩, heap1⟩ := r
  obtain ⟨h1, h2⟩ := h
  simp only at h1 h2
  subst h2
  exact ⟨nl, heap1, rfl, h1⟩

theorem count_nodes_spec (s : List (Option Nat)) : ∀ (fuel k : Nat), 257 ≤ k + fuel → k ≤ 256 →
    k ≤ count_nodes fuel s k ∧ count_nodes fuel s k ≤ 256 ∧
    (∀ j, k ≤ j → j < count_nodes fuel s k → s.getD j none ≠ none) ∧
    (count_nodes fuel s k < 256 → s.getD (count_nodes fuel s k) none = none) := by
  intro fuel
  induction fuel with
  | zero => intro k h1 h2; omega
  | succ fuel ih =>
    intro k h1 h2
    rw [count_nodes]
    by_cases hc : s.getD k none ≠ none ∧ k < MAX_CHAR
    · rw [if_pos hc]
      have hk : k < 256 := hc.2
      obtain ⟨r1, r2, r3, r4⟩ := ih (k + 1) (by omega) (by omega)
      refine ⟨by omega, r2, fun j hj1 hj2 => ?_, r4⟩
      by_cases hjk : j = k
      · subst hjk; exact hc.1
      · exact r3 j (by omega) hj2
    · rw [if_neg hc]
      refine ⟨le_refl _, h2, fun j hj1 hj2 => by omega, fun hk => ?_⟩
      by_contra hne
      exact hc ⟨hne, hk⟩

theorem nodup_filter_some (l : List (Option Nat))
    (hinj : ∀ (i j c : Nat), l[i]? = some (some c) → l[j]? = some (some c) → i = j) :
    (l.filter Option.isSome).Nodup := by
  induction l with
  | nil => simp
  | cons x xs ih =>
    have hinj2 : ∀ (i j c : Nat), xs[i]? = some (some c) → xs[j]? = some (some c) → i = j := by
      intro i j c h1 h2
      have := hinj (i + 1) (j + 1) c (by simpa using h1) (by simpa using h2)
      omega
    have ih2 := ih hinj2
    cases x with
    | none => simpa using ih2
    | some c =>
      simp only [List.filter_cons, Option.isSome_some, if_true, List.nodup_cons]
      refine ⟨fun hmem => ?_, ih2⟩
      obtain ⟨j, hj⟩ := List.getElem?_of_mem (List.mem_filter.mp hmem).1
      have := hinj 0 (j + 1) c (by simp) (by simpa using hj)
      omega


theorem leaf_table_entry (cells : List Nat) (nl : List (Option Nat)) (heap : Heap)
    (h : LeafTable cells 256 nl heap) (v c : Nat) (hv : nl[v]? = some (some c)) :
    v < 256 ∧ 0 < cells.getD v 0 ∧
      heap[c]? = some { ch := v, freq := cells.getD v 0, parent := none, left := none,
                        right := none } := by
  have hlt : v < 256 := by
    have := (List.getElem?_eq_some_iff.mp hv).1
    rw [h.1] at this
    exact this
  by_cases hpos : v < 256 ∧ 0 < cells.getD v 0
  · obtain ⟨c1, h1, h2⟩ := (h.2 v hlt).1 hpos
    rw [hv] at h1
    simp only [Option.some.injEq] at h1
    subst h1
    exact ⟨hlt, hpos.2, h2⟩
  · have := (h.2 v hlt).2 hpos
    rw [hv] at this
    exact absurd this (by simp)

theorem leaves_of_sorted (cells : List Nat) (nl : List (Option Nat)) (heap : Heap)
    (h : LeafTable cells 256 nl heap) : ∀ (l : List (Option Nat)),
    (∀ p ∈ l, p ≠ none ∧ p ∈ nl) →
    ∃ ts : List PTree, l = ts.map (fun t => some t.cell) ∧
      ∀ t ∈ ts, ∃ c v, t = PTree.leaf c v (cells.getD v 0) ∧ v < 256 ∧ 0 < cells.getD v 0 ∧
        nl[v]? = some (some c) ∧ holds heap none t = true := by
  intro l
  induction l with
  | nil => intro _; exact ⟨[], rfl, fun t ht => absurd ht (by simp)⟩
  | cons p ps ih =>
    intro hall
    obtain ⟨ts, hts, hl⟩ := ih (fun q hq => hall q (List.mem_cons_of_mem _ hq))
    obtain ⟨hne, hmem⟩ := hall p (List.mem_cons_self _ _)
    cases p with
    | none => exact absurd rfl hne
    | some c =>
      obtain ⟨v, hv⟩ := List.getElem?_of_mem hmem
      obtain ⟨h1, h2, h3⟩ := leaf_table_entry cells nl heap h v c hv
      refine ⟨PTree.leaf c v (cells.getD v 0) :: ts, by simp [PTree.cell, hts], ?_⟩
      intro t ht
      rcases List.mem_cons.mp ht with e | e
      · subst e
        exact ⟨c, v, rfl, h1, h2, hv, by simp [holds, PTree.node, h3]⟩
      · exact hl t e

theorem forest_cells_of_leaves (ts : List PTree)
    (h : ∀ t ∈ ts, ∃ c v w, t = PTree.leaf c v w) :
    forest_cells ts = ts.map PTree.cell ∧ forest_leaves ts = ts := by
  induction ts with
  | nil => exact ⟨rfl, rfl⟩
  | cons t ts ih =>
    obtain ⟨c, v, w, rfl⟩ := h _ (List.mem_cons_self _ _)
    obtain ⟨h1, h2⟩ := ih (fun u hu => h u (List.mem_cons_of_mem _ hu))
    simp [forest_cells, forest_leaves, PTree.cells, PTree.leaf_list, PTree.cell, h1, h2]

theorem build_tree_nodes_spec
    (qsort : (Option Nat → Option Nat → Int) → List (Option Nat) → List (Option Nat))
    (hq : ∀ cmp l, (qsort cmp l).Perm l) (ft : FREQTABLE) (heap0 : Heap) :
    ∃ nl heap1 ts s2 heap2 ts2,
      init_node_list { root := none, node_list := [] } heap0 ft
        = (SUCCESS, { root := none, node_list := nl }, heap1) ∧
      LeafTable ft.cells 256 nl heap1 ∧
      (qsort (compare_nodes heap1) nl).take
          (count_nodes (MAX_CHAR + 1) (qsort (compare_nodes heap1) nl) 0)
        = ts.map (fun t => some t.cell) ∧
      ts.length = count_nodes (MAX_CHAR + 1) (qsort (compare_nodes heap1) nl) 0 ∧
      (∀ t ∈ ts, ∃ c v, t = PTree.leaf c v (ft.cells.getD v 0) ∧ v < 256 ∧
        0 < ft.cells.getD v 0 ∧ nl[v]? = some (some c)) ∧
      build_tree_nodes qsort ft heap0
        = Res.ok (some { root := s2.getD 0 none, node_list := nl }, heap2) ∧
      Forest heap2 s2 (min ts.length 1) ts2 ∧ (forest_leaves ts2).Perm ts ∧
      (ts = [] → s2.getD 0 none = none) := by
  obtain ⟨nl, heap1, hinit, hLT⟩ := init_node_list_spec ft heap0
  generalize hs : qsort (compare_nodes heap1) nl = s
  have hperm : s.Perm nl := hs ▸ hq _ _
  have hslen : s.length = 256 := by rw [hperm.length_eq, hLT.1]
  obtain ⟨_, hnc, hnn, hnone⟩ := count_nodes_spec s (MAX_CHAR + 1) 0 (by simp [MAX_CHAR])
    (by omega)
  generalize hcount : count_nodes (MAX_CHAR + 1) s 0 = nc at hnc hnn hnone
  have hpre : ∀ p ∈ s.take nc, p ≠ none ∧ p ∈ nl := by
    intro p hp
    refine ⟨?_, hperm.subset (List.take_subset _ _ hp)⟩
    obtain ⟨j, hj⟩ := List.getElem?_of_mem hp
    rw [List.getElem?_take] at hj
    split at hj
    · rename_i hlt
      have := hnn j (Nat.zero_le _) hlt
      rw [List.getD_eq_getElem?_getD, hj] at this
      exact this
    · exact absurd hj (by simp)
  obtain ⟨ts, hts, hleaf⟩ := leaves_of_sorted ft.cells nl heap1 hLT _ hpre
  have htslen : ts.length = nc := by
    have := congrArg List.length hts
    simp only [List.length_take, List.length_map, hslen] at this
    omega
  have hleaves := forest_cells_of_leaves ts (fun t ht => by
    obtain ⟨c, v, e, _⟩ := hleaf t ht
    exact ⟨c, v, _, e⟩)
  have hinj : ∀ (i j c : Nat), nl[i]? = some (some c) → nl[j]? = some (some c) → i = j := by
    intro i j c hi hj
    have h1 := (leaf_table_entry _ _ _ hLT i c hi).2.2
    have h2 := (leaf_table_entry _ _ _ hLT j c hj).2.2
    rw [h1] at h2
    simp only [Option.some.injEq, NODE.mk.injEq] at h2
    exact h2.1
  have hnd : (forest_cells ts).Nodup := by
    rw [hleaves.1]
    apply List.Nodup.of_map (fun c => some c)
    rw [List.map_map]
    have e : ((fun c => some c) ∘ PTree.cell) = (fun t : PTree => some t.cell) := rfl
    rw [e, ← hts]
    have hfs : (s.take nc).filter Option.isSome = s.take nc := by
      rw [List.filter_eq_self]
      intro p hp
      have := (hpre p hp).1
      cases p with
      | none => exact absurd rfl this
      | some c => rfl
    rw [← hfs]
    exact ((List.take_sublist nc s).filter _).nodup
      ((hperm.filter _).nodup_iff.mpr (nodup_filter_some nl hinj))
  have hforest : Forest heap1 s nc ts :=
    ⟨by omega, htslen, hts, fun t ht => (hleaf t ht).choose_spec.choose_spec.2.2.2.2, hnd⟩
  obtain ⟨s2, heap2, ts2, hm, hf2, hperm2, _, hzero⟩ := merge_nodes_forest nc s heap1 ts hforest
  subst hcount
  subst hs
  refine ⟨nl, heap1, ts, s2, heap2, ts2, hinit, hLT, hts, htslen, ?_, ?_, ?_, ?_, ?_⟩
  · intro t ht
    obtain ⟨c, v, h1, h2, h3, h4, _⟩ := hleaf t ht
    exact ⟨c, v, h1, h2, h3, h4⟩
  · rw [build_tree_nodes]
    simp only [hinit, SUCCESS, FAILURE, Nat.zero_ne_one, if_false]
    rw [hm]
  · rw [htslen]; exact hf2
  · rw [← hleaves.2]; exact hperm2
  · intro hnil
    have h0 : count_nodes (MAX_CHAR + 1) (qsort (compare_nodes heap1) nl) 0 = 0 := by
      rw [← htslen, hnil]; rfl
    have := hzero h0
    rw [this.1]
    have h1 := hnone (by omega)
    rw [h0] at h1
    exact h1

/-! ## The tree that `build_tree` returns -/

theorem put_node_subtree (heap : Heap) (u : PTree) : ∀ (par : Option Nat) (pi : List Bool),
    holds heap par u = true → u.cells.Nodup → (par = none → pi = []) →
    (∀ fuel bs, pi.length < fuel →
      put_node heap fuel bs (some u.cell) = Res.ok (bs_write_bits bs pi)) →
    ∀ p v, u.subtree p = some v → ∀ fuel bs, (pi ++ p).length < fuel →
      put_node heap fuel bs (some v.cell) = Res.ok (bs_write_bits bs (pi ++ p)) := by
  induction u with
  | leaf c0 s0 w0 =>
    intro par pi _ _ _ hq p v hsub fuel bs hf
    cases p with
    | nil =>
      simp only [PTree.subtree, Option.some.injEq] at hsub
      subst hsub
      simp only [List.append_nil] at hf ⊢
      exact hq fuel bs hf
    | cons d p => exact absurd hsub (by simp [PTree.subtree])
  | branch c0 s0 w0 l r ihl ihr =>
    intro par pi hh hnd hpi hq p v hsub fuel bs hf
    cases p with
    | nil =>
      simp only [PTree.subtree, Option.some.injEq] at hsub
      subst hsub
      simp only [List.append_nil] at hf ⊢
      exact hq fuel bs hf
    | cons d p =>
      have hu := holds_root heap par _ hh
      simp only [holds, Bool.and_eq_true, decide_eq_true_eq] at hh
      obtain ⟨⟨_, hl⟩, hr⟩ := hh
      simp only [PTree.cells, List.nodup_cons, List.mem_append, not_or] at hnd
      obtain ⟨_, hnd2⟩ := hnd
      have hne : l.cell ≠ r.cell := fun e =>
        (List.nodup_append.mp hnd2).2.2 (cell_mem_cells l) (e ▸ cell_mem_cells r)
      simp only [PTree.subtree] at hsub
      cases d with
      | false =>
        simp only [Bool.false_eq_true, if_false] at hsub
        have hql := put_node_child heap par (PTree.branch c0 s0 w0 l r) l false pi hu
          (holds_root heap _ l hl) (by simp [PTree.node]) hpi hq
        have := ihl (some c0) (pi ++ [false]) hl (List.nodup_append.mp hnd2).1 (by simp) hql
          p v hsub fuel bs (by simpa using hf)
        simpa using this
      | true =>
        simp only [if_true] at hsub
        have hqr := put_node_child heap par (PTree.branch c0 s0 w0 l r) r true pi hu
          (holds_root heap _ r hr) (by simp [PTree.node, hne]) hpi hq
        have := ihr (some c0) (pi ++ [true]) hr (List.nodup_append.mp hnd2).2.1 (by simp) hqr
          p v hsub fuel bs (by simpa using hf)
        simpa using this

theorem subtree_length_le (t : PTree) : ∀ (p : List Bool) (u : PTree),
    t.subtree p = some u → p.length ≤ t.height := by
  induction t with
  | leaf c s w =>
    intro p u h
    cases p with
    | nil => simp
    | cons d p => exact absurd h (by simp [PTree.subtree])
  | branch c s w l r ihl ihr =>
    intro p u h
    cases p with
    | nil => simp
    | cons d p =>
      simp only [PTree.subtree] at h
      simp only [PTree.height, List.length_cons]
      cases d with
      | false =>
        simp only [Bool.false_eq_true, if_false] at h
        have := ihl p u h
        have := Nat.le_max_left l.height r.height
        omega
      | true =>
        simp only [if_true] at h
        have := ihr p u h
        have := Nat.le_max_right l.height r.height
        omega

theorem height_lt_cells (t : PTree) : t.height < t.cells.length := by
  induction t with
  | leaf c s w => simp [PTree.height, PTree.cells]
  | branch c s w l r ihl ihr =>
    simp only [PTree.height, PTree.cells, List.length_cons, List.length_append]
    have := Nat.max_le.mpr ⟨Nat.le_add_right l.height r.height,
      Nat.le_add_left r.height l.height⟩
    omega

theorem put_node_path (heap : Heap) (t : PTree) (h : holds heap none t = true)
    (hnd : t.cells.Nodup) (p : List Bool) (u : PTree) (hsub : t.subtree p = some u)
    (bs : BITSTREAM) :
    put_node heap (heap.length + 1) bs (some u.cell) = Res.ok (bs_write_bits bs p) := by
  have hlen : p.length < heap.length + 1 := by
    have h1 := subtree_length_le t p u hsub
    have h2 := height_lt_cells t
    have h3 := nodup_bounded_length t.cells heap.length hnd (holds_cells_lt heap t none h)
    omega
  have := put_node_subtree heap t none [] h hnd (fun _ => rfl)
    (fun fuel bs hfu => by
      obtain ⟨k, rfl⟩ : ∃ k, fuel = k + 1 := ⟨fuel - 1, by simp at hfu; omega⟩
      rw [put_node_root heap t h k bs]; rfl)
    p u hsub (heap.length + 1) bs (by simpa using hlen)
  simpa using this

theorem qsort_insert_perm (cmp : Option Nat → Option Nat → Int) (x : Option Nat)
    (l : List (Option Nat)) : (qsort_insert cmp x l).Perm (x :: l) := by
  induction l with
  | nil => exact List.Perm.refl _
  | cons y ys ih =>
    rw [qsort_insert]
    split
    · exact List.Perm.refl _
    · exact (List.Perm.cons y ih).trans (List.Perm.swap x y ys)

theorem qsort_model_perm (cmp : Option Nat → Option Nat → Int) (l : List (Option Nat)) :
    (qsort_model cmp l).Perm l := by
  induction l with
  | nil => exact List.Perm.refl _
  | cons x xs ih =>
    rw [qsort_model]
    exact (qsort_insert_perm cmp x _).trans (List.Perm.cons x ih)

theorem qsort_insert_pairwise (cmp : Option Nat → Option Nat → Int) (mem : Option Nat → Prop)
    (htot : ∀ a, mem a → ∀ b, mem b → (cmp a b ≤ 0 ∨ cmp b a ≤ 0))
    (htr : ∀ a, mem a → ∀ b, mem b → ∀ c, mem c → cmp a b ≤ 0 → cmp b c ≤ 0 → cmp a c ≤ 0)
    (x : Option Nat) (hx : mem x) (l : List (Option Nat)) (hl : ∀ y ∈ l, mem y)
    (hs : l.Pairwise (fun a b => cmp a b ≤ 0)) :
    (qsort_insert cmp x l).Pairwise (fun a b => cmp a b ≤ 0) := by
  induction l with
  | nil => simp [qsort_insert]
  | cons y ys ih =>
    have hy := hl y (List.mem_cons_self _ _)
    have hys := fun z hz => hl z (List.mem_cons_of_mem _ hz)
    rw [List.pairwise_cons] at hs
    rw [qsort_insert]
    split
    · rename_i hxy
      rw [List.pairwise_cons]
      refine ⟨fun z hz => ?_, List.pairwise_cons.mpr hs⟩
      rcases List.mem_cons.mp hz with e | e
      · subst e; exact hxy
      · exact htr x hx y hy z (hys z e) hxy (hs.1 z e)
    · rename_i hxy
      rw [List.pairwise_cons]
      refine ⟨fun z hz => ?_, ih hys hs.2⟩
      have hz2 := (qsort_insert_perm cmp x ys).subset hz
      rcases List.mem_cons.mp hz2 with e | e
      · subst e
        rcases htot z hx y hy with h | h
        · exact absurd h hxy
        · exact h
      · exact hs.1 z e

theorem qsort_model_spec : QsortSpec qsort_model := by
  intro cmp l
  refine ⟨qsort_model_perm cmp l, fun htot htr => ?_⟩
  have key : ∀ xs : List (Option Nat), (∀ y ∈ xs, y ∈ l) →
      (qsort_model cmp xs).Pairwise (fun a b => cmp a b ≤ 0) := by
    intro xs
    induction xs with
    | nil => intro _; simp [qsort_model]
    | cons x xs ih =>
      intro hsub
      rw [qsort_model]
      exact qsort_insert_pairwise cmp (fun a => a ∈ l) htot htr x
        (hsub x (List.mem_cons_self _ _)) _
        (fun y hy => hsub y (List.mem_cons_of_mem _ ((qsort_model_perm cmp xs).subset hy)))
        (ih (fun y hy => hsub y (List.mem_cons_of_mem _ hy)))
  exact key l (fun y hy => hy)

theorem subtree_leaf_mem (t : PTree) : ∀ (p : List Bool) (c v w : Nat),
    t.subtree p = some (PTree.leaf c v w) → PTree.leaf c v w ∈ t.leaf_list := by
  induction t with
  | leaf c0 s0 w0 =>
    intro p c v w h
    cases p with
    | nil =>
      simp only [PTree.subtree, Option.some.injEq] at h
      rw [h]; simp [PTree.leaf_list]
    | cons d p => exact absurd h (by simp [PTree.subtree])
  | branch c0 s0 w0 l r ihl ihr =>
    intro p c v w h
    cases p with
    | nil => simp [PTree.subtree] at h
    | cons d p =>
      simp only [PTree.subtree] at h
      simp only [PTree.leaf_list, List.mem_append]
      cases d with
      | false =>
        simp only [Bool.false_eq_true, if_false] at h
        exact Or.inl (ihl p c v w h)
      | true =>
        simp only [if_true] at h
        exact Or.inr (ihr p c v w h)

theorem build_tree_open
    (qsort : (Option Nat → Option Nat → Int) → List (Option Nat) → List (Option Nat))
    (bytes : List Nat) (hb : ∀ b ∈ bytes, b < 256) (heap0 : Heap) (tree : TREE) (heap : Heap)
    (h : build_tree_nodes qsort
      { cells := add_counts (List.replicate MAX_CHAR 0) bytes, stray := 1 } heap0
        = Res.ok (some tree, heap)) :
    build_tree qsort (FILE.open bytes) heap0
      = Res.ok (some tree, { content := bytes, pos := bytes.length, eof := true }, heap) := by
  have hfreq := calc_freq_table_open bytes hb (FILE.open bytes) rfl
  change calc_freq_table (FILE.open bytes) = _ at hfreq
  rw [build_tree]
  simp only [hfreq, SUCCESS, FAILURE, Nat.zero_ne_one, if_false, h]

/-- Claim C17. For every input and every conforming `qsort`, `build_tree`
returns a tree whose root is null or is the root of a strict binary tree held
by the arena, and for every node of that tree, in particular every leaf,
`put_node` writes exactly the branch directions on the path from the root
down to the node, in that order, 0 for a left child and 1 for a right child;
for the root, the node without parent, the path is empty and no bit is
written. Every leaf of the tree is the entry of `node_list` for its symbol. -/
theorem put_node_writes_path
    (qsort : (Option Nat → Option Nat → Int) → List (Option Nat) → List (Option Nat))
    (hq : QsortSpec qsort) (bytes : List Nat) (hb : ∀ b ∈ bytes, b < 256) :
    ∃ tree f heap, build_tree qsort (FILE.open bytes) [] = Res.ok (some tree, f, heap) ∧
      (tree.root = none ∨
        ∃ t : PTree, tree.root = some t.cell ∧ holds heap none t = true ∧
          (∀ ws, put_node heap (heap.length + 1) ws tree.root = Res.ok (SUCCESS, ws)) ∧
          (∀ (p : List Bool) (u : PTree), t.subtree p = some u →
            ∀ ws, put_node heap (heap.length + 1) ws (some u.cell)
              = Res.ok (bs_write_bits ws p)) ∧
          ∀ (p : List Bool) (c v w : Nat), t.subtree p = some (PTree.leaf c v w) →
            tree.node_list[v]? = some (some c)) := by
  obtain ⟨nl, heap1, ts, s2, heap2, ts2, _, _, _, _, hleaf, hbuild, hf2, hperm, hnil⟩ :=
    build_tree_nodes_spec qsort (fun cmp l => (hq cmp l).1)
      { cells := add_counts (List.replicate MAX_CHAR 0) bytes, stray := 1 } []
  refine ⟨_, _, heap2, build_tree_open qsort bytes hb [] _ heap2 hbuild, ?_⟩
  cases ts with
  | nil => exact Or.inl (hnil rfl)
  | cons t0 ts0 =>
    right
    obtain ⟨_, hlen, htake, hholds, hnd⟩ := hf2
    have h1 : min (t0 :: ts0).length 1 = 1 := by simp
    rw [h1] at hlen htake
    match ts2, hlen with
    | [t], _ =>
      have hroot : s2.getD 0 none = some t.cell := by
        have := congrArg (fun l => l[0]?) htake
        simp only [List.getElem?_take, List.map_cons, List.map_nil] at this
        simp only [List.getD_eq_getElem?_getD]
        simp at this
        rw [this]; rfl
      have hh := hholds t (by simp)
      have hndt : t.cells.Nodup := by simpa [forest_cells] using hnd
      refine ⟨t, hroot, hh, fun ws => ?_,
        fun p u hsub ws => put_node_path heap2 t hh hndt p u hsub ws, fun p c v w hsub => ?_⟩
      · simp only [hroot]
        exact put_node_root heap2 t hh _ ws
      · have hm := subtree_leaf_mem t p c v w hsub
        have hm2 : PTree.leaf c v w ∈ forest_leaves [t] := by simpa [forest_leaves] using hm
        obtain ⟨c1, v1, e, _, _, hnl⟩ := hleaf _ (hperm.subset hm2)
        simp only [PTree.leaf.injEq] at e
        obtain ⟨rfl, rfl, _⟩ := e
        exact hnl

theorem put_node_writes_path_witness :
    ∃ tree f heap, build_tree qsort_model (FILE.open [65, 66, 66]) []
        = Res.ok (some tree, f, heap) ∧
      (tree.root = none ∨
        ∃ t : PTree, tree.root = some t.cell ∧ holds heap none t = true ∧
          (∀ ws, put_node heap (heap.length + 1) ws tree.root = Res.ok (SUCCESS, ws)) ∧
          (∀ (p : List Bool) (u : PTree), t.subtree p = some u →
            ∀ ws, put_node heap (heap.length + 1) ws (some u.cell)
              = Res.ok (bs_write_bits ws p)) ∧
          ∀ (p : List Bool) (c v w : Nat), t.subtree p = some (PTree.leaf c v w) →
            tree.node_list[v]? = some (some c)) :=
  put_node_writes_path qsort_model qsort_model_spec [65, 66, 66] (by decide)

/-! ## Counts, leaves and the order of the sorted list -/

theorem add_counts_length (l : List Nat) : ∀ (cells : List Nat),
    (add_counts cells l).length = cells.length := by
  induction l with
  | nil => intro cells; rfl
  | cons b bs ih =>
    intro cells
    simp only [add_counts, List.foldl_cons] at ih ⊢
    rw [ih]
    simp

theorem add_counts_getD (l : List Nat) : ∀ (cells : List Nat) (v : Nat),
    (∀ b ∈ l, b < cells.length) → v < cells.length →
    (add_counts cells l).getD v 0 = (cells.getD v 0 + l.count v) % 2 ^ 32 ∨
      (l.count v = 0 ∧ (add_counts cells l).getD v 0 = cells.getD v 0) := by
  induction l with
  | nil => intro cells v _ _; right; exact ⟨rfl, rfl⟩
  | cons b bs ih =>
    intro cells v hb hv
    have hbl : b < cells.length := hb b (List.mem_cons_self _ _)
    have key := ih (cells.set b ((cells.getD b 0 + 1) % 2 ^ 32)) v
      (fun x hx => by simpa using hb x (List.mem_cons_of_mem _ hx)) (by simpa using hv)
    simp only [add_counts, List.foldl_cons] at key ⊢
    by_cases hvb : b = v
    · subst hvb
      left
      have hg : (cells.set b ((cells.getD b 0 + 1) % 2 ^ 32)).getD b 0
          = (cells.getD b 0 + 1) % 2 ^ 32 := by
        simp [List.getD_eq_getElem?_getD, List.getElem?_set, hbl]
      rw [hg] at key
      rw [List.count_cons_self]
      rcases key with h | ⟨h0, h⟩
      · rw [h]; omega
      · rw [h, h0]
    · have hg : (cells.set b ((cells.getD b 0 + 1) % 2 ^ 32)).getD v 0 = cells.getD v 0 := by
        simp [List.getD_eq_getElem?_getD, List.getElem?_set, hvb]
      rw [hg] at key
      rw [List.count_cons_of_ne (Ne.symm hvb)]
      exact key

theorem add_counts_small (bytes : List Nat) (hb : ∀ b ∈ bytes, b < 256) (v : Nat)
    (hv : v < 256) (hsmall : bytes.count v < 2 ^ 32) :
    (add_counts (List.replicate MAX_CHAR 0) bytes).getD v 0 = bytes.count v := by
  have h0 : (List.replicate MAX_CHAR 0).getD v 0 = 0 := by
    rw [List.getD_eq_getElem?_getD, List.getElem?_replicate]
    split <;> rfl
  have hh := add_counts_getD bytes (List.replicate MAX_CHAR 0) v
    (fun b hbm => by rw [List.length_replicate]; exact hb b hbm)
    (by rw [List.length_replicate]; exact hv)
  rw [h0] at hh
  rcases hh with h | ⟨h1, h2⟩
  · rw [h, Nat.zero_add]
    exact Nat.mod_eq_of_lt hsmall
  · rw [h2, h1]

theorem to_int_sub (v1 v2 : Nat) (k1 k2 : Int) (h1 : v1 < 2 ^ 32) (h2 : v2 < 2 ^ 32)
    (e1 : k1 = if v1 < 2 ^ 31 then (v1 : Int) else (v1 : Int) - 2 ^ 32)
    (e2 : k2 = if v2 < 2 ^ 31 then (v2 : Int) else (v2 : Int) - 2 ^ 32)
    (hr : -(2 ^ 31 : Int) ≤ k2 - k1 ∧ k2 - k1 < 2 ^ 31) :
    to_int ((v2 + 2 ^ 32 - v1) % 2 ^ 32) = k2 - k1 := by
  unfold to_int
  split at e1 <;> split at e2 <;> split <;> omega

theorem compare_value_key (heap : Heap) (a : Option Nat)
    (ha : ∀ c, a = some c → (heap.getD c NODE.zero).freq < 2 ^ 31 - 256) :
    compare_value heap a < 2 ^ 32 ∧
    sort_key heap a = (if compare_value heap a < 2 ^ 31 then (compare_value heap a : Int)
      else (compare_value heap a : Int) - 2 ^ 32) ∧
    -256 ≤ sort_key heap a ∧ sort_key heap a < 2 ^ 31 - 256 := by
  cases a with
  | none =>
    have e : compare_value heap none = 4294967040 := rfl
    have e2 : sort_key heap none = -256 := rfl
    rw [e, e2]
    refine ⟨by omega, ?_, by omega, by omega⟩
    split <;> omega
  | some c =>
    have h := ha c rfl
    have e : compare_value heap (some c) = (heap.getD c NODE.zero).freq % 2 ^ 32 := rfl
    have e2 : sort_key heap (some c) = ((heap.getD c NODE.zero).freq : Int) := rfl
    rw [e, e2]
    refine ⟨by omega, ?_, by omega, by omega⟩
    split <;> omega

theorem compare_nodes_key (heap : Heap) (a b : Option Nat)
    (ha : ∀ c, a = some c → (heap.getD c NODE.zero).freq < 2 ^ 31 - 256)
    (hb : ∀ c, b = some c → (heap.getD c NODE.zero).freq < 2 ^ 31 - 256) :
    compare_nodes heap a b = sort_key heap b - sort_key heap a := by
  obtain ⟨a1, a2, a3, a4⟩ := compare_value_key heap a ha
  obtain ⟨b1, b2, b3, b4⟩ := compare_value_key heap b hb
  exact to_int_sub _ _ _ _ a1 b1 a2 b2 ⟨by omega, by omega⟩

theorem holds_leaf (heap : Heap) (t : PTree) : ∀ (par : Option Nat),
    holds heap par t = true → ∀ u ∈ t.leaf_list, ∃ p, holds heap p u = true := by
  induction t with
  | leaf c s w =>
    intro par h u hu
    simp only [PTree.leaf_list, List.mem_singleton] at hu
    subst hu
    exact ⟨par, h⟩
  | branch c s w l r ihl ihr =>
    intro par h u hu
    simp only [holds, Bool.and_eq_true] at h
    simp only [PTree.leaf_list, List.mem_append] at hu
    rcases hu with hu | hu
    · exact ihl _ h.1.2 u hu
    · exact ihr _ h.2 u hu

theorem leaf_cells_sublist (t : PTree) : (t.leaf_list.map PTree.cell).Sublist t.cells := by
  induction t with
  | leaf c s w => simp [PTree.leaf_list, PTree.cells, PTree.cell]
  | branch c s w l r ihl ihr =>
    simp only [PTree.leaf_list, PTree.cells, List.map_append]
    exact List.Sublist.cons _ (List.Sublist.append ihl ihr)

theorem symbols_eq_map (t : PTree) :
    t.symbols = t.leaf_list.map (fun u => match u with
      | PTree.leaf _ s _ => s
      | PTree.branch _ s _ _ _ => s) := by
  induction t with
  | leaf c s w => rfl
  | branch c s w l r ihl ihr => simp [PTree.symbols, PTree.leaf_list, ihl, ihr]

theorem sorted_prefix_complete (heap : Heap) (nl s : List (Option Nat)) (nc : Nat)
    (hperm : s.Perm nl) (hlen : s.length = 256)
    (hfreq : ∀ p ∈ nl, ∀ c, p = some c → (heap.getD c NODE.zero).freq < 2 ^ 31 - 256)
    (hsorted : s.Pairwise (fun a b => compare_nodes heap a b ≤ 0))
    (hnone : nc < 256 → s.getD nc none = none) (c : Nat) (hc : some c ∈ s) :
    some c ∈ s.take nc := by
  obtain ⟨j, hj⟩ := List.getElem?_of_mem hc
  have hjlt : j < s.length := (List.getElem?_eq_some_iff.mp hj).1
  by_cases hjn : j < nc
  · refine List.getElem?_mem (n := j) ?_
    rw [List.getElem?_take, if_pos hjn]
    exact hj
  · exfalso
    have hn := hnone (by omega)
    have hnclt : nc < s.length := by omega
    have hsn : s[nc]? = some none := by
      rw [List.getD_eq_getElem?_getD, List.getElem?_eq_getElem hnclt] at hn
      rw [List.getElem?_eq_getElem hnclt]
      simpa using hn
    have hne : j ≠ nc := by
      intro e
      rw [e, hsn] at hj
      exact absurd hj (by simp)
    have hrel := (List.pairwise_iff_getElem.mp hsorted) nc j hnclt hjlt (by omega)
    have e1 : s[nc] = none := by
      rw [List.getElem?_eq_getElem hnclt] at hsn
      simpa using hsn
    have e2 : s[j] = some c := by
      rw [List.getElem?_eq_getElem hjlt] at hj
      simpa using hj
    rw [e1, e2, compare_nodes_key heap none (some c) (fun _ h => absurd h (by simp))
      (hfreq (some c) (hperm.subset hc))] at hrel
    simp only [sort_key] at hrel
    omega

/-- The tree where the comparison is consistent, that is for inputs in which
every byte value occurs fewer than `2^31 - 256` times. With a conforming
`qsort`, `build_tree` returns a tree in which `node_list[v]` is null for
every value that does not occur and is a leaf with `ch = v`, `freq` the
number of occurrences of `v` and no children for every value that occurs; for
the empty input the root is null; otherwise the root is the root of a strict
binary tree held by the arena whose leaf symbols are pairwise distinct and
are exactly the values that occur, each leaf being the entry of `node_list`
for its symbol with the count as its `freq`. -/
theorem build_tree_leaves
    (qsort : (Option Nat → Option Nat → Int) → List (Option Nat) → List (Option Nat))
    (hq : QsortSpec qsort) (bytes : List Nat) (hb : ∀ b ∈ bytes, b < 256)
    (hsmall : ∀ v, bytes.count v < 2 ^ 31 - 256) :
    ∃ tree f heap, build_tree qsort (FILE.open bytes) [] = Res.ok (some tree, f, heap) ∧
      (∀ v, v < 256 → bytes.count v = 0 → tree.node_list[v]? = some none) ∧
      (∀ v, v < 256 → 0 < bytes.count v → ∃ c par, tree.node_list[v]? = some (some c) ∧
        heap[c]? = some { ch := v, freq := bytes.count v, parent := par, left := none,
                          right := none }) ∧
      (bytes = [] → tree.root = none) ∧
      (bytes ≠ [] → ∃ t : PTree, tree.root = some t.cell ∧ holds heap none t = true ∧
        t.symbols.Nodup ∧ (∀ v, v ∈ t.symbols ↔ 0 < bytes.count v) ∧
        ∀ c v w, PTree.leaf c v w ∈ t.leaf_list →
          w = bytes.count v ∧ tree.node_list[v]? = some (some c)) := by
  generalize hcells : add_counts (List.replicate MAX_CHAR 0) bytes = cells
  have hcell : ∀ v, v < 256 → cells.getD v 0 = bytes.count v := by
    intro v hv
    rw [← hcells]
    exact add_counts_small bytes hb v hv (by have := hsmall v; omega)
  obtain ⟨nl, heap1, ts, s2, heap2, ts2, _, hLT, htake, htslen, hleaf, hbuild, hf2, hperm2,
    hnil⟩ := build_tree_nodes_spec qsort (fun cmp l => (hq cmp l).1)
      { cells := cells, stray := 1 } []
  simp only at hLT htake htslen hleaf
  generalize hs : qsort (compare_nodes heap1) nl = s at htake htslen
  have hperm : s.Perm nl := hs ▸ (hq _ _).1
  have hslen : s.length = 256 := by rw [hperm.length_eq, hLT.1]
  obtain ⟨_, _, _, hnone⟩ := count_nodes_spec s (MAX_CHAR + 1) 0 (by simp [MAX_CHAR]) (by omega)
  generalize count_nodes (MAX_CHAR + 1) s 0 = nc at htake htslen hnone
  have hinj : ∀ (i j c : Nat), nl[i]? = some (some c) → nl[j]? = some (some c) → i = j := by
    intro i j c hi hj
    have h1 := (leaf_table_entry _ _ _ hLT i c hi).2.2
    have h2 := (leaf_table_entry _ _ _ hLT j c hj).2.2
    rw [h1] at h2
    simp only [Option.some.injEq, NODE.mk.injEq] at h2
    exact h2.1
  have hfreq : ∀ p ∈ nl, ∀ c, p = some c → (heap1.getD c NODE.zero).freq < 2 ^ 31 - 256 := by
    intro p hp c hpc
    subst hpc
    obtain ⟨v, hv⟩ := List.getElem?_of_mem hp
    obtain ⟨h1, _, h3⟩ := leaf_table_entry _ _ _ hLT v c hv
    rw [List.getD_eq_getElem?_getD, h3, Option.getD_some]
    simp only
    rw [hcell v h1]
    exact hsmall v
  have hsorted : s.Pairwise (fun a b => compare_nodes heap1 a b ≤ 0) := by
    rw [← hs]
    refine (hq (compare_nodes heap1) nl).2 (fun a ha b hb2 => ?_) (fun a ha b hb2 c hc2 => ?_)
    · rw [compare_nodes_key heap1 a b (hfreq a ha) (hfreq b hb2),
        compare_nodes_key heap1 b a (hfreq b hb2) (hfreq a ha)]
      omega
    · rw [compare_nodes_key heap1 a b (hfreq a ha) (hfreq b hb2),
        compare_nodes_key heap1 b c (hfreq b hb2) (hfreq c hc2),
        compare_nodes_key heap1 a c (hfreq a ha) (hfreq c hc2)]
      omega
  -- every value that occurs has its leaf in the initial list
  have hall : ∀ v, v < 256 → 0 < bytes.count v →
      ∃ c, nl[v]? = some (some c) ∧ PTree.leaf c v (bytes.count v) ∈ ts := by
    intro v hv hpos
    obtain ⟨c, h1, _⟩ := (hLT.2 v hv).1 ⟨hv, by rw [hcell v hv]; exact hpos⟩
    refine ⟨c, h1, ?_⟩
    have hm : some c ∈ s := hperm.symm.subset (List.getElem?_mem h1)
    have hm2 := sorted_prefix_complete heap1 nl s nc hperm hslen hfreq hsorted hnone c hm
    rw [htake, List.mem_map] at hm2
    obtain ⟨t, ht, hte⟩ := hm2
    obtain ⟨c1, v1, e, hv1, _, hnl⟩ := hleaf t ht
    subst e
    simp only [PTree.cell, Option.some.injEq] at hte
    subst hte
    have := hinj v v1 c1 h1 hnl
    subst this
    rw [hcell v hv] at ht
    exact ht
  have hleaf2 : ∀ c v w, PTree.leaf c v w ∈ ts →
      v < 256 ∧ 0 < bytes.count v ∧ w = bytes.count v ∧ nl[v]? = some (some c) := by
    intro c v w ht
    obtain ⟨c1, v1, e, hv1, hp, hnl⟩ := hleaf _ ht
    simp only [PTree.leaf.injEq] at e
    obtain ⟨rfl, rfl, rfl⟩ := e
    rw [hcell v hv1] at hp ⊢
    exact ⟨hv1, hp, rfl, hnl⟩
  subst hcells
  refine ⟨_, _, heap2, build_tree_open qsort bytes hb [] _ heap2 hbuild, ?_, ?_, ?_, ?_⟩
  · intro v hv h0
    exact (hLT.2 v hv).2 (fun h => by rw [hcell v hv, h0] at h; exact absurd h.2 (by omega))
  · intro v hv hpos
    obtain ⟨c, h1, hmem⟩ := hall v hv hpos
    have hm2 : PTree.leaf c v (bytes.count v) ∈ forest_leaves ts2 := hperm2.symm.subset hmem
    obtain ⟨t, ht, hu⟩ : ∃ t ∈ ts2, PTree.leaf c v (bytes.count v) ∈ t.leaf_list := by
      clear hf2 hperm2
      induction ts2 with
      | nil => exact absurd hm2 (by simp [forest_leaves])
      | cons t0 ts0 ih =>
        simp only [forest_leaves, List.mem_append] at hm2
        rcases hm2 with h | h
        · exact ⟨t0, by simp, h⟩
        · obtain ⟨t, ht, hu⟩ := ih h
          exact ⟨t, by simp [ht], hu⟩
    obtain ⟨par, hh⟩ := holds_leaf heap2 t none (hf2.2.2.2.1 t ht) _ hu
    refine ⟨c, par, h1, ?_⟩
    simpa [holds, PTree.node] using hh
  · intro hempty
    apply hnil
    rw [List.eq_nil_iff_forall_not_mem]
    intro t ht
    obtain ⟨c1, v1, e, hv1, hp, _⟩ := hleaf t ht
    rw [hcell v1 hv1, hempty] at hp
    simp at hp
  · intro hne
    obtain ⟨b0, hb0⟩ := List.exists_mem_of_ne_nil bytes hne
    obtain ⟨c0, _, hmem0⟩ := hall b0 (hb b0 hb0) (List.count_pos_iff.mpr hb0)
    obtain ⟨_, hlen, htake2, hholds, hnd⟩ := hf2
    have h1 : min ts.length 1 = 1 := by
      have := List.length_pos_of_mem hmem0
      omega
    rw [h1] at hlen htake2
    match ts2, hlen with
    | [t], _ =>
      have hroot : s2.getD 0 none = some t.cell := by
        have := congrArg (fun l => l[0]?) htake2
        simp only [List.getElem?_take, List.map_cons, List.map_nil] at this
        simp only [List.getD_eq_getElem?_getD]
        simp at this
        rw [this]; rfl
      have hh := hholds t (by simp)
      have hndt : t.cells.Nodup := by simpa [forest_cells] using hnd
      have hpermt : t.leaf_list.Perm ts := by simpa [forest_leaves] using hperm2
      have hmemt : ∀ u ∈ t.leaf_list, ∃ c v, u = PTree.leaf c v (bytes.count v) ∧
          nl[v]? = some (some c) := by
        intro u hu
        obtain ⟨c1, v1, e, hv1, _, hnl⟩ := hleaf u (hpermt.subset hu)
        rw [hcell v1 hv1] at e
        exact ⟨c1, v1, e, hnl⟩
      refine ⟨t, hroot, hh, ?_, ?_, ?_⟩
      · rw [symbols_eq_map]
        have hndl : t.leaf_list.Nodup :=
          List.Nodup.of_map PTree.cell ((leaf_cells_sublist t).nodup hndt)
        apply List.Nodup.map_on _ hndl
        intro x hx y hy hxy
        obtain ⟨cx, vx, rfl, hnx⟩ := hmemt x hx
        obtain ⟨cy, vy, rfl, hny⟩ := hmemt y hy
        simp only at hxy
        subst hxy
        rw [hnx] at hny
        simp only [Option.some.injEq] at hny
        subst hny
        rfl
      · intro v
        rw [symbols_eq_map, List.mem_map]
        constructor
        · rintro ⟨u, hu, rfl⟩
          obtain ⟨c1, v1, rfl, _⟩ := hmemt u hu
          exact (hleaf2 _ _ _ (hpermt.subset hu)).2.1
        · intro hpos
          have hv : v < 256 := hb v (List.count_pos_iff.mp hpos)
          obtain ⟨c, _, hmem⟩ := hall v hv hpos
          exact ⟨_, hpermt.symm.subset hmem, rfl⟩
      · intro c v w hu
        have := hleaf2 c v w (hpermt.subset hu)
        exact ⟨this.2.2.1, this.2.2.2⟩

theorem build_tree_leaves_witness :
    ∃ tree f heap, build_tree qsort_model (FILE.open [65, 66, 66]) []
        = Res.ok (some tree, f, heap) ∧
      (∀ v, v < 256 → [65, 66, 66].count v = 0 → tree.node_list[v]? = some none) ∧
      (∀ v, v < 256 → 0 < [65, 66, 66].count v → ∃ c par,
        tree.node_list[v]? = some (some c) ∧
        heap[c]? = some { ch := v, freq := [65, 66, 66].count v, parent := par, left := none,
                          right := none }) ∧
      (([65, 66, 66] : List Nat) = [] → tree.root = none) ∧
      (([65, 66, 66] : List Nat) ≠ [] → ∃ t : PTree, tree.root = some t.cell ∧
        holds heap none t = true ∧ t.symbols.Nodup ∧
        (∀ v, v ∈ t.symbols ↔ 0 < [65, 66, 66].count v) ∧
        ∀ c v w, PTree.leaf c v w ∈ t.leaf_list →
          w = [65, 66, 66].count v ∧ tree.node_list[v]? = some (some c)) :=
  build_tree_leaves qsort_model qsort_model_spec [65, 66, 66] (by decide)
    (fun v => lt_of_le_of_lt (List.count_le_length _ _) (by decide))

/-! ## Counts that reach `2^31 - 256` -/

theorem to_int_sub_large (v1 v2 : Nat) (h1 : 2 ^ 31 - 255 ≤ v1) (h1b : v1 ≤ 2 ^ 32 - 256)
    (h2 : 2 ^ 31 - 255 ≤ v2) (h2b : v2 ≤ 2 ^ 32 - 256) :
    to_int ((v2 + 2 ^ 32 - v1) % 2 ^ 32) = (v2 : Int) - (v1 : Int) := by
  unfold to_int
  split <;> omega

theorem compare_value_large (heap : Heap) (a : Option Nat)
    (ha : ∀ c, a = some c → 2 ^ 31 - 255 ≤ (heap.getD c NODE.zero).freq ∧
      (heap.getD c NODE.zero).freq < 2 ^ 32 - 256) :
    2 ^ 31 - 255 ≤ compare_value heap a ∧ compare_value heap a ≤ 2 ^ 32 - 256 ∧
    (a ≠ none → compare_value heap a < 2 ^ 32 - 256) ∧
    (a = none → compare_value heap a = 2 ^ 32 - 256) := by
  cases a with
  | none =>
    have e : compare_value heap none = 4294967040 := rfl
    rw [e]
    exact ⟨by omega, by omega, fun h => absurd rfl h, fun _ => by omega⟩
  | some c =>
    have h := ha c rfl
    have e : compare_value heap (some c) = (heap.getD c NODE.zero).freq % 2 ^ 32 := rfl
    rw [e]
    exact ⟨by omega, by omega, fun _ => by omega, fun h => absurd h (by simp)⟩

theorem build_tree_null_root
    (qsort : (Option Nat → Option Nat → Int) → List (Option Nat) → List (Option Nat))
    (hq : QsortSpec qsort) (bytes : List Nat) (hb : ∀ b ∈ bytes, b < 256)
    (hlarge : ∀ v, v < 256 → bytes.count v = 0 ∨
      (2 ^ 31 - 255 ≤ bytes.count v ∧ bytes.count v < 2 ^ 32 - 256))
    (hz : ∃ v, v < 256 ∧ bytes.count v = 0) :
    ∃ tree f heap, build_tree qsort (FILE.open bytes) [] = Res.ok (some tree, f, heap) ∧
      tree.root = none := by
  generalize hcells : add_counts (List.replicate MAX_CHAR 0) bytes = cells
  have hcell : ∀ v, v < 256 → cells.getD v 0 = bytes.count v := by
    intro v hv
    rw [← hcells]
    exact add_counts_small bytes hb v hv (by rcases hlarge v hv with h | h <;> omega)
  obtain ⟨nl, heap1, ts, s2, heap2, ts2, _, hLT, _, htslen, _, hbuild, _, _, hnil⟩ :=
    build_tree_nodes_spec qsort (fun cmp l => (hq cmp l).1) { cells := cells, stray := 1 } []
  simp only at hLT htslen
  generalize hs : qsort (compare_nodes heap1) nl = s at htslen
  have hperm : s.Perm nl := hs ▸ (hq _ _).1
  have hslen : s.length = 256 := by rw [hperm.length_eq, hLT.1]
  obtain ⟨_, _, hnn, _⟩ := count_nodes_spec s (MAX_CHAR + 1) 0 (by simp [MAX_CHAR]) (by omega)
  generalize count_nodes (MAX_CHAR + 1) s 0 = nc at htslen hnn
  have hfreq : ∀ p ∈ nl, ∀ c, p = some c →
      2 ^ 31 - 255 ≤ (heap1.getD c NODE.zero).freq ∧
        (heap1.getD c NODE.zero).freq < 2 ^ 32 - 256 := by
    intro p hp c hpc
    subst hpc
    obtain ⟨v, hv⟩ := List.getElem?_of_mem hp
    obtain ⟨h1, h2, h3⟩ := leaf_table_entry _ _ _ hLT v c hv
    rw [List.getD_eq_getElem?_getD, h3, Option.getD_some]
    simp only
    rw [hcell v h1] at h2 ⊢
    rcases hlarge v h1 with h | h
    · omega
    · exact h
  have hcmp : ∀ a ∈ nl, ∀ b ∈ nl, compare_nodes heap1 a b
      = (compare_value heap1 b : Int) - (compare_value heap1 a : Int) := by
    intro a ha b hb2
    obtain ⟨a1, a2, _, _⟩ := compare_value_large heap1 a (hfreq a ha)
    obtain ⟨b1, b2, _, _⟩ := compare_value_large heap1 b (hfreq b hb2)
    exact to_int_sub_large _ _ a1 a2 b1 b2
  have hsorted : s.Pairwise (fun a b => compare_nodes heap1 a b ≤ 0) := by
    rw [← hs]
    refine (hq (compare_nodes heap1) nl).2 (fun a ha b hb2 => ?_) (fun a ha b hb2 c hc2 => ?_)
    · rw [hcmp a ha b hb2, hcmp b hb2 a ha]
      omega
    · rw [hcmp a ha b hb2, hcmp b hb2 c hc2, hcmp a ha c hc2]
      omega
  have hnone_mem : none ∈ s := by
    obtain ⟨v, hv, h0⟩ := hz
    have := (hLT.2 v hv).2 (fun h => by rw [hcell v hv, h0] at h; exact absurd h.2 (by omega))
    exact hperm.symm.subset (List.getElem?_mem this)
  have hfirst : s.getD 0 none = none := by
    cases s with
    | nil => rfl
    | cons x rest =>
      cases x with
      | none => rfl
      | some c =>
        exfalso
        have hmem : none ∈ rest := by
          rcases List.mem_cons.mp hnone_mem with h | h
          · exact absurd h (by simp)
          · exact h
        have hrel := (List.pairwise_cons.mp hsorted).1 none hmem
        have hx : some c ∈ nl := hperm.subset (List.mem_cons_self _ _)
        have hn : none ∈ nl := hperm.subset hnone_mem
        rw [hcmp _ hx _ hn] at hrel
        obtain ⟨_, _, a3, _⟩ := compare_value_large heap1 (some c) (hfreq _ hx)
        obtain ⟨_, _, _, b4⟩ := compare_value_large heap1 none (hfreq _ hn)
        have := a3 (by simp)
        have := b4 rfl
        omega
  have hnc : nc = 0 := by
    by_contra hne
    exact hnn 0 (le_refl _) (by omega) hfirst
  subst hcells
  refine ⟨_, _, heap2, build_tree_open qsort bytes hb [] _ heap2 hbuild, ?_⟩
  exact hnil (List.length_eq_zero.mp (by rw [htslen, hnc]))

/-- Claim C14 fails on the input of `2^31` bytes 65 followed by `2^31 - 1`
bytes 66 (non-empty, length `2^32 - 1`), with every conforming `qsort`:
`compare_nodes` orders the null entries before both leaves, `node_count`
is 0, and `build_tree` returns a tree whose root is null, which is no strict
binary tree at all. -/
theorem build_tree_no_tree_on_large_counts
    (qsort : (Option Nat → Option Nat → Int) → List (Option Nat) → List (Option Nat))
    (hq : QsortSpec qsort) :
    (List.replicate (2 ^ 31) 65 ++ List.replicate (2 ^ 31 - 1) 66).length = 2 ^ 32 - 1 ∧
    ∃ tree f heap,
      build_tree qsort (FILE.open (List.replicate (2 ^ 31) 65 ++ List.replicate (2 ^ 31 - 1) 66))
        [] = Res.ok (some tree, f, heap) ∧
      tree.root = none := by
  refine ⟨?_, build_tree_null_root qsort hq _ ?_ ?_ ⟨0, by decide, ?_⟩⟩
  · rw [List.length_append, List.length_replicate, List.length_replicate]
    rfl
  · intro b hb
    rw [List.mem_append, List.mem_replicate, List.mem_replicate] at hb
    omega
  · intro v _
    rw [List.count_append, List.count_replicate, List.count_replicate]
    by_cases h1 : v = 65
    · subst h1
      right
      rw [if_pos (by decide), if_neg (by decide)]
      exact ⟨by decide, by decide⟩
    · by_cases h2 : v = 66
      · subst h2
        right
        rw [if_neg (by decide), if_pos (by decide)]
        exact ⟨by decide, by decide⟩
      · left
        rw [if_neg (by simpa using Ne.symm h1), if_neg (by simpa using Ne.symm h2)]
  · rw [List.count_append, List.count_replicate, List.count_replicate,
      if_neg (by decide), if_neg (by decide)]

theorem build_tree_no_tree_on_large_counts_witness :
    (List.replicate (2 ^ 31) 65 ++ List.replicate (2 ^ 31 - 1) 66).length = 2 ^ 32 - 1 ∧
    ∃ tree f heap,
      build_tree qsort_model
        (FILE.open (List.replicate (2 ^ 31) 65 ++ List.replicate (2 ^ 31 - 1) 66))
        [] = Res.ok (some tree, f, heap) ∧
      tree.root = none :=
  build_tree_no_tree_on_large_counts qsort_model qsort_model_spec

theorem build_tree_wraps (x : List Nat) (hx : ∀ b ∈ x, b < 256)
    (hc : add_counts (List.replicate MAX_CHAR 0) x = add_counts (List.replicate MAX_CHAR 0) []) :
    build_tree qsort_model (FILE.open x) []
      = Res.ok (some { root := none, node_list := List.replicate 256 none },
          { content := x, pos := x.length, eof := true }, []) :=
  build_tree_open qsort_model x hx [] _ _ (hc ▸ build_tree_nodes_no_counts)

set_option maxRecDepth 100000 in
/-- Counterexample to C15 as stated: on the input of `2^32` bytes 65 the
32-bit counter of 65 wraps around to 0, so `build_tree` makes no leaf for the
value 65 although it occurs: `node_list` is null at every index and so is the
root. -/
theorem build_tree_count_wraps :
    (List.replicate (2 ^ 32) 65).count 65 = 2 ^ 32 ∧
    build_tree qsort_model (FILE.open (List.replicate (2 ^ 32) 65)) []
      = Res.ok (some { root := none, node_list := List.replicate 256 none },
          { content := List.replicate (2 ^ 32) 65, pos := (List.replicate (2 ^ 32) 65).length,
            eof := true }, []) := by
  refine ⟨List.count_replicate_self _ _, build_tree_wraps _ ?_ ?_⟩
  · intro b hb
    rw [List.mem_replicate] at hb
    omega
  · rcases add_counts_replicate (2 ^ 32) 65 (List.replicate MAX_CHAR 0) (by decide) with h | h
    · rw [h]
      decide
    · exact absurd h (by decide)

/-! ## Array indices, the `ftell` test and the comparison function -/

theorem count_nodes_full (s : List (Option Nat)) (hs : ∀ j, j < 256 → s.getD j none ≠ none) :
    ∀ (fuel k : Nat), fuel + k = 257 → k ≤ 256 →
    count_nodes fuel s k = count_nodes 1 s 256 := by
  intro fuel
  induction fuel with
  | zero => intro k h1 h2; omega
  | succ fuel ih =>
    intro k h1 h2
    by_cases hk : k = 256
    · subst hk
      have : fuel = 0 := by omega
      subst this
      rfl
    · rw [count_nodes, if_pos ⟨hs k (by omega), by simp only [MAX_CHAR]; omega⟩]
      exact ih (k + 1) (by omega) (by omega)

/-- Claim C21 fails on every input. In `calc_freq_table` the iteration that
meets the end of the input stores through `freq_table[EOF]`, index -1: the
count of stores outside the table is 1 after the pass. In the payload loop of
`encode` the stream that has delivered every byte is not yet at end of file;
`fgetc` returns -1 there and the loop hands `tree->node_list[-1]`, which is
the member `root`, to `put_node`. In the counting loop of `build_tree`, when
none of the 256 entries is null, the test is evaluated once more with
`node_count = 256`, where it reads `sorted_nodes[256]`, one element past the
array. -/
theorem encode_indexes_out_of_bounds (bytes : List Nat) (hb : ∀ b ∈ bytes, b < 256) :
    (∃ f cells, calc_freq_table (FILE.open bytes)
      = Res.ok (SUCCESS, f, { cells := cells, stray := 1 })) ∧
    (feof { content := bytes, pos := bytes.length, eof := false } = false ∧
     (fgetc { content := bytes, pos := bytes.length, eof := false }).1 = -1 ∧
     ∀ (heap : Heap) (tree : TREE) (fuel : Nat) (bs : BITSTREAM),
      tree.node_list_at (fgetc { content := bytes, pos := bytes.length, eof := false }).1
        = Res.ok tree.root ∧
      encode_loop heap tree (fuel + 2) { content := bytes, pos := bytes.length, eof := false } bs
        = (match put_node heap (heap.length + 1) bs tree.root with
           | Res.fault e => Res.fault e
           | Res.ok w =>
             if w.1 = FAILURE then
               Res.ok (FAILURE, false, { content := bytes, pos := bytes.length, eof := true }, w.2)
             else
               Res.ok (SUCCESS, false, { content := bytes, pos := bytes.length, eof := true },
                 w.2))) ∧
    (∀ s : List (Option Nat), s.length = 256 → (∀ j, j < 256 → s.getD j none ≠ none) →
      count_nodes (MAX_CHAR + 1) s 0 = count_nodes 1 s 256 ∧
      count_nodes 1 s 256
        = (if s.getD 256 none ≠ none ∧ 256 < MAX_CHAR then count_nodes 0 s 257 else 256) ∧
      s[256]? = none) := by
  have hget : bytes[bytes.length]? = none := List.getElem?_eq_none (le_refl _)
  have hfg : fgetc { content := bytes, pos := bytes.length, eof := false }
      = (-1, { content := bytes, pos := bytes.length, eof := true }) := by
    simp only [fgetc, hget, EOF]
  refine ⟨⟨_, _, calc_freq_table_open bytes hb (FILE.open bytes) rfl⟩, ⟨rfl, ?_, ?_⟩, ?_⟩
  · rw [hfg]
  · intro heap tree fuel bs
    refine ⟨by rw [hfg]; rfl, ?_⟩
    rw [encode_loop]
    simp only [feof, Bool.false_eq_true, if_false, hfg, ferror_false, and_false]
    have hn : tree.node_list_at (-1) = Res.ok tree.root := rfl
    rw [hn]
    simp only
    cases put_node heap (heap.length + 1) bs tree.root with
    | fault e => rfl
    | ok w =>
      simp only
      by_cases hw : w.1 = FAILURE
      · simp only [hw, if_true]
      · simp only [hw, if_false]
        rw [encode_loop]
        simp only [feof, if_true]
  · intro s hlen hs
    refine ⟨count_nodes_full s hs _ 0 rfl (by omega), rfl, ?_⟩
    exact List.getElem?_eq_none (by omega)

theorem encode_indexes_out_of_bounds_witness :
    (∃ f cells, calc_freq_table (FILE.open [65, 66])
      = Res.ok (SUCCESS, f, { cells := cells, stray := 1 })) ∧
    (feof { content := [65, 66], pos := [65, 66].length, eof := false } = false ∧
     (fgetc { content := [65, 66], pos := [65, 66].length, eof := false }).1 = -1 ∧
     ∀ (heap : Heap) (tree : TREE) (fuel : Nat) (bs : BITSTREAM),
      tree.node_list_at (fgetc { content := [65, 66], pos := [65, 66].length, eof := false }).1
        = Res.ok tree.root ∧
      encode_loop heap tree (fuel + 2)
          { content := [65, 66], pos := [65, 66].length, eof := false } bs
        = (match put_node heap (heap.length + 1) bs tree.root with
           | Res.fault e => Res.fault e
           | Res.ok w =>
             if w.1 = FAILURE then
               Res.ok (FAILURE, false,
                 { content := [65, 66], pos := [65, 66].length, eof := true }, w.2)
             else
               Res.ok (SUCCESS, false,
                 { content := [65, 66], pos := [65, 66].length, eof := true }, w.2))) ∧
    (∀ s : List (Option Nat), s.length = 256 → (∀ j, j < 256 → s.getD j none ≠ none) →
      count_nodes (MAX_CHAR + 1) s 0 = count_nodes 1 s 256 ∧
      count_nodes 1 s 256
        = (if s.getD 256 none ≠ none ∧ 256 < MAX_CHAR then count_nodes 0 s 257 else 256) ∧
      s[256]? = none) :=
  encode_indexes_out_of_bounds [65, 66] (by decide)

theorem put_node_success (heap : Heap) : ∀ (fuel : Nat) (bs : BITSTREAM) (node : Option Nat)
    (w : Nat × BITSTREAM), put_node heap fuel bs node = Res.ok w → w.1 = SUCCESS := by
  intro fuel
  induction fuel with
  | zero => intro bs node w h; exact absurd h (by simp [put_node])
  | succ fuel ih =>
    intro bs node w h
    rw [put_node] at h
    cases hd : deref heap node with
    | fault e => rw [hd] at h; exact absurd h (by simp)
    | ok n =>
      rw [hd] at h
      simp only at h
      by_cases hp : n.parent ≠ none
      · rw [if_pos hp] at h
        cases hd2 : deref heap n.parent with
        | fault e => rw [hd2] at h; exact absurd h (by simp)
        | ok p =>
          rw [hd2] at h
          simp only at h
          have hr : ∀ r, (if p.parent ≠ none then put_node heap fuel bs n.parent
              else Res.ok (SUCCESS, bs)) = Res.ok r → r.1 = SUCCESS := by
            intro r hr
            by_cases hpp : p.parent ≠ none
            · rw [if_pos hpp] at hr
              exact ih _ _ _ hr
            · rw [if_neg hpp] at hr
              simp only [Res.ok.injEq] at hr
              rw [← hr]
          cases hq : (if p.parent ≠ none then put_node heap fuel bs n.parent
              else Res.ok (SUCCESS, bs)) with
          | fault e => rw [hq] at h; exact absurd h (by simp)
          | ok r =>
            rw [hq] at h
            have h1 := hr r hq
            simp only [h1, SUCCESS, FAILURE, Nat.zero_ne_one, if_false, Res.ok.injEq] at h
            rw [← h]
            exact bs_write_bit_code _ _
      · rw [if_neg hp] at h
        simp only [Res.ok.injEq] at h
        rw [← h]

theorem encode_loop_eof (heap : Heap) (tree : TREE) : ∀ (fuel : Nat) (f : FILE)
    (bs : BITSTREAM) (c : Nat) (early : Bool) (f2 : FILE) (bs2 : BITSTREAM),
    encode_loop heap tree fuel f bs = Res.ok (c, early, f2, bs2) → f2.eof = true := by
  intro fuel
  induction fuel with
  | zero => intro f bs c early f2 bs2 h; exact absurd h (by simp [encode_loop])
  | succ fuel ih =>
    intro f bs c early f2 bs2 h
    rw [encode_loop] at h
    by_cases he : feof f = true
    · rw [if_pos he] at h
      simp only [Res.ok.injEq, Prod.mk.injEq] at h
      rw [← h.2.2.1]
      exact he
    · rw [if_neg he] at h
      simp only [ferror_false, Bool.false_eq_true, and_false, if_false] at h
      cases hn : tree.node_list_at (fgetc f).1 with
      | fault e => rw [hn] at h; exact absurd h (by simp)
      | ok node =>
        rw [hn] at h
        simp only at h
        cases hp : put_node heap (heap.length + 1) bs node with
        | fault e => rw [hp] at h; exact absurd h (by simp)
        | ok w =>
          rw [hp] at h
          have hw := put_node_success heap _ _ _ _ hp
          simp only [hw, SUCCESS, FAILURE, Nat.zero_ne_one, if_false] at h
          exact ih _ _ _ _ _ _ h

/-- Claim C22. For an input of exactly one byte `encode` returns `FAILURE`
with the sink as it was, the input stream standing after the byte: the
position that `ftell` reports is 1, the value the test takes for the error.
The test `s == 1` holds for no other input length; for every other input
`encode` goes on to read the input, so that whenever it returns, the input
stream is at end of file. -/
theorem encode_ftell_test (ulong_bits : Nat)
    (qsort : (Option Nat → Option Nat → Int) → List (Option Nat) → List (Option Nat))
    (bytes : List Nat) (hb : ∀ b ∈ bytes, b < 256) (out : FILE) :
    (ftell (fseek_end (FILE.open bytes)).2 = 1 ↔ bytes.length = 1) ∧
    (bytes.length = 1 →
      encode ulong_bits qsort (FILE.open bytes) out
        = Res.ok (FAILURE, { content := bytes, pos := 1, eof := false }, out)) ∧
    (bytes.length ≠ 1 → ∀ c f o,
      encode ulong_bits qsort (FILE.open bytes) out = Res.ok (c, f, o) → f.eof = true) := by
  have hft : ftell (fseek_end (FILE.open bytes)).2 = (bytes.length : Int) := rfl
  refine ⟨by rw [hft]; omega, fun h1 => ?_, fun hne c f o h => ?_⟩
  · rw [encode]
    have hs : ftell (fseek_end (FILE.open bytes)).2 = 1 := by rw [hft]; omega
    simp only [fseek_end, ne_eq, not_true_eq_false, if_false] at hs ⊢
    rw [if_pos hs]
    simp [bs_destroy, bs_create, FILE.open, h1]
  · have hs : ¬ (ftell (fseek_end (FILE.open bytes)).2 = 1) := by rw [hft]; omega
    have hfreq := calc_freq_table_open bytes hb (fseek_end (FILE.open bytes)).2 rfl
    rw [encode] at h
    simp only [fseek_end, ne_eq, not_true_eq_false, if_false] at hs hfreq h
    rw [if_neg hs] at h
    simp only [put_length_code, SUCCESS, FAILURE, Nat.zero_ne_one, if_false] at h hfreq
    simp only [build_tree, hfreq, SUCCESS, FAILURE, Nat.zero_ne_one, if_false] at h
    cases hb2 : build_tree_nodes qsort
        { cells := add_counts (List.replicate MAX_CHAR 0) bytes, stray := 1 } [] with
    | fault e => rw [hb2] at h; exact absurd h (by simp)
    | ok r =>
      obtain ⟨tree, heap⟩ := r
      rw [hb2] at h
      cases tree with
      | none =>
        simp only [Res.ok.injEq, Prod.mk.injEq] at h
        rw [← h.2.1]
      | some tree =>
        simp only at h
        cases hpt : put_tree heap (heap.length + 1)
            (put_length ulong_bits (bs_create out BITSTREAMMODE.WRITE)
              ((ftell { content := bytes, pos := bytes.length, eof := false }).toNat
                % 2 ^ ulong_bits)).2 tree.root with
        | fault e => simp only [FILE.open] at h; rw [hpt] at h; exact absurd h (by simp)
        | ok pt =>
          simp only [FILE.open] at h
          rw [hpt] at h
          simp only at h
          by_cases hpf : pt.1 = 1
          · rw [if_pos hpf] at h
            simp only [Res.ok.injEq, Prod.mk.injEq] at h
            rw [← h.2.1]
          · rw [if_neg hpf] at h
            cases hl : encode_loop heap tree (bytes.length + 2)
                (rewind { content := bytes, pos := bytes.length, eof := true }) pt.2 with
            | fault e => rw [hl] at h; exact absurd h (by simp)
            | ok q =>
              obtain ⟨c2, early, f2, bs2⟩ := q
              rw [hl] at h
              have he := encode_loop_eof heap tree _ _ _ _ _ _ _ hl
              simp only at h
              by_cases hc : c2 = 1
              · rw [if_pos hc] at h
                simp only [Res.ok.injEq, Prod.mk.injEq] at h
                rw [← h.2.1]; exact he
              · rw [if_neg hc] at h
                simp only [Res.ok.injEq, Prod.mk.injEq] at h
                rw [← h.2.1]; exact he

theorem encode_ftell_test_witness :
    encode 32 qsort_model (FILE.open [65]) (FILE.open [])
      = Res.ok (FAILURE, { content := [65], pos := 1, eof := false }, FILE.open []) ∧
    ((ftell (fseek_end (FILE.open [65, 66])).2 = 1 ↔ [65, 66].length = 1) ∧
     ∀ c f o, encode 32 qsort_model (FILE.open [65, 66]) (FILE.open []) = Res.ok (c, f, o) →
      f.eof = true) :=
  ⟨(encode_ftell_test 32 qsort_model [65] (by decide) (FILE.open [])).2.1 rfl,
   (encode_ftell_test 32 qsort_model [65, 66] (by decide) (FILE.open [])).1,
   (encode_ftell_test 32 qsort_model [65, 66] (by decide) (FILE.open [])).2.2 (by decide)⟩

/-- Claim C23 fails for frequencies from `2^31 - 256` up, where the unsigned
difference read as `int` has the wrong sign. For a node `x` with
`freq = 2^31` and `y` null the result is `2^31 - 256`, positive, although `x`
is a node and `y` is null, and the mirrored result is negative. For nodes
with `freq = 2^31 + 5` and `freq = 1` the result is `2^31 - 4`, positive,
although the first has the bigger `freq`, and the mirrored result is
negative. -/
theorem compare_nodes_wrong_sign :
    compare_nodes [{ ch := 65, freq := 2 ^ 31, parent := none, left := none, right := none }]
      (some 0) none = 2 ^ 31 - 256 ∧
    compare_nodes [{ ch := 65, freq := 2 ^ 31, parent := none, left := none, right := none }]
      none (some 0) = -(2 ^ 31 - 256) ∧
    compare_nodes
      [{ ch := 65, freq := 2 ^ 31 + 5, parent := none, left := none, right := none },
       { ch := 66, freq := 1, parent := none, left := none, right := none }]
      (some 0) (some 1) = 2 ^ 31 - 4 ∧
    compare_nodes
      [{ ch := 65, freq := 2 ^ 31 + 5, parent := none, left := none, right := none },
       { ch := 66, freq := 1, parent := none, left := none, right := none }]
      (some 1) (some 0) = -(2 ^ 31 - 4) := by
  decide

/-! ## The merge sort -/

theorem merge_runs_perm (cmp : Option Nat → Option Nat → Int) : ∀ (fuel : Nat)
    (xs ys : List (Option Nat)), (merge_runs cmp fuel xs ys).Perm (xs ++ ys) := by
  intro fuel
  induction fuel with
  | zero => intro xs ys; exact List.Perm.refl _
  | succ fuel ih =>
    intro xs ys
    cases xs with
    | nil => simp [merge_runs]
    | cons x xs =>
      cases ys with
      | nil => simp [merge_runs]
      | cons y ys =>
        rw [merge_runs]
        split
        · exact List.Perm.cons x (ih xs (y :: ys))
        · refine (List.Perm.cons y (ih (x :: xs) ys)).trans ?_
          have hm : (y :: ((x :: xs) ++ ys)).Perm ((x :: xs) ++ y :: ys) :=
            List.perm_middle.symm
          exact hm

theorem msort_perm (cmp : Option Nat → Option Nat → Int) : ∀ (fuel : Nat)
    (l : List (Option Nat)), (msort cmp fuel l).Perm l := by
  intro fuel
  induction fuel with
  | zero => intro l; exact List.Perm.refl _
  | succ fuel ih =>
    intro l
    rw [msort]
    split
    · exact List.Perm.refl _
    · refine (merge_runs_perm cmp _ _ _).trans ?_
      have h := List.Perm.append (ih (l.take (l.length / 2))) (ih (l.drop (l.length / 2)))
      rw [List.take_append_drop] at h
      exact h

theorem merge_runs_pairwise (cmp : Option Nat → Option Nat → Int) (mem : Option Nat → Prop)
    (htot : ∀ a, mem a → ∀ b, mem b → (cmp a b ≤ 0 ∨ cmp b a ≤ 0))
    (htr : ∀ a, mem a → ∀ b, mem b → ∀ c, mem c → cmp a b ≤ 0 → cmp b c ≤ 0 → cmp a c ≤ 0) :
    ∀ (fuel : Nat) (xs ys : List (Option Nat)), xs.length + ys.length ≤ fuel →
    (∀ z ∈ xs, mem z) → (∀ z ∈ ys, mem z) →
    xs.Pairwise (fun a b => cmp a b ≤ 0) → ys.Pairwise (fun a b => cmp a b ≤ 0) →
    (merge_runs cmp fuel xs ys).Pairwise (fun a b => cmp a b ≤ 0) := by
  intro fuel
  induction fuel with
  | zero =>
    intro xs ys hf _ _ _ _
    have h1 : xs = [] := List.length_eq_zero.mp (by omega)
    have h2 : ys = [] := List.length_eq_zero.mp (by omega)
    subst h1; subst h2
    simp [merge_runs]
  | succ fuel ih =>
    intro xs ys hf hxm hym hxs hys
    cases xs with
    | nil => simpa [merge_runs] using hys
    | cons x xs =>
      cases ys with
      | nil => simpa [merge_runs] using hxs
      | cons y ys =>
        have hx := hxm x (List.mem_cons_self _ _)
        have hy := hym y (List.mem_cons_self _ _)
        have hxm2 : ∀ z ∈ xs, mem z := fun z hz => hxm z (List.mem_cons_of_mem _ hz)
        have hym2 : ∀ z ∈ ys, mem z := fun z hz => hym z (List.mem_cons_of_mem _ hz)
        have hxs2 := List.pairwise_cons.mp hxs
        have hys2 := List.pairwise_cons.mp hys
        simp only [List.length_cons] at hf
        rw [merge_runs]
        split
        · rename_i hxy
          rw [List.pairwise_cons]
          refine ⟨fun z hz => ?_, ih xs (y :: ys) (by simp only [List.length_cons]; omega)
            hxm2 hym hxs2.2 hys⟩
          have hz2 := (merge_runs_perm cmp fuel xs (y :: ys)).subset hz
          rcases List.mem_append.mp hz2 with h | h
          · exact hxs2.1 z h
          · rcases List.mem_cons.mp h with e | e
            · subst e; exact hxy
            · exact htr x hx y hy z (hym2 z e) hxy (hys2.1 z e)
        · rename_i hxy
          have hyx : cmp y x ≤ 0 := by
            rcases htot x hx y hy with h | h
            · exact absurd h hxy
            · exact h
          rw [List.pairwise_cons]
          refine ⟨fun z hz => ?_, ih (x :: xs) ys (by simp only [List.length_cons]; omega)
            hxm hym2 hxs hys2.2⟩
          have hz2 := (merge_runs_perm cmp fuel (x :: xs) ys).subset hz
          rcases List.mem_append.mp hz2 with h | h
          · rcases List.mem_cons.mp h with e | e
            · subst e; exact hyx
            · exact htr y hy x hx z (hxm2 z e) hyx (hxs2.1 z e)
          · exact hys2.1 z h

theorem msort_length (cmp : Option Nat → Option Nat → Int) (fuel : Nat)
    (l : List (Option Nat)) : (msort cmp fuel l).length = l.length :=
  (msort_perm cmp fuel l).length_eq

theorem msort_pairwise (cmp : Option Nat → Option Nat → Int) (mem : Option Nat → Prop)
    (htot : ∀ a, mem a → ∀ b, mem b → (cmp a b ≤ 0 ∨ cmp b a ≤ 0))
    (htr : ∀ a, mem a → ∀ b, mem b → ∀ c, mem c → cmp a b ≤ 0 → cmp b c ≤ 0 → cmp a c ≤ 0) :
    ∀ (fuel : Nat) (l : List (Option Nat)), l.length ≤ fuel + 1 → (∀ z ∈ l, mem z) →
    (msort cmp fuel l).Pairwise (fun a b => cmp a b ≤ 0) := by
  intro fuel
  induction fuel with
  | zero =>
    intro l hl _
    rw [msort]
    match l, hl with
    | [], _ => exact List.Pairwise.nil
    | [a], _ => exact List.pairwise_singleton _ _
  | succ fuel ih =>
    intro l hl hmem
    rw [msort]
    split
    · rename_i h1
      match l, h1 with
      | [], _ => exact List.Pairwise.nil
      | [a], _ => exact List.pairwise_singleton _ _
    · rename_i h1
      have hlt : l.length / 2 < l.length := Nat.div_lt_self (by omega) (by omega)
      have hpos : 0 < l.length / 2 := Nat.div_pos (by omega) (by omega)
      refine merge_runs_pairwise cmp mem htot htr _ _ _ ?_ ?_ ?_ ?_ ?_
      · rw [msort_length, msort_length, List.length_take, List.length_drop]
        omega
      · exact fun z hz => hmem z (List.take_subset _ _ ((msort_perm cmp fuel _).subset hz))
      · exact fun z hz => hmem z (List.drop_subset _ _ ((msort_perm cmp fuel _).subset hz))
      · exact ih _ (by rw [List.length_take]; omega)
          (fun z hz => hmem z (List.take_subset _ _ hz))
      · exact ih _ (by rw [List.length_drop]; omega)
          (fun z hz => hmem z (List.drop_subset _ _ hz))

theorem qsort_merge_spec : QsortSpec qsort_merge := by
  intro cmp l
  exact ⟨msort_perm cmp _ l, fun htot htr =>
    msort_pairwise cmp (fun a => a ∈ l) htot htr _ l (by omega) (fun z hz => hz)⟩

/-! ## A count that reaches `2^31 - 256` next to small counts -/

set_option maxRecDepth 1000000 in
theorem build_tree_nodes_orphans :
    build_tree_nodes qsort_merge
      { cells := ((((List.replicate 256 0).set 0 (2 ^ 31 - 200)).set 1 1).set 254 3).set 255 2,
        stray := 1 } []
      = Res.ok (some { root := some 4,
                       node_list := ((((List.replicate 256 none).set 0 (some 0)).set 1
                          (some 1)).set 254 (some 2)).set 255 (some 3) },
          [{ ch := 0, freq := 2 ^ 31 - 200, parent := none, left := none, right := none },
           { ch := 1, freq := 1, parent := none, left := none, right := none },
           { ch := 254, freq := 3, parent := some 4, left := none, right := none },
           { ch := 255, freq := 2, parent := some 4, left := none, right := none },
           { ch := 0, freq := 5, parent := none, left := some 3, right := some 2 }]) := by
  decide

set_option maxRecDepth 100000 in
theorem add_counts_orphans :
    add_counts (List.replicate MAX_CHAR 0)
        (List.replicate (2 ^ 31 - 200) 0 ++ [1, 254, 254, 254, 255, 255])
      = ((((List.replicate 256 0).set 0 (2 ^ 31 - 200)).set 1 1).set 254 3).set 255 2 := by
  rw [add_counts_append]
  rcases add_counts_replicate (2 ^ 31 - 200) 0 (List.replicate MAX_CHAR 0) (by decide) with h | h
  · rw [h]
    decide
  · exact absurd h (by decide)

theorem orphans_input_bytes :
    ∀ b ∈ List.replicate (2 ^ 31 - 200) 0 ++ [1, 254, 254, 254, 255, 255], b < 256 := by
  intro b hb
  rw [List.mem_append, List.mem_replicate] at hb
  rcases hb with h | h
  · omega
  · simp only [List.mem_cons, List.mem_singleton, List.not_mem_nil, or_false] at h
    omega

/-- Claim C13 fails on the input of `2^31 - 200` bytes 0 followed by the bytes
1, 254, 254, 254, 255, 255 (length `2^31 - 194`), with the merge sort of the
C library: `compare_nodes` does not order the leaf of 0 against the null
entries as it orders the other leaves, the sorted list starts with the leaves
of 254 and 255 followed by null entries, `node_count` is 2, and the tree that
`build_tree` returns has these two leaves only. Byte 254, which occurs 3
times, has depth 1 (`put_node` writes the bit 1), while byte 1, which occurs
once, and byte 0, which occurs `2^31 - 200` times, have no leaf in the tree:
`node_list` points to parentless nodes for them, `put_node` writes no bit. -/
theorem build_tree_omits_leaves :
    QsortSpec qsort_merge ∧
    (List.replicate (2 ^ 31 - 200) 0 ++ [1, 254, 254, 254, 255, 255]).length < 2 ^ 31 ∧
    (List.replicate (2 ^ 31 - 200) 0 ++ [1, 254, 254, 254, 255, 255]).count 254 = 3 ∧
    (List.replicate (2 ^ 31 - 200) 0 ++ [1, 254, 254, 254, 255, 255]).count 1 = 1 ∧
    build_tree qsort_merge
        (FILE.open (List.replicate (2 ^ 31 - 200) 0 ++ [1, 254, 254, 254, 255, 255])) []
      = Res.ok (some { root := some 4,
                       node_list := ((((List.replicate 256 none).set 0 (some 0)).set 1
                          (some 1)).set 254 (some 2)).set 255 (some 3) },
          { content := List.replicate (2 ^ 31 - 200) 0 ++ [1, 254, 254, 254, 255, 255],
            pos := (List.replicate (2 ^ 31 - 200) 0 ++ [1, 254, 254, 254, 255, 255]).length,
            eof := true },
          [{ ch := 0, freq := 2 ^ 31 - 200, parent := none, left := none, right := none },
           { ch := 1, freq := 1, parent := none, left := none, right := none },
           { ch := 254, freq := 3, parent := some 4, left := none, right := none },
           { ch := 255, freq := 2, parent := some 4, left := none, right := none },
           { ch := 0, freq := 5, parent := none, left := some 3, right := some 2 }]) ∧
    holds
        [{ ch := 0, freq := 2 ^ 31 - 200, parent := none, left := none, right := none },
         { ch := 1, freq := 1, parent := none, left := none, right := none },
         { ch := 254, freq := 3, parent := some 4, left := none, right := none },
         { ch := 255, freq := 2, parent := some 4, left := none, right := none },
         { ch := 0, freq := 5, parent := none, left := some 3, right := some 2 }]
        none (PTree.branch 4 0 5 (PTree.leaf 3 255 2) (PTree.leaf 2 254 3)) = true ∧
    (PTree.branch 4 0 5 (PTree.leaf 3 255 2) (PTree.leaf 2 254 3)).find 254
      = some (2, [true]) ∧
    (PTree.branch 4 0 5 (PTree.leaf 3 255 2) (PTree.leaf 2 254 3)).find 1 = none ∧
    (PTree.branch 4 0 5 (PTree.leaf 3 255 2) (PTree.leaf 2 254 3)).find 0 = none ∧
    (∀ ws, put_node
        [{ ch := 0, freq := 2 ^ 31 - 200, parent := none, left := none, right := none },
         { ch := 1, freq := 1, parent := none, left := none, right := none },
         { ch := 254, freq := 3, parent := some 4, left := none, right := none },
         { ch := 255, freq := 2, parent := some 4, left := none, right := none },
         { ch := 0, freq := 5, parent := none, left := some 3, right := some 2 }]
        6 ws (some 2) = Res.ok (bs_write_bits ws [true])) ∧
    (∀ ws, put_node
        [{ ch := 0, freq := 2 ^ 31 - 200, parent := none, left := none, right := none },
         { ch := 1, freq := 1, parent := none, left := none, right := none },
         { ch := 254, freq := 3, parent := some 4, left := none, right := none },
         { ch := 255, freq := 2, parent := some 4, left := none, right := none },
         { ch := 0, freq := 5, parent := none, left := some 3, right := some 2 }]
        6 ws (some 1) = Res.ok (bs_write_bits ws [])) := by
  refine ⟨qsort_merge_spec, ?_, ?_, ?_, ?_, by decide, by decide, by decide, by decide,
    fun ws => ?_, fun ws => ?_⟩
  · rw [List.length_append, List.length_replicate]
    decide
  · rw [List.count_append, List.count_replicate, if_neg (by decide)]
    rfl
  · rw [List.count_append, List.count_replicate, if_neg (by decide)]
    rfl
  · exact build_tree_open qsort_merge _ orphans_input_bytes [] _ _
      (add_counts_orphans ▸ build_tree_nodes_orphans)
  · exact put_node_code _ (PTree.branch 4 0 5 (PTree.leaf 3 255 2) (PTree.leaf 2 254 3))
      (by decide) (by decide) 254 2 [true] (by decide) 6 ws (by decide)
  · exact put_node_root _ (PTree.leaf 1 1 1) (by decide) 5 ws

/-! ## The order of the sorted list -/

theorem merge_runs_lead_mem (cmp : Option Nat → Option Nat → Int) : ∀ (fuel : Nat)
    (xs ys : List (Option Nat)) (z : Option Nat), xs.length + ys.length ≤ fuel →
    z ∈ (merge_runs cmp fuel xs ys).takeWhile Option.isSome →
    z ∈ xs.takeWhile Option.isSome ∨ z ∈ ys.takeWhile Option.isSome := by
  intro fuel
  induction fuel with
  | zero =>
    intro xs ys z hf hz
    have h1 : xs = [] := List.length_eq_zero.mp (by omega)
    have h2 : ys = [] := List.length_eq_zero.mp (by omega)
    subst h1; subst h2
    simp [merge_runs] at hz
  | succ fuel ih =>
    intro xs ys z hf hz
    cases xs with
    | nil => right; simpa [merge_runs] using hz
    | cons x xs =>
      cases ys with
      | nil => left; simpa [merge_runs] using hz
      | cons y ys =>
        simp only [List.length_cons] at hf
        rw [merge_runs] at hz
        split at hz
        · cases hx : x.isSome with
          | false => simp [List.takeWhile_cons, hx] at hz
          | true =>
            simp only [List.takeWhile_cons, hx, if_true, List.mem_cons] at hz ⊢
            rcases hz with e | e
            · exact Or.inl (Or.inl e)
            · rcases ih xs (y :: ys) z (by simp only [List.length_cons]; omega) e with h | h
              · exact Or.inl (Or.inr h)
              · exact Or.inr (by simpa [List.takeWhile_cons] using h)
        · cases hy : y.isSome with
          | false => simp [List.takeWhile_cons, hy] at hz
          | true =>
            simp only [List.takeWhile_cons, hy, if_true, List.mem_cons] at hz ⊢
            rcases hz with e | e
            · exact Or.inr (Or.inl e)
            · rcases ih (x :: xs) ys z (by simp only [List.length_cons]; omega) e with h | h
              · exact Or.inl (by simpa [List.takeWhile_cons] using h)
              · exact Or.inr (Or.inr h)

theorem lead_mem (xs : List (Option Nat)) (z : Option Nat)
    (h : z ∈ xs.takeWhile Option.isSome) : z ∈ xs ∧ z.isSome = true :=
  ⟨(List.takeWhile_sublist _).subset h, List.mem_takeWhile_imp h⟩

theorem merge_runs_lead_pairwise (cmp : Option Nat → Option Nat → Int)
    (mem : Option Nat → Prop)
    (htot : ∀ a, mem a → ∀ b, mem b → (cmp a b ≤ 0 ∨ cmp b a ≤ 0))
    (htr : ∀ a, mem a → ∀ b, mem b → ∀ c, mem c → cmp a b ≤ 0 → cmp b c ≤ 0 → cmp a c ≤ 0) :
    ∀ (fuel : Nat) (xs ys : List (Option Nat)), xs.length + ys.length ≤ fuel →
    (∀ z ∈ xs, z.isSome = true → mem z) → (∀ z ∈ ys, z.isSome = true → mem z) →
    (xs.takeWhile Option.isSome).Pairwise (fun a b => cmp a b ≤ 0) →
    (ys.takeWhile Option.isSome).Pairwise (fun a b => cmp a b ≤ 0) →
    ((merge_runs cmp fuel xs ys).takeWhile Option.isSome).Pairwise
      (fun a b => cmp a b ≤ 0) := by
  intro fuel
  induction fuel with
  | zero =>
    intro xs ys hf _ _ _ _
    have h1 : xs = [] := List.length_eq_zero.mp (by omega)
    have h2 : ys = [] := List.length_eq_zero.mp (by omega)
    subst h1; subst h2
    simp [merge_runs]
  | succ fuel ih =>
    intro xs ys hf hxm hym hxs hys
    cases xs with
    | nil => simpa [merge_runs] using hys
    | cons x xs =>
      cases ys with
      | nil => simpa [merge_runs] using hxs
      | cons y ys =>
        have hxm2 : ∀ z ∈ xs, z.isSome = true → mem z :=
          fun z hz => hxm z (List.mem_cons_of_mem _ hz)
        have hym2 : ∀ z ∈ ys, z.isSome = true → mem z :=
          fun z hz => hym z (List.mem_cons_of_mem _ hz)
        simp only [List.length_cons] at hf
        rw [merge_runs]
        split
        · rename_i hxy
          cases hx : x.isSome with
          | false => simp [List.takeWhile_cons, hx]
          | true =>
            have mx := hxm x (List.mem_cons_self _ _) hx
            simp only [List.takeWhile_cons, hx, if_true, List.pairwise_cons] at hxs ⊢
            refine ⟨fun z hz => ?_, ih xs (y :: ys) (by simp only [List.length_cons]; omega)
              hxm2 hym hxs.2 hys⟩
            rcases merge_runs_lead_mem cmp fuel xs (y :: ys) z
              (by simp only [List.length_cons]; omega) hz with h | h
            · exact hxs.1 z h
            · cases hy : y.isSome with
              | false => simp [List.takeWhile_cons, hy] at h
              | true =>
                have my := hym y (List.mem_cons_self _ _) hy
                simp only [List.takeWhile_cons, hy, if_true, List.mem_cons,
                  List.pairwise_cons] at h hys
                rcases h with e | e
                · subst e; exact hxy
                · have hz2 := lead_mem ys z e
                  exact htr x mx y my z (hym2 z hz2.1 hz2.2) hxy (hys.1 z e)
        · rename_i hxy
          cases hy : y.isSome with
          | false => simp [List.takeWhile_cons, hy]
          | true =>
            have my := hym y (List.mem_cons_self _ _) hy
            simp only [List.takeWhile_cons, hy, if_true, List.pairwise_cons] at hys ⊢
            refine ⟨fun z hz => ?_, ih (x :: xs) ys (by simp only [List.length_cons]; omega)
              hxm hym2 hxs hys.2⟩
            rcases merge_runs_lead_mem cmp fuel (x :: xs) ys z
              (by simp only [List.length_cons]; omega) hz with h | h
            · cases hx : x.isSome with
              | false => simp [List.takeWhile_cons, hx] at h
              | true =>
                have mx := hxm x (List.mem_cons_self _ _) hx
                have hyx : cmp y x ≤ 0 := by
                  rcases htot x mx y my with h1 | h1
                  · exact absurd h1 hxy
                  · exact h1
                simp only [List.takeWhile_cons, hx, if_true, List.mem_cons,
                  List.pairwise_cons] at h hxs
                rcases h with e | e
                · subst e; exact hyx
                · have hz2 := lead_mem xs z e
                  exact htr y my x mx z (hxm2 z hz2.1 hz2.2) hyx (hxs.1 z e)
            · exact hys.1 z h

theorem msort_lead_pairwise (cmp : Option Nat → Option Nat → Int) (mem : Option Nat → Prop)
    (htot : ∀ a, mem a → ∀ b, mem b → (cmp a b ≤ 0 ∨ cmp b a ≤ 0))
    (htr : ∀ a, mem a → ∀ b, mem b → ∀ c, mem c → cmp a b ≤ 0 → cmp b c ≤ 0 → cmp a c ≤ 0) :
    ∀ (fuel : Nat) (l : List (Option Nat)), l.length ≤ fuel + 1 →
    (∀ z ∈ l, z.isSome = true → mem z) →
    ((msort cmp fuel l).takeWhile Option.isSome).Pairwise (fun a b => cmp a b ≤ 0) := by
  have base : ∀ l : List (Option Nat), l.length ≤ 1 →
      (l.takeWhile Option.isSome).Pairwise (fun a b => cmp a b ≤ 0) := by
    intro l hl
    match l, hl with
    | [], _ => exact List.Pairwise.nil
    | [a], _ =>
      cases ha : a.isSome with
      | false => simp [List.takeWhile_cons, ha]
      | true => simp [List.takeWhile_cons, ha]
  intro fuel
  induction fuel with
  | zero =>
    intro l hl _
    rw [msort]
    exact base l (by omega)
  | succ fuel ih =>
    intro l hl hmem
    rw [msort]
    split
    · rename_i h1
      exact base l h1
    · rename_i h1
      have hlt : l.length / 2 < l.length := Nat.div_lt_self (by omega) (by omega)
      have hpos : 0 < l.length / 2 := Nat.div_pos (by omega) (by omega)
      refine merge_runs_lead_pairwise cmp mem htot htr _ _ _ ?_ ?_ ?_ ?_ ?_
      · rw [msort_length, msort_length, List.length_take, List.length_drop]
        omega
      · exact fun z hz => hmem z (List.take_subset _ _ ((msort_perm cmp fuel _).subset hz))
      · exact fun z hz => hmem z (List.drop_subset _ _ ((msort_perm cmp fuel _).subset hz))
      · exact ih _ (by rw [List.length_take]; omega)
          (fun z hz => hmem z (List.take_subset _ _ hz))
      · exact ih _ (by rw [List.length_drop]; omega)
          (fun z hz => hmem z (List.drop_subset _ _ hz))

theorem take_of_lead (l : List (Option Nat)) : ∀ (n : Nat),
    (∀ p ∈ l.take n, p.isSome = true) →
    l.take n = (l.takeWhile Option.isSome).take n := by
  induction l with
  | nil => intro n _; simp
  | cons x xs ih =>
    intro n h
    cases n with
    | zero => simp
    | succ n =>
      have hx : x.isSome = true := h x (by simp)
      simp only [List.take_succ_cons, List.takeWhile_cons, hx, if_true]
      rw [ih n (fun p hp => h p (by simp [hp]))]

theorem compare_nodes_some (heap : Heap) (a b : Nat)
    (ha : (heap.getD a NODE.zero).freq < 2 ^ 31) (hb : (heap.getD b NODE.zero).freq < 2 ^ 31) :
    compare_nodes heap (some a) (some b)
      = ((heap.getD b NODE.zero).freq : Int) - ((heap.getD a NODE.zero).freq : Int) := by
  have e1 : compare_value heap (some a) = (heap.getD a NODE.zero).freq % 2 ^ 32 := rfl
  have e2 : compare_value heap (some b) = (heap.getD b NODE.zero).freq % 2 ^ 32 := rfl
  have m1 : (heap.getD a NODE.zero).freq % 2 ^ 32 = (heap.getD a NODE.zero).freq :=
    Nat.mod_eq_of_lt (by omega)
  have m2 : (heap.getD b NODE.zero).freq % 2 ^ 32 = (heap.getD b NODE.zero).freq :=
    Nat.mod_eq_of_lt (by omega)
  rw [compare_nodes, e1, e2, m1, m2]
  exact to_int_sub _ _ _ _ (by omega) (by omega) (by rw [if_pos ha]) (by rw [if_pos hb])
    ⟨by omega, by omega⟩

theorem getD_of_getElem? (heap : Heap) (c : Nat) (n : NODE) (h : heap[c]? = some n) :
    heap.getD c NODE.zero = n := by
  rw [List.getD_eq_getElem?_getD, h, Option.getD_some]

theorem add_node_ordered (heap : Heap) (q : Nat) (nq : NODE) (hq : heap[q]? = some nq) :
    ∀ (count : Nat) (nodes : List (Option Nat)) (cs : List Nat), count < nodes.length →
    nodes.take count = cs.map some → cs.length = count → (∀ c ∈ cs, c < heap.length) →
    cs.Pairwise (fun a b => (heap.getD b NODE.zero).freq ≤ (heap.getD a NODE.zero).freq) →
    ∃ (s : List (Option Nat)) (cs2 : List Nat),
      add_node heap count nodes (some q) = Res.ok s ∧ s.length = nodes.length ∧
      s.take (count + 1) = cs2.map some ∧ cs2.Perm (q :: cs) ∧
      cs2.Pairwise (fun a b => (heap.getD b NODE.zero).freq ≤ (heap.getD a NODE.zero).freq) ∧
      (∀ j, count < j → s[j]? = nodes[j]?) := by
  intro count
  induction count with
  | zero =>
    intro nodes cs hlen _ hcl _ _
    have : cs = [] := List.length_eq_zero.mp hcl
    subst this
    refine ⟨nodes.set 0 (some q), [q], rfl, by simp, ?_, List.Perm.refl _,
      List.pairwise_singleton _ _, fun j hj => List.getElem?_set_ne (by omega)⟩
    cases nodes with
    | nil => simp at hlen
    | cons x xs => simp
  | succ count ih =>
    intro nodes cs hlen htake hcl hlt hsorted
    obtain ⟨cs0, c, rfl⟩ : ∃ cs0 c, cs = cs0 ++ [c] := by
      have hne : cs ≠ [] := by intro e; rw [e] at hcl; simp at hcl
      exact ⟨cs.dropLast, cs.getLast hne, (List.dropLast_append_getLast hne).symm⟩
    have hcl0 : cs0.length = count := by simp at hcl; omega
    have hc : nodes[count]? = some (some c) := by
      have := congrArg (fun l => l[count]?) htake
      simp only [List.getElem?_take, List.map_append, List.map_cons, List.map_nil] at this
      rw [if_pos (by omega)] at this
      rw [this, List.getElem?_append_right (by simp [hcl0])]
      simp [hcl0]
    have htk0 : nodes.take count = cs0.map some := by
      have := congrArg (fun l => l.take count) htake
      simp only [List.take_take, List.map_append] at this
      rw [Nat.min_eq_left (by omega)] at this
      rw [this, List.take_append_of_le_length (by simp [hcl0])]
      simp [hcl0]
    have hclt : c < heap.length := hlt c (by simp)
    have hcn : heap[c]? = some (heap.getD c NODE.zero) := by
      rw [List.getD_eq_getElem?_getD, List.getElem?_eq_getElem hclt]; rfl
    have hcur : nodes.getD count none = some c := by
      simp [List.getD_eq_getElem?_getD, hc]
    have hqf : heap.getD q NODE.zero = nq := getD_of_getElem? heap q nq hq
    have hs0 : cs0.Pairwise
        (fun a b => (heap.getD b NODE.zero).freq ≤ (heap.getD a NODE.zero).freq) :=
      (List.pairwise_append.mp hsorted).1
    have hs1 : ∀ x ∈ cs0, (heap.getD c NODE.zero).freq ≤ (heap.getD x NODE.zero).freq :=
      fun x hx => (List.pairwise_append.mp hsorted).2.2 x hx c (by simp)
    rw [add_node]
    simp only [hcur, deref, hcn, hq]
    by_cases hge : (heap.getD c NODE.zero).freq ≥ nq.freq
    · simp only [hge, if_true]
      refine ⟨_, cs0 ++ [c] ++ [q], rfl, by simp, ?_, ?_, ?_, fun j hj => ?_⟩
      · rw [List.take_succ, take_set_ge _ _ _ _ (le_refl _), htake]
        simp [List.getElem?_set, hlen]
      · exact List.perm_append_comm.trans (List.Perm.refl _)
      · rw [List.pairwise_append]
        refine ⟨hsorted, List.pairwise_singleton _ _, fun x hx y hy => ?_⟩
        simp only [List.mem_singleton] at hy
        subst hy
        rw [hqf]
        rcases List.mem_append.mp hx with h | h
        · have := hs1 x h
          omega
        · simp only [List.mem_singleton] at h
          subst h
          exact hge
      · rw [List.getElem?_set_ne (by omega)]
    · simp only [hge, if_false]
      obtain ⟨s, cs2, hs, hl, htk, hperm, hsort, habove⟩ := ih (nodes.set (count + 1) (some c)) cs0
        (by simp; omega) (by rw [take_set_ge _ _ _ _ (by omega)]; exact htk0) hcl0
        (fun x hx => hlt x (by simp [hx])) hs0
      refine ⟨s, cs2 ++ [c], hs, by simpa using hl, ?_, ?_, ?_, fun j hj => ?_⟩
      · rw [List.take_succ, htk, habove (count + 1) (by omega)]
        simp [List.getElem?_set, hlen]
      · have h1 : (cs2 ++ [c]).Perm ((q :: cs0) ++ [c]) := List.Perm.append_right _ hperm
        exact h1
      · rw [List.pairwise_append]
        refine ⟨hsort, List.pairwise_singleton _ _, fun x hx y hy => ?_⟩
        simp only [List.mem_singleton] at hy
        subst hy
        rcases List.mem_cons.mp (hperm.subset hx) with h | h
        · subst h
          rw [hqf]
          omega
        · exact hs1 x h
      · rw [habove j (by omega), List.getElem?_set_ne (by omega)]

theorem store_parent_freq (heap : Heap) (p : Nat) (par : Option Nat) (c : Nat) :
    ((store heap p (fun n => { n with parent := par })).getD c NODE.zero).freq
      = (heap.getD c NODE.zero).freq := by
  rw [List.getD_eq_getElem?_getD, List.getD_eq_getElem?_getD, store_getElem?]
  by_cases h : c = p
  · subst h
    rw [if_pos rfl]
    cases heap[c]? <;> rfl
  · rw [if_neg h]

theorem split_last_two_cells (cs : List Nat) (n : Nat) (h : cs.length = n + 2) :
    ∃ cs0 b a, cs = cs0 ++ [b, a] ∧ cs0.length = n := by
  have h1 := List.take_append_drop n cs
  have h2 : (cs.drop n).length = 2 := by simp [h]
  match hd : cs.drop n, h2 with
  | [b, a], _ =>
    refine ⟨cs.take n, b, a, ?_, by simp [h]⟩
    rw [← hd, h1]

theorem merge_step_ordered (heap : Heap) (s : List (Option Nat)) (nc : Nat)
    (h : Ordered heap s (nc + 2)) :
    ∃ (a b : Nat) (s3 : List (Option Nat)) (h2 : Heap),
      s[nc + 1]? = some (some a) ∧ s[nc]? = some (some b) ∧
      a < heap.length ∧ b < heap.length ∧
      (heap.getD a NODE.zero).freq ≤ (heap.getD b NODE.zero).freq ∧
      (∀ j c, j < nc → s[j]? = some (some c) →
        (heap.getD b NODE.zero).freq ≤ (heap.getD c NODE.zero).freq) ∧
      merge_nodes (nc + 2) s heap = merge_nodes (nc + 1) s3 h2 ∧
      h2[heap.length]? = some
        { ch := 0,
          freq := ((heap.getD a NODE.zero).freq + (heap.getD b NODE.zero).freq) % 2 ^ 32,
          parent := none, left := some a, right := some b } ∧
      s3.length = s.length ∧ Ordered h2 s3 (nc + 1) := by
  obtain ⟨cs, htake, hcl, hlt, hsorted⟩ := h
  obtain ⟨cs0, b, a, rfl, hl0⟩ := split_last_two_cells cs nc hcl
  have hslen : nc + 2 ≤ s.length := by
    have := congrArg List.length htake
    simp only [List.length_take, List.length_map, List.length_append, List.length_cons,
      List.length_nil] at this
    omega
  have hgA : s[nc + 1]? = some (some a) := by
    have := congrArg (fun l => l[nc + 1]?) htake
    simp only [List.getElem?_take, List.map_append, List.map_cons, List.map_nil] at this
    rw [if_pos (by omega)] at this
    rw [this, List.getElem?_append_right (by simp [hl0])]
    simp [hl0]
  have hgB : s[nc]? = some (some b) := by
    have := congrArg (fun l => l[nc]?) htake
    simp only [List.getElem?_take, List.map_append, List.map_cons, List.map_nil] at this
    rw [if_pos (by omega)] at this
    rw [this, List.getElem?_append_right (by simp [hl0])]
    simp [hl0]
  have htk : s.take nc = cs0.map some := by
    have := congrArg (fun l => l.take nc) htake
    simp only [List.take_take, List.map_append] at this
    rw [Nat.min_eq_left (by omega)] at this
    rw [this, List.take_append_of_le_length (by simp [hl0])]
    simp [hl0]
  have hA : s.getD (nc + 1) none = some a := by
    simp [List.getD_eq_getElem?_getD, hgA]
  have hB : (s.set (nc + 1) none).getD nc none = some b := by
    rw [List.getD_eq_getElem?_getD, List.getElem?_set_ne (by omega), hgB]; rfl
  have halt : a < heap.length := hlt a (by simp)
  have hblt : b < heap.length := hlt b (by simp)
  have hna : heap[a]? = some (heap.getD a NODE.zero) := by
    rw [List.getD_eq_getElem?_getD, List.getElem?_eq_getElem halt]; rfl
  have hnb : heap[b]? = some (heap.getD b NODE.zero) := by
    rw [List.getD_eq_getElem?_getD, List.getElem?_eq_getElem hblt]; rfl
  obtain ⟨hs0, hba, hcross⟩ := List.pairwise_append.mp hsorted
  have hab : (heap.getD a NODE.zero).freq ≤ (heap.getD b NODE.zero).freq := by
    simpa using hba
  generalize hnew : NODE.mk 0
      (((heap.getD a NODE.zero).freq + (heap.getD b NODE.zero).freq) % 2 ^ 32)
      none (some a) (some b) = newnode
  generalize hh1 : store (heap ++ [newnode]) a
    (fun n => { n with parent := some heap.length }) = h1
  generalize hh2 : store h1 b (fun n => { n with parent := some heap.length }) = h2
  have hfreq : ∀ c, c < heap.length →
      (h2.getD c NODE.zero).freq = (heap.getD c NODE.zero).freq := by
    intro c hc
    rw [← hh2, store_parent_freq, ← hh1, store_parent_freq, List.getD_eq_getElem?_getD,
      List.getD_eq_getElem?_getD, List.getElem?_append_left hc]
  have hq : h2[heap.length]? = some newnode := by
    rw [← hh2, store_getElem?_ne _ _ _ _ (by omega), ← hh1, store_getElem?_ne _ _ _ _ (by omega)]
    simp
  have hlen2 : h2.length = heap.length + 1 := by
    rw [← hh2, store_length, ← hh1, store_length]; simp
  have hs0b : cs0.Pairwise
      (fun x y => (h2.getD y NODE.zero).freq ≤ (h2.getD x NODE.zero).freq) := by
    refine List.Pairwise.imp_of_mem ?_ hs0
    intro x y hx hy hxy
    rw [hfreq x (hlt x (by simp [hx])), hfreq y (hlt y (by simp [hy]))]
    exact hxy
  obtain ⟨s3, cs2, hadd, hl3, htk3, hperm, hsort3, _⟩ := add_node_ordered h2 heap.length newnode hq
    nc ((s.set (nc + 1) none).set nc none) cs0 (by simp; omega)
    (by rw [take_set_ge _ _ _ _ (le_refl _), take_set_ge _ _ _ _ (by omega)]; exact htk) hl0
    (fun c hc => by have := hlt c (by simp [hc]); omega) hs0b
  refine ⟨a, b, s3, h2, hgA, hgB, halt, hblt, hab, ?_, ?_, hnew ▸ hq, by simpa using hl3, cs2,
    htk3, ?_, ?_, hsort3⟩
  · intro j c hj hjc
    have hmem : c ∈ cs0 := by
      have h1 : some c ∈ s.take nc := by
        refine List.getElem?_mem (n := j) ?_
        rw [List.getElem?_take, if_pos hj]
        exact hjc
      rw [htk, List.mem_map] at h1
      obtain ⟨c1, hc1, e⟩ := h1
      simp only [Option.some.injEq] at e
      subst e
      exact hc1
    exact hcross c hmem b (by simp)
  · rw [merge_nodes]
    simp only [hA, hB, deref, hna, hnb, malloc]
    rw [hnew, hh1, hh2, hadd]
  · have := hperm.length_eq
    simp only [List.length_cons] at this
    omega
  · intro c hc
    rcases List.mem_cons.mp (hperm.subset hc) with e | e
    · omega
    · have := hlt c (by simp [e]); omega

theorem sorted_list_ordered (bytes : List Nat) (hb : ∀ b ∈ bytes, b < 256)
    (hlen : bytes.length < 2 ^ 31) :
    ∃ nl heap1,
      init_node_list { root := none, node_list := [] } []
          { cells := add_counts (List.replicate MAX_CHAR 0) bytes, stray := 1 }
        = (SUCCESS, { root := none, node_list := nl }, heap1) ∧
      Ordered heap1 (qsort_merge (compare_nodes heap1) nl)
        (count_nodes (MAX_CHAR + 1) (qsort_merge (compare_nodes heap1) nl) 0) := by
  generalize hcells : add_counts (List.replicate MAX_CHAR 0) bytes = cells
  have hcell : ∀ v, v < 256 → cells.getD v 0 = bytes.count v := by
    intro v hv
    rw [← hcells]
    exact add_counts_small bytes hb v hv (by have := List.count_le_length v bytes; omega)
  obtain ⟨nl, heap1, ts, _, _, _, hinit, hLT, htake, htslen, hleaf, _, _, _, _⟩ :=
    build_tree_nodes_spec qsort_merge (fun cmp l => (qsort_merge_spec cmp l).1)
      { cells := cells, stray := 1 } []
  simp only at hLT htake htslen hleaf
  refine ⟨nl, heap1, hinit, ?_⟩
  have hs : qsort_merge (compare_nodes heap1) nl = msort (compare_nodes heap1) nl.length nl := rfl
  generalize hsd : qsort_merge (compare_nodes heap1) nl = s at htake htslen hs ⊢
  generalize count_nodes (MAX_CHAR + 1) s 0 = nc at htake htslen ⊢
  have hnode : ∀ (v c : Nat), nl[v]? = some (some c) →
      c < heap1.length ∧ (heap1.getD c NODE.zero).freq < 2 ^ 31 := by
    intro v c hv
    obtain ⟨h1, _, h3⟩ := leaf_table_entry _ _ _ hLT v c hv
    refine ⟨(List.getElem?_eq_some_iff.mp h3).1, ?_⟩
    rw [getD_of_getElem? heap1 c _ h3]
    simp only
    rw [hcell v h1]
    have := List.count_le_length v bytes
    omega
  have hlead : (s.takeWhile Option.isSome).Pairwise
      (fun a b => compare_nodes heap1 a b ≤ 0) := by
    rw [hs]
    refine msort_lead_pairwise (compare_nodes heap1)
      (fun p => ∃ c, p = some c ∧ (heap1.getD c NODE.zero).freq < 2 ^ 31) ?_ ?_ _ nl
      (by omega) ?_
    · rintro a ⟨ca, rfl, ha⟩ b ⟨cb, rfl, hb2⟩
      rw [compare_nodes_some heap1 ca cb ha hb2, compare_nodes_some heap1 cb ca hb2 ha]
      omega
    · rintro a ⟨ca, rfl, ha⟩ b ⟨cb, rfl, hb2⟩ c ⟨cc, rfl, hc⟩
      rw [compare_nodes_some heap1 ca cb ha hb2, compare_nodes_some heap1 cb cc hb2 hc,
        compare_nodes_some heap1 ca cc ha hc]
      omega
    · intro z hz hsome
      cases z with
      | none => exact absurd hsome (by simp)
      | some c =>
        obtain ⟨v, hv⟩ := List.getElem?_of_mem hz
        exact ⟨c, rfl, (hnode v c hv).2⟩
  have hmap : (fun t : PTree => some t.cell) = (fun c => some c) ∘ PTree.cell := rfl
  rw [hmap, ← List.map_map] at htake
  have hcs : ∀ c ∈ ts.map PTree.cell,
      c < heap1.length ∧ (heap1.getD c NODE.zero).freq < 2 ^ 31 := by
    intro c hc
    obtain ⟨t, ht, rfl⟩ := List.mem_map.mp hc
    obtain ⟨c1, v1, e, _, _, hnl⟩ := hleaf t ht
    subst e
    exact hnode v1 c1 hnl
  refine ⟨ts.map PTree.cell, htake, by simpa using htslen, fun c hc => (hcs c hc).1, ?_⟩
  have hall : ∀ p ∈ s.take nc, p.isSome = true := by
    intro p hp
    rw [htake] at hp
    obtain ⟨c, _, rfl⟩ := List.mem_map.mp hp
    rfl
  have hsub : (s.take nc).Pairwise (fun a b => compare_nodes heap1 a b ≤ 0) := by
    rw [take_of_lead s nc hall]
    exact List.Pairwise.sublist (List.take_sublist _ _) hlead
  rw [htake, List.pairwise_map] at hsub
  refine List.Pairwise.imp_of_mem ?_ hsub
  intro x y hx hy hxy
  rw [compare_nodes_some heap1 x y (hcs x hx).2 (hcs y hy).2] at hxy
  omega

theorem merge_nodes_ordered : ∀ (nc : Nat) (s : List (Option Nat)) (heap : Heap),
    Ordered heap s nc →
    ∃ s2 heap2, merge_nodes nc s heap = Res.ok (s2, heap2) ∧ Ordered heap2 s2 (min nc 1) := by
  intro nc
  induction nc with
  | zero => intro s heap h; exact ⟨s, heap, rfl, h⟩
  | succ n ih =>
    cases n with
    | zero => intro s heap h; exact ⟨s, heap, rfl, h⟩
    | succ m =>
      intro s heap h
      obtain ⟨a, b, s3, h2, _, _, _, _, _, _, hm, _, _, ho⟩ := merge_step_ordered heap s m h
      obtain ⟨s2, heap2, hm2, ho2⟩ := ih s3 h2 ho
      exact ⟨s2, heap2, by rw [hm, hm2], by simpa using ho2⟩

/-- Claim C18. For every input of length below `2^31`, with the merge sort of
the C library, the first `node_count` entries of `sorted_nodes` are non-null
and in non-increasing `freq` order when the merge loop starts. In every
iteration that starts in such a state the two nodes removed from the tail,
`smallest` and `small`, have the two smallest weights of the list, the new
branch has their sum as `freq` and them as children, and after `add_node` the
first `node_count - 1` entries are again non-null and in non-increasing
`freq` order, which is the state in which the next iteration starts; the loop
runs to its end in such states. -/
theorem merge_loop_keeps_order (bytes : List Nat) (hb : ∀ b ∈ bytes, b < 256)
    (hlen : bytes.length < 2 ^ 31) :
    ∃ f nl heap1,
      calc_freq_table (FILE.open bytes)
        = Res.ok (SUCCESS, f,
            { cells := add_counts (List.replicate MAX_CHAR 0) bytes, stray := 1 }) ∧
      init_node_list { root := none, node_list := [] } []
          { cells := add_counts (List.replicate MAX_CHAR 0) bytes, stray := 1 }
        = (SUCCESS, { root := none, node_list := nl }, heap1) ∧
      Ordered heap1 (qsort_merge (compare_nodes heap1) nl)
        (count_nodes (MAX_CHAR + 1) (qsort_merge (compare_nodes heap1) nl) 0) ∧
      (∀ (heap : Heap) (s : List (Option Nat)) (nc : Nat), Ordered heap s (nc + 2) →
        ∃ (a b : Nat) (s3 : List (Option Nat)) (h2 : Heap),
          s[nc + 1]? = some (some a) ∧ s[nc]? = some (some b) ∧
          a < heap.length ∧ b < heap.length ∧
          (heap.getD a NODE.zero).freq ≤ (heap.getD b NODE.zero).freq ∧
          (∀ j c, j < nc → s[j]? = some (some c) →
            (heap.getD b NODE.zero).freq ≤ (heap.getD c NODE.zero).freq) ∧
          merge_nodes (nc + 2) s heap = merge_nodes (nc + 1) s3 h2 ∧
          h2[heap.length]? = some
            { ch := 0,
              freq := ((heap.getD a NODE.zero).freq + (heap.getD b NODE.zero).freq) % 2 ^ 32,
              parent := none, left := some a, right := some b } ∧
          s3.length = s.length ∧ Ordered h2 s3 (nc + 1)) ∧
      (∀ (heap : Heap) (s : List (Option Nat)) (nc : Nat), Ordered heap s nc →
        ∃ s2 heap2, merge_nodes nc s heap = Res.ok (s2, heap2) ∧
          Ordered heap2 s2 (min nc 1)) := by
  obtain ⟨nl, heap1, hinit, hord⟩ := sorted_list_ordered bytes hb hlen
  exact ⟨_, nl, heap1, calc_freq_table_open bytes hb (FILE.open bytes) rfl, hinit, hord,
    merge_step_ordered, fun heap s nc h => merge_nodes_ordered nc s heap h⟩

theorem merge_loop_keeps_order_witness :
    ∃ f nl heap1,
      calc_freq_table (FILE.open [65, 66, 66])
        = Res.ok (SUCCESS, f,
            { cells := add_counts (List.replicate MAX_CHAR 0) [65, 66, 66], stray := 1 }) ∧
      init_node_list { root := none, node_list := [] } []
          { cells := add_counts (List.replicate MAX_CHAR 0) [65, 66, 66], stray := 1 }
        = (SUCCESS, { root := none, node_list := nl }, heap1) ∧
      Ordered heap1 (qsort_merge (compare_nodes heap1) nl)
        (count_nodes (MAX_CHAR + 1) (qsort_merge (compare_nodes heap1) nl) 0) ∧
      (∀ (heap : Heap) (s : List (Option Nat)) (nc : Nat), Ordered heap s (nc + 2) →
        ∃ (a b : Nat) (s3 : List (Option Nat)) (h2 : Heap),
          s[nc + 1]? = some (some a) ∧ s[nc]? = some (some b) ∧
          a < heap.length ∧ b < heap.length ∧
          (heap.getD a NODE.zero).freq ≤ (heap.getD b NODE.zero).freq ∧
          (∀ j c, j < nc → s[j]? = some (some c) →
            (heap.getD b NODE.zero).freq ≤ (heap.getD c NODE.zero).freq) ∧
          merge_nodes (nc + 2) s heap = merge_nodes (nc + 1) s3 h2 ∧
          h2[heap.length]? = some
            { ch := 0,
              freq := ((heap.getD a NODE.zero).freq + (heap.getD b NODE.zero).freq) % 2 ^ 32,
              parent := none, left := some a, right := some b } ∧
          s3.length = s.length ∧ Ordered h2 s3 (nc + 1)) ∧
      (∀ (heap : Heap) (s : List (Option Nat)) (nc : Nat), Ordered heap s nc →
        ∃ s2 heap2, merge_nodes nc s heap = Res.ok (s2, heap2) ∧
          Ordered heap2 s2 (min nc 1)) :=
  merge_loop_keeps_order [65, 66, 66] (by decide) (by decide)

/-! ## The leaves in the arena -/

theorem store_parent_shape (heap : Heap) (p : Nat) (par : Option Nat) (c : Nat) :
    ((store heap p (fun n => { n with parent := par }))[c]? = none ↔ heap[c]? = none) ∧
    ∀ n2, (store heap p (fun n => { n with parent := par }))[c]? = some n2 →
      ∃ n, heap[c]? = some n ∧ n2.ch = n.ch ∧ n2.freq = n.freq ∧ n2.left = n.left ∧
        n2.right = n.right := by
  rw [store_getElem?]
  by_cases h : c = p
  · subst h
    rw [if_pos rfl]
    cases heap[c]? with
    | none => simp
    | some n =>
      refine ⟨by simp, fun n2 h2 => ⟨n, rfl, ?_⟩⟩
      simp only [Option.map_some', Option.some.injEq] at h2
      subst h2
      exact ⟨rfl, rfl, rfl, rfl⟩
  · rw [if_neg h]
    exact ⟨Iff.rfl, fun n2 h2 => ⟨n2, h2, rfl, rfl, rfl, rfl⟩⟩

theorem merge_nodes_frame : ∀ (nc : Nat) (s s2 : List (Option Nat)) (heap heap2 : Heap),
    merge_nodes nc s heap = Res.ok (s2, heap2) →
    heap.length ≤ heap2.length ∧
    ∀ c n2, heap2[c]? = some n2 →
      (∃ n, heap[c]? = some n ∧ n2.ch = n.ch ∧ n2.freq = n.freq ∧ n2.left = n.left ∧
        n2.right = n.right) ∨
      (heap.length ≤ c ∧ n2.left ≠ none ∧ n2.right ≠ none) := by
  intro nc
  induction nc with
  | zero =>
    intro s s2 heap heap2 h
    simp only [merge_nodes, Res.ok.injEq, Prod.mk.injEq] at h
    obtain ⟨_, rfl⟩ := h
    exact ⟨le_refl _, fun c n2 h2 => Or.inl ⟨n2, h2, rfl, rfl, rfl, rfl⟩⟩
  | succ n ih =>
    cases n with
    | zero =>
      intro s s2 heap heap2 h
      simp only [merge_nodes, Res.ok.injEq, Prod.mk.injEq] at h
      obtain ⟨_, rfl⟩ := h
      exact ⟨le_refl _, fun c n2 h2 => Or.inl ⟨n2, h2, rfl, rfl, rfl, rfl⟩⟩
    | succ m =>
      intro s s2 heap heap2 h
      rw [merge_nodes] at h
      simp only at h
      split at h
      · rename_i ns nm ps pm hd1 hd2 e1 e2
        simp only [malloc] at h
        split at h
        · rename_i s3 hadd
          obtain ⟨hlen, hrest⟩ := ih _ _ _ _ h
          rw [store_length, store_length, List.length_append, List.length_singleton] at hlen
          refine ⟨by omega, fun c n2 h2 => ?_⟩
          rcases hrest c n2 h2 with ⟨n1, hn1, f1, f2, f3, f4⟩ | ⟨hge, hl, hr⟩
          · obtain ⟨n0, hn0, g1, g2, g3, g4⟩ := (store_parent_shape _ _ _ c).2 n1 hn1
            obtain ⟨na, hna, k1, k2, k3, k4⟩ := (store_parent_shape _ _ _ c).2 n0 hn0
            by_cases hc : c < heap.length
            · rw [List.getElem?_append_left hc] at hna
              exact Or.inl ⟨na, hna, by rw [f1, g1, k1], by rw [f2, g2, k2], by rw [f3, g3, k3],
                by rw [f4, g4, k4]⟩
            · right
              have hc2 : c = heap.length := by
                have := (List.getElem?_eq_some_iff.mp hna).1
                simp only [List.length_append, List.length_singleton] at this
                omega
              subst hc2
              simp only [List.getElem?_concat_length, Option.some.injEq] at hna
              subst hna
              refine ⟨le_refl _, ?_, ?_⟩
              · rw [f3, g3, k3]
                show s.getD (m + 1) none ≠ none
                rw [e1]
                exact Option.some_ne_none _
              · rw [f4, g4, k4]
                show (s.set (m + 1) none).getD m none ≠ none
                rw [e2]
                exact Option.some_ne_none _
          · rw [store_length, store_length, List.length_append, List.length_singleton] at hge
            exact Or.inr ⟨by omega, hl, hr⟩
        · exact absurd h (by simp)
      · exact absurd h (by simp)
      · exact absurd h (by simp)
      · exact absurd h (by simp)

theorem init_node_loop_cells (ft : FREQTABLE) : ∀ (n i : Nat) (tree : TREE) (heap : Heap),
    tree.node_list.length = 256 → i + n = 256 →
    (∀ c, c < heap.length → ∃ v, v < i ∧ tree.node_list[v]? = some (some c)) →
    ∀ c, c < (init_node_loop ft n i tree heap).2.length →
      ∃ v, v < 256 ∧ (init_node_loop ft n i tree heap).1.node_list[v]? = some (some c) := by
  intro n
  induction n with
  | zero =>
    intro i tree heap _ hi h c hc
    obtain ⟨v, hv, e⟩ := h c hc
    exact ⟨v, by omega, e⟩
  | succ n ih =>
    intro i tree heap hlen hi h
    rw [init_node_loop]
    by_cases hpos : ft.cells.getD i 0 > 0
    · rw [if_pos hpos]
      refine ih (i + 1) _ _ (by simpa using hlen) (by omega) (fun c hc => ?_)
      simp only [malloc, List.length_append, List.length_singleton] at hc ⊢
      by_cases hcl : c < heap.length
      · obtain ⟨v, hv, e⟩ := h c hcl
        exact ⟨v, by omega, by rw [List.getElem?_set_ne (by omega)]; exact e⟩
      · have : c = heap.length := by omega
        subst this
        exact ⟨i, by omega, List.getElem?_set_self (by rw [hlen]; omega)⟩
    · rw [if_neg hpos]
      exact ih (i + 1) _ _ hlen (by omega) (fun c hc => by
        obtain ⟨v, hv, e⟩ := h c hc
        exact ⟨v, by omega, e⟩)

theorem init_node_list_cells (ft : FREQTABLE) (nl : List (Option Nat)) (heap1 : Heap)
    (h : init_node_list { root := none, node_list := [] } [] ft
      = (SUCCESS, { root := none, node_list := nl }, heap1)) :
    ∀ c, c < heap1.length → ∃ v, v < 256 ∧ nl[v]? = some (some c) := by
  have key := init_node_loop_cells ft MAX_CHAR 0
    { root := none, node_list := List.replicate MAX_CHAR none } []
    (List.length_replicate _ _) rfl (fun c hc => absurd hc (by simp))
  rw [init_node_list] at h
  generalize init_node_loop ft MAX_CHAR 0
    { root := none, node_list := List.replicate MAX_CHAR none } [] = r at h key
  simp only [Prod.mk.injEq, true_and] at h
  obtain ⟨h1, h2⟩ := h
  rw [h1, h2] at key
  exact key

/-- Claim C15, for inputs in which every byte value occurs fewer than `2^32`
times (the counters have 32 bits). With a conforming `qsort`, in the result
of `build_tree` the entry `node_list[v]` is null for every value that does
not occur and points to a childless node with `ch = v` and `freq` the number
of occurrences of `v` for every value that occurs; these are all the leaves
there are: every node of the arena without a left child is the entry of
`node_list` for its `ch`, a value that occurs, and carries its count. For the
empty input the root is null; in general the root is null or the root of a
strict binary tree held by the arena, all of whose leaves are among them. -/
theorem build_tree_leaf_set
    (qsort : (Option Nat → Option Nat → Int) → List (Option Nat) → List (Option Nat))
    (hq : QsortSpec qsort) (bytes : List Nat) (hb : ∀ b ∈ bytes, b < 256)
    (hcount : ∀ v, bytes.count v < 2 ^ 32) :
    ∃ tree f heap, build_tree qsort (FILE.open bytes) [] = Res.ok (some tree, f, heap) ∧
      (∀ v : Nat, v < 256 → bytes.count v = 0 → tree.node_list[v]? = some none) ∧
      (∀ v : Nat, v < 256 → 0 < bytes.count v → ∃ (c : Nat) (par : Option Nat),
        tree.node_list[v]? = some (some c) ∧
        heap[c]? = some { ch := v, freq := bytes.count v, parent := par, left := none,
                          right := none }) ∧
      (∀ (c : Nat) (n : NODE), heap[c]? = some n → n.left = none →
        n.right = none ∧ n.ch < 256 ∧ 0 < bytes.count n.ch ∧ n.freq = bytes.count n.ch ∧
          tree.node_list[n.ch]? = some (some c)) ∧
      (bytes = [] → tree.root = none) ∧
      (tree.root = none ∨ ∃ t : PTree, tree.root = some t.cell ∧ holds heap none t = true ∧
        ∀ (c v w : Nat), PTree.leaf c v w ∈ t.leaf_list →
          v < 256 ∧ 0 < bytes.count v ∧ w = bytes.count v ∧
            tree.node_list[v]? = some (some c)) := by
  generalize hcells : add_counts (List.replicate MAX_CHAR 0) bytes = cells
  have hcell : ∀ v, v < 256 → cells.getD v 0 = bytes.count v := by
    intro v hv
    rw [← hcells]
    exact add_counts_small bytes hb v hv (hcount v)
  obtain ⟨nl, heap1, ts, s2, heap2, ts2, hinit, hLT, _, _, hleaf, hbuild, hf2, hperm2,
    hnil⟩ := build_tree_nodes_spec qsort (fun cmp l => (hq cmp l).1)
      { cells := cells, stray := 1 } []
  simp only at hLT hleaf
  have hcellsof := init_node_list_cells _ nl heap1 hinit
  -- the arena after the merge loop
  have hframe : ∀ (c : Nat) (n2 : NODE), heap2[c]? = some n2 →
      (∃ n, heap1[c]? = some n ∧ n2.ch = n.ch ∧ n2.freq = n.freq ∧ n2.left = n.left ∧
        n2.right = n.right) ∨ (heap1.length ≤ c ∧ n2.left ≠ none ∧ n2.right ≠ none) := by
    have hb2 := hbuild
    rw [build_tree_nodes] at hb2
    simp only [hinit, SUCCESS, FAILURE, Nat.zero_ne_one, if_false] at hb2
    cases hm : merge_nodes
        (count_nodes (MAX_CHAR + 1) (qsort (compare_nodes heap1) nl) 0)
        (qsort (compare_nodes heap1) nl) heap1 with
    | fault e => rw [hm] at hb2; exact absurd hb2 (by simp)
    | ok r =>
      obtain ⟨s5, h5⟩ := r
      rw [hm] at hb2
      simp only [Res.ok.injEq, Prod.mk.injEq] at hb2
      rw [← hb2.2]
      exact (merge_nodes_frame _ _ _ _ _ hm).2
  have hkeep : ∀ (c : Nat) (n : NODE), heap1[c]? = some n → ∃ n2 : NODE,
      heap2[c]? = some n2 ∧ n2.ch = n.ch ∧
      n2.freq = n.freq ∧ n2.left = n.left ∧ n2.right = n.right := by
    intro c n hn
    have hb2 := hbuild
    rw [build_tree_nodes] at hb2
    simp only [hinit, SUCCESS, FAILURE, Nat.zero_ne_one, if_false] at hb2
    cases hm : merge_nodes
        (count_nodes (MAX_CHAR + 1) (qsort (compare_nodes heap1) nl) 0)
        (qsort (compare_nodes heap1) nl) heap1 with
    | fault e => rw [hm] at hb2; exact absurd hb2 (by simp)
    | ok r =>
      obtain ⟨s5, h5⟩ := r
      rw [hm] at hb2
      simp only [Res.ok.injEq, Prod.mk.injEq] at hb2
      have hfr := merge_nodes_frame _ _ _ _ _ hm
      rw [hb2.2] at hfr
      have hclt : c < heap2.length := by
        have := (List.getElem?_eq_some_iff.mp hn).1
        omega
      have hex : heap2[c]? = some (heap2.getD c NODE.zero) := by
        rw [List.getD_eq_getElem?_getD, List.getElem?_eq_getElem hclt]; rfl
      rcases hfr.2 c _ hex with ⟨n1, hn1, f1, f2, f3, f4⟩ | ⟨hge, _, _⟩
      · rw [hn] at hn1
        simp only [Option.some.injEq] at hn1
        subst hn1
        exact ⟨_, hex, f1, f2, f3, f4⟩
      · have := (List.getElem?_eq_some_iff.mp hn).1
        omega
  subst hcells
  refine ⟨_, _, heap2, build_tree_open qsort bytes hb [] _ heap2 hbuild, ?_, ?_, ?_, ?_, ?_⟩
  · intro v hv h0
    exact (hLT.2 v hv).2 (fun h => by rw [hcell v hv, h0] at h; exact absurd h.2 (by omega))
  · intro v hv hpos
    obtain ⟨c, h1, h2⟩ := (hLT.2 v hv).1 ⟨hv, by rw [hcell v hv]; exact hpos⟩
    obtain ⟨n2, hn2, f1, f2, f3, f4⟩ := hkeep c _ h2
    refine ⟨c, n2.parent, h1, ?_⟩
    rw [hn2]
    simp only at f1 f2 f3 f4
    rw [hcell v hv] at f2
    cases n2
    simp only at f1 f2 f3 f4
    subst f1 f2 f3 f4
    rfl
  · intro c n2 hn2 hleft
    rcases hframe c n2 hn2 with ⟨n, hn, f1, f2, f3, f4⟩ | ⟨_, hl, _⟩
    · obtain ⟨v, hv, hnl⟩ := hcellsof c (List.getElem?_eq_some_iff.mp hn).1
      obtain ⟨_, hpos, hnode⟩ := leaf_table_entry _ _ _ hLT v c hnl
      rw [hn] at hnode
      simp only [Option.some.injEq] at hnode
      subst hnode
      simp only at f1 f2 f3 f4
      rw [hcell v hv] at hpos f2
      rw [f1]
      exact ⟨f4, hv, hpos, f2, hnl⟩
    · exact absurd hleft hl
  · intro hempty
    apply hnil
    rw [List.eq_nil_iff_forall_not_mem]
    intro t ht
    obtain ⟨c1, v1, e, hv1, hp, _⟩ := hleaf t ht
    rw [hcell v1 hv1, hempty] at hp
    simp at hp
  · cases ts with
    | nil => exact Or.inl (hnil rfl)
    | cons t0 ts0 =>
      right
      obtain ⟨_, hlen, htake, hholds, _⟩ := hf2
      have h1 : min (t0 :: ts0).length 1 = 1 := by simp
      rw [h1] at hlen htake
      match ts2, hlen with
      | [t], _ =>
        have hroot : s2.getD 0 none = some t.cell := by
          have := congrArg (fun l => l[0]?) htake
          simp only [List.getElem?_take, List.map_cons, List.map_nil] at this
          simp only [List.getD_eq_getElem?_getD]
          simp at this
          rw [this]; rfl
        refine ⟨t, hroot, hholds t (by simp), fun c v w hu => ?_⟩
        have hm2 : PTree.leaf c v w ∈ forest_leaves [t] := by simpa [forest_leaves] using hu
        obtain ⟨c1, v1, e, hv1, hp, hnl⟩ := hleaf _ (hperm2.subset hm2)
        simp only [PTree.leaf.injEq] at e
        obtain ⟨rfl, rfl, rfl⟩ := e
        rw [hcell v hv1] at hp ⊢
        exact ⟨hv1, hp, rfl, hnl⟩

theorem build_tree_leaf_set_witness :
    ∃ tree f heap, build_tree qsort_model (FILE.open [65, 66, 66]) []
        = Res.ok (some tree, f, heap) ∧
      (∀ v : Nat, v < 256 → [65, 66, 66].count v = 0 → tree.node_list[v]? = some none) ∧
      (∀ v : Nat, v < 256 → 0 < [65, 66, 66].count v → ∃ (c : Nat) (par : Option Nat),
        tree.node_list[v]? = some (some c) ∧
        heap[c]? = some { ch := v, freq := [65, 66, 66].count v, parent := par, left := none,
                          right := none }) ∧
      (∀ (c : Nat) (n : NODE), heap[c]? = some n → n.left = none →
        n.right = none ∧ n.ch < 256 ∧ 0 < [65, 66, 66].count n.ch ∧
          n.freq = [65, 66, 66].count n.ch ∧ tree.node_list[n.ch]? = some (some c)) ∧
      (([65, 66, 66] : List Nat) = [] → tree.root = none) ∧
      (tree.root = none ∨ ∃ t : PTree, tree.root = some t.cell ∧ holds heap none t = true ∧
        ∀ (c v w : Nat), PTree.leaf c v w ∈ t.leaf_list →
          v < 256 ∧ 0 < [65, 66, 66].count v ∧ w = [65, 66, 66].count v ∧
            tree.node_list[v]? = some (some c)) :=
  build_tree_leaf_set qsort_model qsort_model_spec [65, 66, 66] (by decide)
    (fun v => lt_of_le_of_lt (List.count_le_length _ _) (by decide))

end Huffmann
